import Mathlib

/-!
# CVPuzzleSolver: boundary extraction, contour tracing, contour simplification

A shallow embedding of `libimages/algorithms/extract_contour.cpp` and
`libimages/algorithms/simplify_contours.cpp` (`simplifyContour` and
`splitContourByCorners`), followed by the properties established about it.

Conventions of the embedding.

* `int` coordinates are `Int`; image dimensions and container sizes are `Nat`.
  All coordinate arithmetic of the sources stays within `[-1, max w h]`, and the
  `long long` accumulator of the shoelace sum is taken in `Int`
  (`area2Partial_rawTrace_fits` bounds it by `2^63` on rasters of up to `2^31 - 8`
  pixels).
* `std::vector` is `List`; `push_back` is `· ++ [·]`.
* A `for` loop with `break` is a `List.find?`, `List.findSome?` or `List.any`
  over the `List.range` of its counter; a `while` loop is a structural recursion
  on the number of iterations its own guard still allows.
* `d & 7` on a non-negative `d` is `d % 8`.
* A `double` cost is the exact fraction `Cost.frac num den`; `std::sort` on indices is
  the ascending `List.insertionSort` and `std::unique` is `stdUnique`.
-/

namespace CVPuzzleSolver

/-! ## Data model -/

/-- The pixel coordinate type `point2i` of `libbase/point2.h`: two signed integers. -/
structure point2i where
  x : Int
  y : Int
deriving DecidableEq, Inhabited

/-- Modelled from the spec: the raster type `image8u` of `libimages/image.h`, which is
not among the sources. The spec describes it as a 2D raster of single-channel samples
with width and height fixed at creation, read by pixel coordinate `(row, col)`.
Samples are kept row-major in `data`; a sample is a number `0..255`. -/
structure image8u where
  width : Nat
  height : Nat
  data : List Nat
deriving DecidableEq

/-- Modelled from the spec: the constructor `image8u(w, h, 1)`, a fresh raster of the
given size, every sample background (zero). The spec has the boundary extractor write
into "a fresh output" whose unmarked pixels are background, and `main.cpp` calls a
freshly constructed image a black picture. -/
def image8u.create (w h : Nat) : image8u :=
  ⟨w, h, List.replicate (w * h) 0⟩

/-- Modelled from the spec: read access `m(row, col)` of `image8u` for a
single-channel raster. -/
def image8u.get (m : image8u) (row col : Int) : Nat :=
  m.data.getD (row.toNat * m.width + col.toNat) 0

/-- Modelled from the spec: write access `m(row, col) = v` of `image8u`. -/
def image8u.put (m : image8u) (row col : Int) (v : Nat) : image8u :=
  { m with data := m.data.set (row.toNat * m.width + col.toNat) v }

/-- The foreground sentinel `kFg`. -/
def kFg : Nat := 255

/-- The bounds test `inBounds(x, y, w, h)`. -/
def inBounds (x y : Int) (w h : Nat) : Bool :=
  decide (x ≥ 0) && decide (x < (w : Int)) && decide (y ≥ 0) && decide (y < (h : Int))

/-- The guarded foreground test `isFg(m, x, y)`: out of bounds counts as background. -/
def isFg (m : image8u) (x y : Int) : Bool :=
  if !inBounds x y m.width m.height then false
  else m.get y x == kFg

/-- The table `dx8`: clockwise neighbour order in image coordinates,
0:E, 1:SE, 2:S, 3:SW, 4:W, 5:NW, 6:N, 7:NE. -/
def dx8 (k : Nat) : Int :=
  ([1, 1, 0, -1, -1, -1, 0, 1] : List Int).getD k 0

/-- The table `dy8`. -/
def dy8 (k : Nat) : Int :=
  ([0, 1, 1, 1, 0, -1, -1, -1] : List Int).getD k 0

/-- The function `dirFromDelta`: the direction index of an 8-neighbour delta,
`-1` when the delta is none. -/
def dirFromDelta (dx dy : Int) : Int :=
  if dx = 1 ∧ dy = 0 then 0
  else if dx = 1 ∧ dy = 1 then 1
  else if dx = 0 ∧ dy = 1 then 2
  else if dx = -1 ∧ dy = 1 then 3
  else if dx = -1 ∧ dy = 0 then 4
  else if dx = -1 ∧ dy = -1 then 5
  else if dx = 0 ∧ dy = -1 then 6
  else if dx = 1 ∧ dy = -1 then 7
  else -1

/-- The function `signedArea2_imageCoords`: twice the shoelace area, zero for fewer
than three points. -/
def signedArea2_imageCoords (poly : List point2i) : Int :=
  if poly.length < 3 then 0
  else
    let n := poly.length
    (List.range n).foldl
      (fun (a2 : Int) (i : Nat) =>
        let p := poly.getD i default
        let q := poly.getD ((i + 1) % n) default
        a2 + (p.x * q.y - q.x * p.y))
      0

/-- The loop of `rotateToMinYX`: the index of the first point that is least by
`(y, x)`. -/
def bestIndex (pts : List point2i) : Nat :=
  (List.range' 1 (pts.length - 1)).foldl
    (fun (best i : Nat) =>
      let pi := pts.getD i default
      let pb := pts.getD best default
      if pi.y < pb.y ∨ (pi.y = pb.y ∧ pi.x < pb.x) then i else best)
    0

/-- The function `rotateToMinYX`: `std::rotate` brings the element at `best` to the
front, keeping the cyclic order. -/
def rotateToMinYX (pts : List point2i) : List point2i :=
  if pts.isEmpty then pts
  else
    let best := bestIndex pts
    pts.drop best ++ pts.take best

/-! ## Boundary extractor -/

/-- The inner test of `buildContourMask`: some neighbour of `(x, y)` is out of bounds
or not foreground. -/
def isBoundaryAt (objectMask : image8u) (x y : Int) : Bool :=
  (List.range 8).any fun (k : Nat) =>
    let nx := x + dx8 k
    let ny := y + dy8 k
    !inBounds nx ny objectMask.width objectMask.height || objectMask.get ny nx != kFg

/-- The function `buildContourMask`. -/
def buildContourMask (objectMask : image8u) : image8u :=
  let w := objectMask.width
  let h := objectMask.height
  (List.range h).foldl
    (fun (contour : image8u) (y : Nat) =>
      (List.range w).foldl
        (fun (contour : image8u) (x : Nat) =>
          if objectMask.get y x != kFg then contour
          else if isBoundaryAt objectMask x y then contour.put y x kFg
          else contour)
        contour)
    (image8u.create w h)

/-! ## Contour tracer -/

/-- The start scan of `extractContour`: rows top to bottom, columns left to right,
the first foreground pixel; `none` stands for the sentinel `{-1, -1}`. -/
def findStart (m : image8u) : Option point2i :=
  (List.range m.height).findSome? fun (y : Nat) =>
    ((List.range m.width).find? fun (x : Nat) => m.get y x == kFg).map
      fun (x : Nat) => ⟨x, y⟩

/-- The test `hasNeighbor` of `extractContour`. -/
def hasNeighbor (m : image8u) (start : point2i) : Bool :=
  (List.range 8).any fun (k : Nat) => isFg m (start.x + dx8 k) (start.y + dy8 k)

/-- The lambda `step` of `extractContour`: from pixel `p` with backtrack point
`back`, the next contour pixel and the new backtrack point. -/
def step (m : image8u) (dir_b : Int) (p back : point2i) : point2i × point2i :=
  let db := dirFromDelta (back.x - p.x) (back.y - p.y)
  let dirBack := if db ≥ 0 then db else dir_b
  let startDir := ((dirBack + 1) % 8).toNat
  ((List.range 8).findSome? fun (t : Nat) =>
    let d := (startDir + t) % 8
    let nx := p.x + dx8 d
    let ny := p.y + dy8 d
    if isFg m nx ny then
      let prevd := (d + 7) % 8
      some ((⟨nx, ny⟩ : point2i), (⟨p.x + dx8 prevd, p.y + dy8 prevd⟩ : point2i))
    else none).getD (p, back)

/-- The `while` loop of `extractContour`. The first argument is the number of
iterations the guard `contour.size() < safetyLimit` still allows: every iteration
that does not leave the loop appends exactly one point. -/
def traceLoop (m : image8u) (p0 : point2i) :
    Nat → point2i → point2i → List point2i → List point2i
  | 0, _, _, contour => contour
  | fuel + 1, cur, b, contour =>
    let r := step m 4 cur b
    if r.1 = p0 then contour
    else traceLoop m p0 fuel r.1 r.2 (contour ++ [r.1])

/-- The body of `extractContour` up to, and without, the final bounds assertion. -/
def tracedContour (m : image8u) : List point2i :=
  match findStart m with
  | none => []
  | some start =>
    if !hasNeighbor m start then [start]
    else
      let p0 := start
      let b : point2i := ⟨p0.x - 1, p0.y⟩
      let r := step m 4 p0 b
      if r.1 = p0 then [p0]
      else
        let safetyLimit := m.width * m.height + 8
        let contour := traceLoop m p0 (safetyLimit - 2) r.1 r.2 [p0, r.1]
        let contour := if signedArea2_imageCoords contour < 0 then contour.reverse else contour
        rotateToMinYX contour

/-- The function `extractContour`; `none` is a failure of the bounds assertion
`rassert(p.x >= 0 && p.x < w && p.y >= 0 && p.y < h, 2347823412)`. -/
def extractContour (m : image8u) : Option (List point2i) :=
  let contour := tracedContour m
  if contour.all fun p => inBounds p.x p.y m.width m.height then some contour else none

/-! ## Contour simplifier -/

/-- A removal cost. The source computes it as a `double`; here it is the exact rational
`num / den` with `den > 0`, or `+infinity`, and the rounding of the division is not
modelled. What is proved for every cost function holds for the rounded one too. -/
inductive Cost where
  | frac (num : Int) (den : Int)
  | inf
deriving DecidableEq

/-- The comparison `a < b` of two costs, by cross-multiplication. -/
def Cost.lt : Cost → Cost → Bool
  | Cost.frac a b, Cost.frac c d => decide (a * d < c * b)
  | Cost.frac _ _, Cost.inf => true
  | Cost.inf, _ => false

/-- The comparison `a != b` of two costs. -/
def Cost.ne (a b : Cost) : Bool := a.lt b || b.lt a

/-- The function `dist2_point_to_line`: the squared distance from `p` to the line through
`a` and `b`, to `a` itself when `a = b`. -/
def dist2_point_to_line (p a b : point2i) : Cost :=
  let vx := b.x - a.x
  let vy := b.y - a.y
  let wx := p.x - a.x
  let wy := p.y - a.y
  let vv := vx * vx + vy * vy
  if vv = 0 then Cost.frac (wx * wx + wy * wy) 1
  else
    let cr := vx * wy - vy * wx
    Cost.frac (cr * cr) vv

/-- The struct `HeapItem`. -/
structure HeapItem where
  cost : Cost
  idx : Int
  ver : Nat
deriving DecidableEq

/-- The comparison `HeapItem::operator>`. -/
def HeapItem.gt (a o : HeapItem) : Bool :=
  if a.cost.ne o.cost then o.cost.lt a.cost
  else decide (a.idx > o.idx)

/-- The call `pq.top()` of the `std::priority_queue` ordered by `std::greater`: an entry
that is not greater than any other. Among entries that compare equal (same cost and
index, different version) the one nearest the front of the list is taken. -/
def pqTop : List HeapItem → Option HeapItem
  | [] => none
  | x :: xs =>
    match pqTop xs with
    | none => some x
    | some y => if x.gt y then some y else some x

/-- The lambda `compute_cost` of `simplifyContour`, with the cost function as a
parameter. -/
def compute_cost (costf : point2i → point2i → point2i → Cost) (contour : List point2i)
    (alive : List Bool) (prev next : List Nat) (i : Nat) : Cost :=
  if !alive.getD i false then Cost.inf
  else
    let a := prev.getD i 0
    let b := next.getD i 0
    if !alive.getD a false || !alive.getD b false then Cost.inf
    else costf (contour.getD i default) (contour.getD a default) (contour.getD b default)

/-- The local state of `simplifyContour`. -/
structure SimplifyState where
  prev : List Nat
  next : List Nat
  alive : List Bool
  version : List Nat
  pq : List HeapItem
  aliveCount : Nat

/-- The ways `simplifyContour` and `splitContourByCorners` can fail to return: a `rassert`
with its code, or the iteration budget of the embedding running out. -/
inductive Failure where
  | assertion (code : Nat)
  | outOfFuel
deriving DecidableEq

/-- The removal of vertex `i` in the `while` loop of `simplifyContour`, after the top
entry has been popped and found fresh. -/
def removeVertex (costf : point2i → point2i → point2i → Cost) (contour : List point2i)
    (s : SimplifyState) (pq : List HeapItem) (i : Nat) : SimplifyState :=
  let a := s.prev.getD i 0
  let b := s.next.getD i 0
  let alive := s.alive.set i false
  let next := s.next.set a b
  let prev := s.prev.set b a
  let version := s.version.set a (s.version.getD a 0 + 1)
  let version := version.set b (version.getD b 0 + 1)
  let pq := pq ++ [⟨compute_cost costf contour alive prev next a, a, version.getD a 0⟩]
  let pq := pq ++ [⟨compute_cost costf contour alive prev next b, b, version.getD b 0⟩]
  ⟨prev, next, alive, version, pq, s.aliveCount - 1⟩

/-- The `while` loop of `simplifyContour`, on an iteration budget. Every iteration pops
one entry and at most `n + 2 * (n - target)` entries are ever pushed, so a budget of
`3 * n` is never used up (`simplifyLoop_ok`). -/
def simplifyLoop (costf : point2i → point2i → point2i → Cost) (contour : List point2i)
    (n target : Nat) : Nat → SimplifyState → Except Failure SimplifyState
  | 0, s => if s.aliveCount > target then Except.error Failure.outOfFuel else Except.ok s
  | fuel + 1, s =>
    if s.aliveCount > target then
      match pqTop s.pq with
      | none => Except.error (Failure.assertion 71238123)
      | some it =>
        let pq := s.pq.erase it
        let i := it.idx
        if i < 0 ∨ i ≥ (n : Int) then simplifyLoop costf contour n target fuel { s with pq := pq }
        else if !s.alive.getD i.toNat false then
          simplifyLoop costf contour n target fuel { s with pq := pq }
        else if it.ver ≠ s.version.getD i.toNat 0 then
          simplifyLoop costf contour n target fuel { s with pq := pq }
        else simplifyLoop costf contour n target fuel (removeVertex costf contour s pq i.toNat)
    else Except.ok s

/-- The `do`-`while` loop of `simplifyContour` that collects the surviving vertices. The
first argument bounds the iterations; the guard `out.size() <= aliveCount + 1` allows
at most `aliveCount + 2`. -/
def collectLoop (contour : List point2i) (next : List Nat) (start aliveCount : Nat) :
    Nat → Nat → List point2i → List point2i
  | 0, _, out => out
  | fuel + 1, cur, out =>
    let out := out ++ [contour.getD cur default]
    let cur := next.getD cur 0
    if cur ≠ start ∧ out.length ≤ aliveCount + 1 then
      collectLoop contour next start aliveCount fuel cur out
    else out

/-- The state of `simplifyContour` on entry to its `while` loop. -/
def initialState (costf : point2i → point2i → point2i → Cost) (contour : List point2i) :
    SimplifyState :=
  let n := contour.length
  let prev := (List.range n).map (fun (i : Nat) => (i + n - 1) % n)
  let next := (List.range n).map (fun (i : Nat) => (i + 1) % n)
  let alive := List.replicate n true
  let version := List.replicate n 0
  let pq := (List.range n).foldl
    (fun (pq : List HeapItem) (i : Nat) =>
      pq ++ [⟨compute_cost costf contour alive prev next i, i, version.getD i 0⟩])
    []
  ⟨prev, next, alive, version, pq, n⟩

/-- The function `simplifyContour`, with the cost function as a parameter. -/
def simplifyContourWith (costf : point2i → point2i → point2i → Cost)
    (contour : List point2i) (targetVertexSize : Nat) : Except Failure (List point2i) :=
  let n := contour.length
  if targetVertexSize = 0 ∨ contour.isEmpty then Except.ok []
  else if n ≤ targetVertexSize then Except.ok contour
  else
    match simplifyLoop costf contour n targetVertexSize (3 * n) (initialState costf contour) with
    | Except.error e => Except.error e
    | Except.ok s =>
      match (List.range n).find? (fun (i : Nat) => s.alive.getD i false) with
      | none => Except.error (Failure.assertion 71238124)
      | some start =>
        Except.ok (collectLoop contour s.next start s.aliveCount (s.aliveCount + 2) start [])

/-- The function `simplifyContour`. -/
def simplifyContour (contour : List point2i) (targetVertexSize : Nat) :
    Except Failure (List point2i) :=
  simplifyContourWith dist2_point_to_line contour targetVertexSize

/-- The index search of `splitContourByCorners`: the first `i` with `contour[i] == c`;
`none` stands for `idx = -1`. -/
def findCornerIndex (contour : List point2i) (c : point2i) : Option Nat :=
  (List.range contour.length).find? (fun (i : Nat) => decide (contour.getD i default = c))

/-- The first loop of `splitContourByCorners`: the index of every corner, in the order of
the corners; a corner that is not found fails `rassert(idx >= 0, 918273650)`. -/
def cornerIndices (contour : List point2i) : List point2i → Except Failure (List Nat)
  | [] => Except.ok []
  | c :: cs =>
    match findCornerIndex contour c with
    | none => Except.error (Failure.assertion 918273650)
    | some idx =>
      match cornerIndices contour cs with
      | Except.error e => Except.error e
      | Except.ok rest => Except.ok (idx :: rest)

/-- The call `erase(std::unique(...))`: of every run of equal neighbours one entry is
kept. -/
def stdUnique : List Nat → List Nat
  | [] => []
  | [a] => [a]
  | a :: b :: r => if a = b then stdUnique (b :: r) else a :: stdUnique (b :: r)

/-- The body of the last loop of `splitContourByCorners`: the points from index `i`
through index `j`, running over the end of the contour when `j` is not above `i`. -/
def contourPart (contour : List point2i) (n i j : Nat) : List point2i :=
  [contour.getD i default] ++
    (if i < j then
      (List.range' (i + 1) (j - i)).map (fun (t : Nat) => contour.getD t default)
    else
      (List.range' (i + 1) (n - (i + 1))).map (fun (t : Nat) => contour.getD t default)
        ++ (List.range (j + 1)).map (fun (t : Nat) => contour.getD t default))

/-- The function `splitContourByCorners`; `std::sort` is the ascending insertion sort. -/
def splitContourByCorners (contour corners : List point2i) :
    Except Failure (List (List point2i)) :=
  if contour.isEmpty then Except.ok []
  else if corners.isEmpty then Except.ok [contour]
  else
    let n := contour.length
    match cornerIndices contour corners with
    | Except.error e => Except.error e
    | Except.ok found =>
      let cornerIdx := stdUnique (found.insertionSort (· ≤ ·))
      if cornerIdx.length < 2 then Except.error (Failure.assertion 918273651)
      else
        let m := cornerIdx.length
        Except.ok ((List.range m).map fun (k : Nat) =>
          contourPart contour n (cornerIdx.getD k 0) (cornerIdx.getD ((k + 1) % m) 0))

/-! ## Test helper -/

/-- The test helper `makeRectContour`: the perimeter of the rectangle from `frm` to
`to_exclusive`, clockwise from the top-left pixel, the start not repeated. -/
def makeRectContour (frm to_exclusive : point2i) : List point2i :=
  let left := frm.x
  let top := frm.y
  let right := to_exclusive.x - 1
  let bottom := to_exclusive.y - 1
  (List.range (right - left + 1).toNat).map (fun (i : Nat) => (⟨left + i, top⟩ : point2i))
    ++ (List.range (bottom - top).toNat).map (fun (i : Nat) => (⟨right, top + 1 + i⟩ : point2i))
    ++ (List.range (right - left).toNat).map (fun (i : Nat) => (⟨right - 1 - i, bottom⟩ : point2i))
    ++ (List.range (bottom - top - 1).toNat).map
        (fun (i : Nat) => (⟨left, bottom - 1 - i⟩ : point2i))

/-! ## Auxiliary definitions of the proofs -/

/-- A raster is well formed when its sample list has one entry per pixel. -/
def image8u.WF (m : image8u) : Prop := m.data.length = m.width * m.height

/-- The per-pixel decision of `buildContourMask`. -/
def marks (m : image8u) (x y : Nat) : Bool :=
  m.get (y : Int) (x : Int) == kFg && isBoundaryAt m (x : Int) (y : Int)

/-- One row of `buildContourMask`, restricted to the first `k` columns. -/
def rowPass (m : image8u) (y k : Nat) (c : image8u) : image8u :=
  (List.range k).foldl
    (fun (contour : image8u) (x : Nat) =>
      if m.get (y : Int) (x : Int) != kFg then contour
      else if isBoundaryAt m (x : Int) (y : Int) then contour.put (y : Int) (x : Int) kFg
      else contour)
    c

/-- The first `k` rows of `buildContourMask`. -/
def rowsPass (m : image8u) (k : Nat) (c : image8u) : image8u :=
  (List.range k).foldl (fun (contour : image8u) (y : Nat) => rowPass m y m.width contour) c

/-- The eight neighbour offsets: each coordinate differs by at most one, not both by
zero. -/
def IsNeighbourDelta (dx dy : Int) : Prop :=
  -1 ≤ dx ∧ dx ≤ 1 ∧ -1 ≤ dy ∧ dy ≤ 1 ∧ ¬ (dx = 0 ∧ dy = 0)

/-- Row-major scan order on pixel coordinates: `(x', y')` is visited before `(x, y)`. -/
def ScannedBefore (x' y' x y : Nat) : Prop := y' < y ∨ (y' = y ∧ x' < x)

/-- The pixel next to `p` in direction `k`. -/
def nb (p : point2i) (k : Nat) : point2i := ⟨p.x + dx8 k, p.y + dy8 k⟩

/-- The direction in which `step` starts looking. -/
def startDirOf (dir_b : Int) (p back : point2i) : Nat :=
  (((if dirFromDelta (back.x - p.x) (back.y - p.y) ≥ 0
      then dirFromDelta (back.x - p.x) (back.y - p.y) else dir_b) + 1) % 8).toNat

/-- The sequence collected by `extractContour` before orientation and start are
normalised, for a start pixel that has a foreground neighbour. -/
def rawTrace (m : image8u) (p0 : point2i) : List point2i :=
  traceLoop m p0 (m.width * m.height + 8 - 2) (step m 4 p0 ⟨p0.x - 1, p0.y⟩).1
    (step m 4 p0 ⟨p0.x - 1, p0.y⟩).2 [p0, (step m 4 p0 ⟨p0.x - 1, p0.y⟩).1]

/-- Orientation normalisation of `extractContour`. -/
def orient (c : List point2i) : List point2i :=
  if signedArea2_imageCoords c < 0 then c.reverse else c

/-- The order of `rotateToMinYX`: `p` comes strictly before `q` by `(y, x)`. -/
def lexLt (p q : point2i) : Prop := p.y < q.y ∨ (p.y = q.y ∧ p.x < q.x)

/-- The order of `rotateToMinYX` is decidable. -/
instance lexLt_decidable (p q : point2i) : Decidable (lexLt p q) := by
  unfold lexLt
  infer_instance

/-- The loop of `rotateToMinYX`, restricted to the counters `1 .. k`. -/
def bestUpTo (pts : List point2i) (k : Nat) : Nat :=
  (List.range' 1 k).foldl
    (fun (best i : Nat) =>
      let pi := pts.getD i default
      let pb := pts.getD best default
      if pi.y < pb.y ∨ (pi.y = pb.y ∧ pi.x < pb.x) then i else best)
    0

/-- The cross term of the shoelace sum for an edge from `p` to `q`. -/
def cross (p q : point2i) : Int := p.x * q.y - q.x * p.y

/-- The sum of the cross terms along an open chain of points. -/
def chainSum : List point2i → Int
  | p :: q :: r => cross p q + chainSum (q :: r)
  | _ => 0

/-- The sum of the cross terms around a closed chain: the chain followed by its first
point. -/
def cycSum (c : List point2i) : Int := chainSum (c ++ c.take 1)

/-- The shoelace sum as the claim words it: the sum over `i` of
`x_i * y_((i+1) mod n) - x_((i+1) mod n) * y_i`. -/
def shoelace (c : List point2i) : Int :=
  ∑ i in Finset.range c.length,
    ((c.getD i default).x * (c.getD ((i + 1) % c.length) default).y
      - (c.getD ((i + 1) % c.length) default).x * (c.getD i default).y)

/-- A relation holds between every two cyclically consecutive entries of a list: along
the list, and from its last entry back to its first. -/
def CycChain {α : Type} (R : α → α → Prop) (c : List α) : Prop :=
  List.Chain' R (c ++ c.take 1)

/-- Two pixels are 8-neighbours: both coordinate differences have absolute value at most
one and they are not both zero. -/
def Adjacent8 (p q : point2i) : Prop :=
  |q.x - p.x| ≤ 1 ∧ |q.y - p.y| ≤ 1 ∧ ¬ (q.x = p.x ∧ q.y = p.y)

/-- The 8-neighbour test is decidable. -/
instance adjacent8_decidable (p q : point2i) : Decidable (Adjacent8 p q) := by
  unfold Adjacent8
  infer_instance

/-- A pixel from which `step` can move on: it is foreground and has a foreground
neighbour. -/
def Movable (m : image8u) (p : point2i) : Prop :=
  isFg m p.x p.y = true ∧ ∃ k, k < 8 ∧ isFg m (nb p k).x (nb p k).y = true

/-- The foreground pixels of a mask form one 8-connected component: any two of them are
joined by a path of foreground pixels, each an 8-neighbour of the one before. -/
def Connected8 (m : image8u) : Prop :=
  ∀ p q : point2i, isFg m p.x p.y = true → isFg m q.x q.y = true →
    Relation.ReflTransGen
      (fun a b => isFg m a.x a.y = true ∧ isFg m b.x b.y = true ∧ Adjacent8 a b) p q

/-- The mask of width `n` and height 1 with every pixel foreground. -/
def hline (n : Nat) : image8u := ⟨n, 1, List.replicate n 255⟩

/-- The mask `m` shows exactly one solid rectangle: its foreground pixels are those with
`l ≤ x < l + rw` and `t ≤ y < t + rh`, and the rectangle lies inside the raster. -/
def IsRectMask (m : image8u) (l t rw rh : Nat) : Prop :=
  l + rw ≤ m.width ∧ t + rh ≤ m.height ∧
  ∀ x y : Nat, x < m.width → y < m.height →
    (m.get y x = 255 ↔ (l ≤ x ∧ x < l + rw ∧ t ≤ y ∧ y < t + rh))

/-- The pixel `j` steps from `p` in direction `d`. -/
def walk (p : point2i) (d j : Nat) : point2i := ⟨p.x + j * dx8 d, p.y + j * dy8 d⟩

/-- The points `extractContour` collects around the rectangle with top-left pixel
`(l, t)`, width `rw` and height `rh`, in the order of collection. -/
def rectTrace (l t rw rh : Nat) : List point2i :=
  [(⟨l, t⟩ : point2i), ⟨(l : Int) + 1, t⟩]
    ++ (List.range (rw - 2)).map (fun (i : Nat) => (⟨(l : Int) + 2 + i, t⟩ : point2i))
    ++ [(⟨(l : Int) + rw - 1, (t : Int) + 1⟩ : point2i)]
    ++ (List.range (rh - 2)).map
        (fun (i : Nat) => (⟨(l : Int) + rw - 1, (t : Int) + 2 + i⟩ : point2i))
    ++ [(⟨(l : Int) + rw - 2, (t : Int) + rh - 1⟩ : point2i)]
    ++ (List.range (rw - 2)).map
        (fun (i : Nat) => (⟨(l : Int) + rw - 3 - i, (t : Int) + rh - 1⟩ : point2i))
    ++ (List.range (rh - 2)).map
        (fun (i : Nat) => (⟨(l : Int), (t : Int) + rh - 2 - i⟩ : point2i))

/-- The 12-by-12 mask of the tests: a solid 5-by-5 rectangle from (2, 3) to (7, 8)
exclusive. -/
def testRectMask : image8u :=
  ⟨12, 12, (List.range 144).map
    (fun (i : Nat) => if 2 ≤ i % 12 ∧ i % 12 < 7 ∧ 3 ≤ i / 12 ∧ i / 12 < 8 then 255 else 0)⟩

/-- The indices below `n` that are flagged alive, in increasing order. -/
def aliveList (n : Nat) (alive : List Bool) : List Nat :=
  (List.range n).filter (fun (i : Nat) => alive.getD i false)

/-- Index `y` follows index `x` in the doubly linked list: `next[x] = y` and
`prev[y] = x`. -/
def Linked (prev next : List Nat) (x y : Nat) : Prop :=
  next.getD x 0 = y ∧ prev.getD y 0 = x

/-- The invariant of the `while` loop of `simplifyContour`: the four arrays have `n`
entries, `aliveCount` counts the alive indices, `next` and `prev` link the alive indices
cyclically in increasing order, and every alive index has an entry in the queue that
carries its current version. -/
def SimplifyInv (n : Nat) (s : SimplifyState) : Prop :=
  s.prev.length = n ∧ s.next.length = n ∧ s.alive.length = n ∧ s.version.length = n ∧
  s.aliveCount = (aliveList n s.alive).length ∧
  CycChain (Linked s.prev s.next) (aliveList n s.alive) ∧
  ∀ i ∈ aliveList n s.alive, ∃ it ∈ s.pq, it.idx = (i : Int) ∧ it.ver = s.version.getD i 0

/-- The value of the accumulator `a2` of `signedArea2_imageCoords` after `k` rounds of
its loop. -/
def area2Partial (poly : List point2i) (k : Nat) : Int :=
  (List.range k).foldl
    (fun (a2 : Int) (i : Nat) =>
      let p := poly.getD i default
      let q := poly.getD ((i + 1) % poly.length) default
      a2 + (p.x * q.y - q.x * p.y))
    0

/-- Index `i` is the first position of the point `p` in `c`. -/
def IsFirstIndex (c : List point2i) (p : point2i) (i : Nat) : Prop :=
  i < c.length ∧ c.getD i default = p ∧ ∀ j, j < i → c.getD j default ≠ p

/-- The inclusive cyclic arc of `c` from index `i` to index `j`: the points
`c[(i + s) mod n]` for `s = 0 .. (j - i) mod n`, where `n` is the length of `c`. -/
def cyclicArc (c : List point2i) (i j : Nat) : List point2i :=
  (List.range ((((j : Int) - (i : Int)) % (c.length : Int)).toNat + 1)).map
    (fun (s : Nat) => c.getD ((i + s) % c.length) default)

/-- The sides cut at the indices `I`: side `k` is the cyclic arc from `I[k]` to
`I[(k + 1) mod m]`. -/
def arcsOf (c : List point2i) (I : List Nat) : List (List point2i) :=
  (List.range I.length).map fun (k : Nat) =>
    cyclicArc c (I.getD k 0) (I.getD ((k + 1) % I.length) 0)

/-- The list `I` holds, in increasing order and once each, the first positions in `c` of
the points of `corners`. -/
def IsCornerIndexList (c corners : List point2i) (I : List Nat) : Prop :=
  I.Sorted (· < ·) ∧ ∀ i, i ∈ I ↔ ∃ p ∈ corners, IsFirstIndex c p i

instance isFirstIndex_decidable (c : List point2i) (p : point2i) (i : Nat) :
    Decidable (IsFirstIndex c p i) := by
  unfold IsFirstIndex
  exact inferInstance

/-- The index of the first entry of `c` equal to `p`, and `0` when there is none. -/
def firstIndex (c : List point2i) (p : point2i) : Nat := (findCornerIndex c p).getD 0

/-- The points `c[a], ..., c[b - 1]`. -/
def contourSeg (c : List point2i) (a b : Nat) : List point2i :=
  (List.range' a (b - a)).map (fun (t : Nat) => c.getD t default)

/-- The sides flattened in order, each without its final point. -/
def joinSides (sides : List (List point2i)) : List point2i :=
  (sides.map List.dropLast).flatten

/-- Whether the `while` loop of `extractContour`, run like `traceLoop`, is left through
`break` (the proposed next pixel is the start pixel `p0`) within the iterations that the
guard `contour.size() < safetyLimit` allows. -/
def traceCloses (m : image8u) (p0 : point2i) : Nat → point2i → point2i → Bool
  | 0, _, _ => false
  | fuel + 1, cur, b =>
    let r := step m 4 cur b
    if r.1 = p0 then true else traceCloses m p0 fuel r.1 r.2

/-- The trace of `extractContour` enters the `while` loop and leaves it by returning to the
start pixel, not by the guard on the safety bound. -/
def closedTrace (m : image8u) : Bool :=
  match findStart m with
  | none => false
  | some start =>
    hasNeighbor m start &&
      (let r := step m 4 start ⟨start.x - 1, start.y⟩
       !decide (r.1 = start) && traceCloses m start (m.width * m.height + 8 - 2) r.1 r.2)

/-- The alive cyclic predecessor of `i` among the alive indices `A` (in increasing order):
the largest alive index below `i`, and the largest alive index of all when there is none
below `i`. -/
def cyclicPred (A : List Nat) (i : Nat) : Nat :=
  ((A.filter (fun (j : Nat) => decide (j < i))).getLast?).getD (A.getLast?.getD i)

/-- The alive cyclic successor of `i` among the alive indices `A` (in increasing order):
the smallest alive index above `i`, and the smallest alive index of all when there is none
above `i`. -/
def cyclicSucc (A : List Nat) (i : Nat) : Nat :=
  ((A.filter (fun (j : Nat) => decide (i < j))).head?).getD (A.head?.getD i)

/-- The value of a cost as a rational number; `0` stands in for `+infinity`, which no
cost of an alive vertex takes. -/
def Cost.toRat : Cost → ℚ
  | Cost.frac num den => (num : ℚ) / (den : ℚ)
  | Cost.inf => 0

/-- A cost that is a fraction with a positive denominator. -/
def Cost.Proper (a : Cost) : Prop := ∃ num den, a = Cost.frac num den ∧ 0 < den

/-- The function `dist2_point_to_line` with the `double` result read as the exact
rational number. -/
def dist2Exact (p a b : point2i) : ℚ :=
  let vx : ℚ := (b.x : ℚ) - (a.x : ℚ)
  let vy : ℚ := (b.y : ℚ) - (a.y : ℚ)
  let wx : ℚ := (p.x : ℚ) - (a.x : ℚ)
  let wy : ℚ := (p.y : ℚ) - (a.y : ℚ)
  let vv := vx * vx + vy * vy
  if vv = 0 then wx * wx + wy * wy
  else
    let cr := vx * wy - vy * wx
    cr * cr / vv

/-- Reference procedure, selection: the index of the list with the least cost `κ`, ties
broken by the lowest index. -/
def naiveArgmin (κ : Nat → ℚ) : List Nat → Option Nat
  | [] => none
  | i :: rest =>
    match naiveArgmin κ rest with
    | none => some i
    | some j => if κ j < κ i ∨ (κ j = κ i ∧ j < i) then some j else some i

/-- Reference procedure, cost: the cost of the alive index `i` with respect to its current
alive cyclic predecessor and successor. -/
def naiveCost (costR : point2i → point2i → point2i → ℚ) (c : List point2i) (A : List Nat)
    (i : Nat) : ℚ :=
  costR (c.getD i default) (c.getD (cyclicPred A i) default) (c.getD (cyclicSucc A i) default)

/-- Reference procedure, one round: compute the cost of every alive index and delete the
alive index of least cost, ties broken by lowest index. -/
def naiveStep (costR : point2i → point2i → point2i → ℚ) (c : List point2i) (A : List Nat) :
    List Nat :=
  match naiveArgmin (naiveCost costR c A) A with
  | none => A
  | some i => A.erase i

/-- Reference procedure: starting with all indices alive, do `|c| - t` rounds, then list
the surviving points in increasing index order. -/
def naiveSimplify (costR : point2i → point2i → point2i → ℚ) (c : List point2i) (t : Nat) :
    List point2i :=
  (Nat.iterate (naiveStep costR c) (c.length - t) (List.range c.length)).map
    (fun (i : Nat) => c.getD i default)

/-- The part of the loop invariant of `simplifyContour` that concerns the costs in the
queue: every entry carries a proper cost, no entry is stamped with a version above the
current one of its index, and an entry of an alive index with the current version carries
the current cost of that index. -/
def QueueInv (costf : point2i → point2i → point2i → Cost) (c : List point2i) (n : Nat)
    (s : SimplifyState) : Prop :=
  (∀ it ∈ s.pq, it.cost.Proper) ∧
  (∀ it ∈ s.pq, ∀ j, j < n → it.idx = (j : Int) → it.ver ≤ s.version.getD j 0) ∧
  (∀ it ∈ s.pq, ∀ j ∈ aliveList n s.alive, it.idx = (j : Int) →
    it.ver = s.version.getD j 0 →
    it.cost = costf (c.getD j default) (c.getD (s.prev.getD j 0) default)
      (c.getD (s.next.getD j 0) default))

/-- Point number `j` of the perimeter of the rectangle with top-left pixel `(l, t)`, width
`a + 2` and height `b + 2`, counted clockwise from the top-left pixel; number
`2 * a + 2 * b + 4` is the top-left pixel again. -/
def rectPoint (l t : Int) (a b j : Nat) : point2i :=
  if j ≤ a + 1 then ⟨l + j, t⟩
  else if j ≤ a + b + 2 then ⟨l + a + 1, t + ((j : Int) - (a + 1))⟩
  else if j ≤ 2 * a + b + 3 then ⟨l + a + 1 - ((j : Int) - (a + b + 2)), t + b + 1⟩
  else ⟨l, t + b + 1 - ((j : Int) - (2 * a + b + 3))⟩

/-- The indices, in the perimeter of the rectangle of width `a + 2` and height `b + 2`, of
its corners: top-left, top-right, bottom-right, bottom-left. -/
def rectCorners (a b : Nat) : List Nat := [0, a + 1, a + b + 2, 2 * a + b + 3]

/-! # Properties -/

/-! ## The raster and the boundary extractor -/

theorem getD_set_nat (l : List Nat) (i j v : Nat) (hi : i < l.length) :
    (l.set i v).getD j 0 = if j = i then v else l.getD j 0 := by
  simp only [List.getD_eq_getElem?_getD, List.getElem?_set]
  by_cases h : i = j
  · subst h; simp [hi]
  · simp [h, Ne.symm h, eq_comm]

theorem index_inj {w x y x' y' : Nat} (hx : x < w) (hx' : x' < w)
    (h : y * w + x = y' * w + x') : y = y' ∧ x = x' := by
  have h1 : (y * w + x) / w = y := by
    rw [Nat.mul_comm, Nat.mul_add_div (by omega), Nat.div_eq_of_lt hx]; simp
  have h2 : (y' * w + x') / w = y' := by
    rw [Nat.mul_comm, Nat.mul_add_div (by omega), Nat.div_eq_of_lt hx']; simp
  have : y = y' := by rw [← h1, ← h2, h]
  subst this
  exact ⟨rfl, by omega⟩

theorem index_lt {w h x y : Nat} (hx : x < w) (hy : y < h) : y * w + x < w * h := by
  have : (y + 1) * w ≤ h * w := Nat.mul_le_mul_right _ hy
  rw [Nat.mul_comm w h]
  nlinarith


theorem create_WF (w h : Nat) : (image8u.create w h).WF := by
  simp [image8u.WF, image8u.create]

theorem create_get (w h : Nat) (row col : Int) : (image8u.create w h).get row col = 0 := by
  simp only [image8u.get, image8u.create, List.getD_eq_getElem?_getD]
  cases hh : (List.replicate (w * h) 0)[row.toNat * w + col.toNat]? with
  | none => rfl
  | some v =>
    have := List.getElem?_eq_some_iff.1 hh
    obtain ⟨h1, h2⟩ := this
    simp at h2
    simp [h2]

theorem put_width (c : image8u) (row col : Int) (v : Nat) : (c.put row col v).width = c.width := rfl

theorem put_height (c : image8u) (row col : Int) (v : Nat) : (c.put row col v).height = c.height := rfl

theorem put_WF (c : image8u) (row col : Int) (v : Nat) (hc : c.WF) : (c.put row col v).WF := by
  simp [image8u.WF, image8u.put] at *; exact hc

theorem put_get (c : image8u) (hc : c.WF) (x y x' y' v : Nat)
    (hx : x < c.width) (hy : y < c.height) (hx' : x' < c.width) :
    (c.put (y : Int) (x : Int) v).get (y' : Int) (x' : Int)
      = if y' = y ∧ x' = x then v else c.get (y' : Int) (x' : Int) := by
  simp only [image8u.get, image8u.put, Int.toNat_ofNat]
  rw [getD_set_nat _ _ _ _ (by rw [hc]; exact index_lt hx hy)]
  by_cases h : y' * c.width + x' = y * c.width + x
  · have := index_inj hx' hx h
    simp [h, this.1, this.2]
  · have : ¬ (y' = y ∧ x' = x) := by
      rintro ⟨rfl, rfl⟩; exact h rfl
    simp [h, this]

theorem rowPass_spec (m : image8u) (y : Nat) (c : image8u) (hc : c.WF)
    (hy : y < c.height) (k : Nat) (hk : k ≤ c.width) :
    (rowPass m y k c).WF ∧ (rowPass m y k c).width = c.width ∧
    (rowPass m y k c).height = c.height ∧
    ∀ x' y' : Nat, x' < c.width →
      (rowPass m y k c).get (y' : Int) (x' : Int)
        = if y' = y ∧ x' < k ∧ marks m x' y = true then kFg else c.get (y' : Int) (x' : Int) := by
  induction k with
  | zero => simp [rowPass, hc]
  | succ k ih =>
    obtain ⟨h1, h2, h3, h4⟩ := ih (by omega)
    have hstep : rowPass m y (k + 1) c =
        (if m.get (y : Int) (k : Int) != kFg then rowPass m y k c
         else if isBoundaryAt m (k : Int) (y : Int) then (rowPass m y k c).put (y : Int) (k : Int) kFg
         else rowPass m y k c) := by
      simp [rowPass, List.range_succ, List.foldl_append]
    rw [hstep]
    by_cases hm : marks m k y = true
    · have hm' := hm
      simp only [marks, Bool.and_eq_true, beq_iff_eq] at hm'
      have e1 : (m.get (y : Int) (k : Int) != kFg) = false := by simp [hm'.1]
      simp only [e1, hm'.2, if_true, Bool.false_eq_true, if_false]
      refine ⟨put_WF _ _ _ _ h1, by rw [put_width, h2], by rw [put_height, h3], ?_⟩
      intro x' y' hx'
      rw [put_get _ h1 k y x' y' kFg (by omega) (by omega) (by omega), h4 x' y' hx']
      by_cases hyy : y' = y
      · subst hyy
        by_cases hxk : x' = k
        · subst hxk; simp [hm]
        · have : (x' < k + 1) ↔ x' < k := by omega
          simp [hxk, this]
      · simp [hyy]
    · have hcase : (if m.get (y : Int) (k : Int) != kFg then rowPass m y k c
         else if isBoundaryAt m (k : Int) (y : Int) then (rowPass m y k c).put (y : Int) (k : Int) kFg
         else rowPass m y k c) = rowPass m y k c := by
        simp only [marks, Bool.and_eq_true, beq_iff_eq, not_and] at hm
        by_cases e : m.get (y : Int) (k : Int) = kFg
        · have := hm e
          simp [e, this]
        · simp [e]
      rw [hcase]
      refine ⟨h1, h2, h3, ?_⟩
      intro x' y' hx'
      rw [h4 x' y' hx']
      by_cases hyy : y' = y
      · subst hyy
        by_cases hxk : x' = k
        · subst hxk; simp [hm]
        · have : (x' < k + 1) ↔ x' < k := by omega
          simp [this]
      · simp [hyy]


theorem rowsPass_spec (m : image8u) (c : image8u) (hc : c.WF) (hw : c.width = m.width)
    (k : Nat) (hk : k ≤ c.height) :
    (rowsPass m k c).WF ∧ (rowsPass m k c).width = c.width ∧
    (rowsPass m k c).height = c.height ∧
    ∀ x' y' : Nat, x' < c.width →
      (rowsPass m k c).get (y' : Int) (x' : Int)
        = if y' < k ∧ marks m x' y' = true then kFg else c.get (y' : Int) (x' : Int) := by
  induction k with
  | zero => simp [rowsPass, hc]
  | succ k ih =>
    obtain ⟨h1, h2, h3, h4⟩ := ih (by omega)
    have hstep : rowsPass m (k + 1) c = rowPass m k m.width (rowsPass m k c) := by
      simp [rowsPass, List.range_succ, List.foldl_append]
    rw [hstep]
    obtain ⟨g1, g2, g3, g4⟩ := rowPass_spec m k (rowsPass m k c) h1 (by omega) m.width (by omega)
    refine ⟨g1, by rw [g2, h2], by rw [g3, h3], ?_⟩
    intro x' y' hx'
    rw [g4 x' y' (by omega), h4 x' y' hx']
    by_cases hyk : y' = k
    · subst hyk
      by_cases hm : marks m x' y' = true
      · have : x' < m.width := by omega
        simp [hm, this]
      · simp [hm]
    · have : (y' < k + 1) ↔ y' < k := by omega
      simp [hyk, this]

theorem buildContourMask_eq (m : image8u) :
    buildContourMask m = rowsPass m m.height (image8u.create m.width m.height) := by
  unfold buildContourMask rowsPass rowPass
  rfl

theorem buildContourMask_WF (m : image8u) : (buildContourMask m).WF := by
  rw [buildContourMask_eq]
  exact (rowsPass_spec m _ (create_WF _ _) rfl m.height (le_refl _)).1

theorem buildContourMask_width (m : image8u) : (buildContourMask m).width = m.width := by
  rw [buildContourMask_eq]
  exact (rowsPass_spec m _ (create_WF _ _) rfl m.height (le_refl _)).2.1

theorem buildContourMask_height (m : image8u) :
    (buildContourMask m).height = m.height := by
  rw [buildContourMask_eq]
  exact (rowsPass_spec m _ (create_WF _ _) rfl m.height (le_refl _)).2.2.1

theorem buildContourMask_get (m : image8u) (x y : Nat) (hx : x < m.width)
    (hy : y < m.height) :
    (buildContourMask m).get (y : Int) (x : Int) = if marks m x y = true then kFg else 0 := by
  rw [buildContourMask_eq,
    (rowsPass_spec m _ (create_WF _ _) rfl m.height (le_refl _)).2.2.2 x y hx, create_get]
  simp [hy]

theorem neighbourDelta_iff (dx dy : Int) :
    IsNeighbourDelta dx dy ↔ ∃ k, k < 8 ∧ dx = dx8 k ∧ dy = dy8 k := by
  constructor
  · rintro ⟨h1, h2, h3, h4, h5⟩
    have hx : dx = -1 ∨ dx = 0 ∨ dx = 1 := by omega
    have hy : dy = -1 ∨ dy = 0 ∨ dy = 1 := by omega
    rcases hx with rfl | rfl | rfl <;> rcases hy with rfl | rfl | rfl
    · exact ⟨5, by decide, by decide, by decide⟩
    · exact ⟨4, by decide, by decide, by decide⟩
    · exact ⟨3, by decide, by decide, by decide⟩
    · exact ⟨6, by decide, by decide, by decide⟩
    · exact absurd ⟨rfl, rfl⟩ h5
    · exact ⟨2, by decide, by decide, by decide⟩
    · exact ⟨7, by decide, by decide, by decide⟩
    · exact ⟨0, by decide, by decide, by decide⟩
    · exact ⟨1, by decide, by decide, by decide⟩
  · rintro ⟨k, hk, rfl, rfl⟩
    interval_cases k <;> simp [IsNeighbourDelta, dx8, dy8]

theorem isBoundaryAt_iff (m : image8u) (x y : Int) :
    isBoundaryAt m x y = true ↔
      ∃ dx dy, IsNeighbourDelta dx dy ∧
        (inBounds (x + dx) (y + dy) m.width m.height = false ∨ m.get (y + dy) (x + dx) ≠ kFg) := by
  simp only [isBoundaryAt, List.any_eq_true, List.mem_range, Bool.or_eq_true,
    Bool.not_eq_true', bne_iff_ne]
  constructor
  · rintro ⟨k, hk, h⟩
    exact ⟨dx8 k, dy8 k, (neighbourDelta_iff _ _).2 ⟨k, hk, rfl, rfl⟩, h⟩
  · rintro ⟨dx, dy, hd, h⟩
    obtain ⟨k, hk, rfl, rfl⟩ := (neighbourDelta_iff _ _).1 hd
    exact ⟨k, hk, h⟩

/-! ## Scans over a counter -/

theorem find?_range_spec (p : Nat → Bool) (n : Nat) :
    ((List.range n).find? p = none ∧ ∀ a, a < n → p a = false) ∨
    ∃ c, (List.range n).find? p = some c ∧ c < n ∧ p c = true ∧ ∀ b, b < c → p b = false := by
  induction n with
  | zero => left; simp
  | succ n ih =>
    rw [List.range_succ, List.find?_append]
    rcases ih with ⟨h, hall⟩ | ⟨c, h, hc, hp, hb⟩
    · rw [h]
      by_cases hn : p n = true
      · right
        exact ⟨n, by simp [hn], by omega, hn, hall⟩
      · left
        refine ⟨by simp [hn], ?_⟩
        intro a ha
        by_cases e : a = n
        · subst e; simpa using hn
        · exact hall a (by omega)
    · right
      exact ⟨c, by simp [h], by omega, hp, hb⟩

theorem findSome?_range_spec {β : Type} (f : Nat → Option β) (n : Nat) :
    ((List.range n).findSome? f = none ∧ ∀ a, a < n → f a = none) ∨
    ∃ c v, (List.range n).findSome? f = some v ∧ c < n ∧ f c = some v ∧
      ∀ b, b < c → f b = none := by
  induction n with
  | zero => left; simp
  | succ n ih =>
    rw [List.range_succ, List.findSome?_append]
    rcases ih with ⟨h, hall⟩ | ⟨c, v, h, hc, hp, hb⟩
    · rw [h]
      cases hn : f n with
      | some v =>
        right
        exact ⟨n, v, by simp [hn], by omega, hn, hall⟩
      | none =>
        left
        refine ⟨by simp [hn], ?_⟩
        intro a ha
        by_cases e : a = n
        · subst e; exact hn
        · exact hall a (by omega)
    · right
      exact ⟨c, v, by simp [h], by omega, hp, hb⟩

/-! ## The start scan -/

theorem findStart_spec (m : image8u) :
    (findStart m = none ∧ ∀ x y : Nat, x < m.width → y < m.height → m.get y x ≠ kFg) ∨
    ∃ x y : Nat, findStart m = some ⟨x, y⟩ ∧ x < m.width ∧ y < m.height ∧ m.get y x = kFg ∧
      ∀ x' y' : Nat, x' < m.width → y' < m.height → ScannedBefore x' y' x y →
        m.get y' x' ≠ kFg := by
  unfold findStart
  rcases findSome?_range_spec _ m.height with ⟨h, hall⟩ | ⟨y, v, h, hy, hv, hb⟩
  · left
    refine ⟨h, ?_⟩
    intro x y hx hy
    have := hall y hy
    rw [Option.map_eq_none'] at this
    rcases find?_range_spec (fun (x : Nat) => m.get y x == kFg) m.width with ⟨_, g⟩ | ⟨c, g, _⟩
    · simpa using g x hx
    · rw [g] at this; cases this
  · right
    rcases find?_range_spec (fun (x : Nat) => m.get y x == kFg) m.width with ⟨g, _⟩ | ⟨x, g, hx, hp, hbx⟩
    · rw [g] at hv; cases hv
    · rw [g] at hv
      simp only [Option.map_some', Option.some.injEq] at hv
      subst hv
      refine ⟨x, y, h, hx, hy, by simpa using hp, ?_⟩
      intro x' y' hx' hy' hsb
      rcases hsb with hlt | ⟨rfl, hlt⟩
      · have := hb y' hlt
        rw [Option.map_eq_none'] at this
        rcases find?_range_spec (fun (x : Nat) => m.get y' x == kFg) m.width with ⟨_, g⟩ | ⟨c, g, _⟩
        · simpa using g x' hx'
        · rw [g] at this; cases this
      · simpa using hbx x' hlt

theorem findSome?_range_eq_some {β : Type} (f : Nat → Option β) (n c : Nat) (v : β)
    (hc : c < n) (hv : f c = some v) (hb : ∀ b, b < c → f b = none) :
    (List.range n).findSome? f = some v := by
  rcases findSome?_range_spec f n with ⟨_, hall⟩ | ⟨c', v', h, hc', hv', hb'⟩
  · rw [hall c hc] at hv; cases hv
  · rcases Nat.lt_trichotomy c c' with h1 | h1 | h1
    · rw [hb' c h1] at hv; cases hv
    · subst h1; rw [hv] at hv'; rw [h, hv']
    · rw [hb c' h1] at hv'; cases hv'

/-! ## One step of the trace -/

theorem step_found (m : image8u) (dir_b : Int) (p back : point2i) (t : Nat) (ht : t < 8)
    (hfg : isFg m (nb p ((startDirOf dir_b p back + t) % 8)).x
      (nb p ((startDirOf dir_b p back + t) % 8)).y = true)
    (hbg : ∀ u, u < t → isFg m (nb p ((startDirOf dir_b p back + u) % 8)).x
      (nb p ((startDirOf dir_b p back + u) % 8)).y = false) :
    step m dir_b p back =
      (nb p ((startDirOf dir_b p back + t) % 8),
        nb p (((startDirOf dir_b p back + t) % 8 + 7) % 8)) := by
  unfold step
  simp only []
  rw [findSome?_range_eq_some _ 8 t _ ht]
  · rfl
  · simp only [nb, startDirOf] at hfg
    simp only [hfg, if_true]
    rfl
  · intro u hu
    have := hbg u hu
    simp only [nb, startDirOf] at this
    simp only [this]
    rfl

theorem step_cases (m : image8u) (dir_b : Int) (p back : point2i) :
    (step m dir_b p back = (p, back) ∧ ∀ k, k < 8 → isFg m (nb p k).x (nb p k).y = false) ∨
    ∃ k, k < 8 ∧ isFg m (nb p k).x (nb p k).y = true ∧
      step m dir_b p back = (nb p k, nb p ((k + 7) % 8)) := by
  unfold step
  simp only []
  rcases findSome?_range_spec (fun (t : Nat) =>
      if isFg m (p.x + dx8 ((startDirOf dir_b p back + t) % 8))
          (p.y + dy8 ((startDirOf dir_b p back + t) % 8)) = true then
        some ((⟨p.x + dx8 ((startDirOf dir_b p back + t) % 8),
            p.y + dy8 ((startDirOf dir_b p back + t) % 8)⟩ : point2i),
          (⟨p.x + dx8 (((startDirOf dir_b p back + t) % 8 + 7) % 8),
            p.y + dy8 (((startDirOf dir_b p back + t) % 8 + 7) % 8)⟩ : point2i))
      else none) 8 with ⟨h, hall⟩ | ⟨c, v, h, hc, hv, hb⟩
  · left
    unfold startDirOf at h
    refine ⟨by rw [h]; rfl, ?_⟩
    intro k hk
    have hex : ∃ t, t < 8 ∧ (startDirOf dir_b p back + t) % 8 = k := by
      refine ⟨(k + 8 - startDirOf dir_b p back % 8) % 8, Nat.mod_lt _ (by omega), ?_⟩
      omega
    obtain ⟨t, ht, rfl⟩ := hex
    have := hall t ht
    simp only [ite_eq_right_iff, reduceCtorEq, imp_false, Bool.not_eq_true] at this
    exact this
  · right
    unfold startDirOf at h
    by_cases hfg : isFg m (p.x + dx8 ((startDirOf dir_b p back + c) % 8))
          (p.y + dy8 ((startDirOf dir_b p back + c) % 8)) = true
    · simp only [hfg, if_true, Option.some.injEq] at hv
      refine ⟨(startDirOf dir_b p back + c) % 8, Nat.mod_lt _ (by omega), hfg, ?_⟩
      rw [h, ← hv]
      rfl
    · simp only [hfg] at hv
      cases hv

/-! ## The trace loop -/

theorem isFg_inBounds (m : image8u) (x y : Int) (h : isFg m x y = true) :
    inBounds x y m.width m.height = true := by
  unfold isFg at h
  by_cases hb : inBounds x y m.width m.height = true
  · exact hb
  · simp [hb] at h

theorem isFg_get (m : image8u) (x y : Int) (h : isFg m x y = true) : m.get y x = kFg := by
  unfold isFg at h
  by_cases hb : inBounds x y m.width m.height = true
  · simpa [hb] using h
  · simp [hb] at h

theorem isFg_of_nat (m : image8u) (x y : Nat) (hx : x < m.width) (hy : y < m.height) :
    isFg m x y = (m.get y x == kFg) := by
  simp [isFg, inBounds, hx, hy]

theorem step_fst_fg (m : image8u) (dir_b : Int) (p back : point2i)
    (hp : isFg m p.x p.y = true) :
    isFg m (step m dir_b p back).1.x (step m dir_b p back).1.y = true := by
  rcases step_cases m dir_b p back with ⟨h, _⟩ | ⟨k, _, hfg, h⟩
  · rw [h]; exact hp
  · rw [h]; exact hfg

theorem traceLoop_spec (m : image8u) (p0 : point2i) (fuel : Nat) :
    ∀ (cur b : point2i) (contour : List point2i),
      ∃ ext, traceLoop m p0 fuel cur b contour = contour ++ ext ∧ p0 ∉ ext ∧
        (isFg m cur.x cur.y = true → ∀ q ∈ ext, isFg m q.x q.y = true) := by
  induction fuel with
  | zero =>
    intro cur b contour
    exact ⟨[], by simp [traceLoop], by simp, by simp⟩
  | succ fuel ih =>
    intro cur b contour
    unfold traceLoop
    simp only []
    by_cases h : (step m 4 cur b).1 = p0
    · exact ⟨[], by simp [h], by simp, by simp⟩
    · obtain ⟨ext, h1, h2, h3⟩ := ih (step m 4 cur b).1 (step m 4 cur b).2
        (contour ++ [(step m 4 cur b).1])
      refine ⟨(step m 4 cur b).1 :: ext, by simp [h, h1], ?_, ?_⟩
      · simp only [List.mem_cons, not_or]
        exact ⟨fun e => h e.symm, h2⟩
      · intro hcur q hq
        have hs := step_fst_fg m 4 cur b hcur
        rcases List.mem_cons.1 hq with rfl | hq
        · exact hs
        · exact h3 hs q hq

theorem rotateToMinYX_perm (pts : List point2i) : (rotateToMinYX pts).Perm pts := by
  unfold rotateToMinYX
  by_cases h : pts.isEmpty = true
  · simp [h]
  · simp only [h]
    have h1 : (pts.drop (bestIndex pts) ++ pts.take (bestIndex pts)).Perm
        (pts.take (bestIndex pts) ++ pts.drop (bestIndex pts)) := List.perm_append_comm
    simpa using h1

theorem tracedContour_none (m : image8u) (h : findStart m = none) : tracedContour m = [] := by
  simp [tracedContour, h]

theorem tracedContour_isolated (m : image8u) (start : point2i) (h : findStart m = some start)
    (hn : hasNeighbor m start = false) : tracedContour m = [start] := by
  simp [tracedContour, h, hn]

theorem tracedContour_stuck (m : image8u) (start : point2i) (h : findStart m = some start)
    (hs : (step m 4 start ⟨start.x - 1, start.y⟩).1 = start) : tracedContour m = [start] := by
  simp only [tracedContour, h]
  split
  · rfl
  · simp [hs]

theorem tracedContour_traced (m : image8u) (start : point2i) (h : findStart m = some start)
    (hn : hasNeighbor m start = true)
    (hs : (step m 4 start ⟨start.x - 1, start.y⟩).1 ≠ start) :
    tracedContour m = rotateToMinYX (orient (rawTrace m start)) := by
  simp only [tracedContour, h, hn]
  simp [hs, rawTrace, orient]

theorem rawTrace_spec (m : image8u) (p0 : point2i)
    (hs : (step m 4 p0 ⟨p0.x - 1, p0.y⟩).1 ≠ p0) :
    ∃ ext, rawTrace m p0 = p0 :: (step m 4 p0 ⟨p0.x - 1, p0.y⟩).1 :: ext ∧ p0 ∉ ext ∧
      (isFg m p0.x p0.y = true → ∀ q ∈ rawTrace m p0, isFg m q.x q.y = true) := by
  obtain ⟨ext, h1, h2, h3⟩ := traceLoop_spec m p0 (m.width * m.height + 8 - 2)
    (step m 4 p0 ⟨p0.x - 1, p0.y⟩).1 (step m 4 p0 ⟨p0.x - 1, p0.y⟩).2
    [p0, (step m 4 p0 ⟨p0.x - 1, p0.y⟩).1]
  refine ⟨ext, by simpa [rawTrace] using h1, h2, ?_⟩
  intro hp q hq
  have hs1 := step_fst_fg m 4 p0 ⟨p0.x - 1, p0.y⟩ hp
  unfold rawTrace at hq
  rw [h1] at hq
  simp only [List.cons_append, List.nil_append, List.mem_cons] at hq
  rcases hq with rfl | rfl | hq
  · exact hp
  · exact hs1
  · exact h3 hs1 q hq

theorem orient_perm (c : List point2i) : (orient c).Perm c := by
  unfold orient
  split
  · exact List.reverse_perm c
  · exact List.Perm.refl c

theorem findStart_fg (m : image8u) (start : point2i) (h : findStart m = some start) :
    isFg m start.x start.y = true := by
  rcases findStart_spec m with ⟨h0, _⟩ | ⟨x, y, h1, hx, hy, hg, _⟩
  · rw [h0] at h; cases h
  · rw [h1] at h
    cases h
    simp [isFg_of_nat m x y hx hy, hg]

theorem tracedContour_fg (m : image8u) : ∀ q ∈ tracedContour m, isFg m q.x q.y = true := by
  intro q hq
  cases h : findStart m with
  | none => rw [tracedContour_none m h] at hq; cases hq
  | some start =>
    have hfg := findStart_fg m start h
    by_cases hn : hasNeighbor m start = true
    · by_cases hs : (step m 4 start ⟨start.x - 1, start.y⟩).1 = start
      · rw [tracedContour_stuck m start h hs] at hq
        rw [List.mem_singleton.1 hq]; exact hfg
      · rw [tracedContour_traced m start h hn hs] at hq
        obtain ⟨ext, _, _, h3⟩ := rawTrace_spec m start hs
        have h4 := (rotateToMinYX_perm _).mem_iff.1 hq
        exact h3 hfg q ((orient_perm _).mem_iff.1 h4)
    · rw [tracedContour_isolated m start h (by simpa using hn)] at hq
      rw [List.mem_singleton.1 hq]; exact hfg

theorem extractContour_eq (m : image8u) : extractContour m = some (tracedContour m) := by
  unfold extractContour
  simp only []
  rw [if_pos]
  rw [List.all_eq_true]
  intro q hq
  exact isFg_inBounds m q.x q.y (tracedContour_fg m q hq)

/-! ## Start scan, uniqueness -/

theorem findStart_eq_some (m : image8u) (x y : Nat) (hx : x < m.width) (hy : y < m.height)
    (hfg : m.get y x = kFg)
    (hfirst : ∀ x' y' : Nat, x' < m.width → y' < m.height → ScannedBefore x' y' x y →
      m.get y' x' ≠ kFg) :
    findStart m = some ⟨x, y⟩ := by
  rcases findStart_spec m with ⟨_, h0⟩ | ⟨x0, y0, h1, hx0, hy0, hg0, hb0⟩
  · exact absurd hfg (h0 x y hx hy)
  · have key : x0 = x ∧ y0 = y := by
      by_contra hne
      have h3 : ScannedBefore x0 y0 x y ∨ ScannedBefore x y x0 y0 := by
        unfold ScannedBefore
        omega
      rcases h3 with h3 | h3
      · exact hfirst x0 y0 hx0 hy0 h3 hg0
      · exact hb0 x y hx hy h3 hfg
    rw [h1, key.1, key.2]

theorem hasNeighbor_eq_false (m : image8u) (p : point2i)
    (h : ∀ dx dy, IsNeighbourDelta dx dy → isFg m (p.x + dx) (p.y + dy) = false) :
    hasNeighbor m p = false := by
  unfold hasNeighbor
  rw [List.any_eq_false]
  intro k hk
  rw [List.mem_range] at hk
  simpa using h (dx8 k) (dy8 k) ((neighbourDelta_iff _ _).2 ⟨k, hk, rfl, rfl⟩)

theorem image8u_ext (a b : image8u) (ha : a.WF) (hb : b.WF) (hw : a.width = b.width)
    (hh : a.height = b.height)
    (hget : ∀ x y : Nat, x < a.width → y < a.height → a.get y x = b.get y x) : a = b := by
  obtain ⟨aw, ah, ad⟩ := a
  obtain ⟨bw, bh, bd⟩ := b
  simp only [image8u.WF] at ha hb
  simp only at hw hh
  subst hw hh
  have hd : ad = bd := by
    apply List.ext_getElem (by rw [ha, hb])
    intro i h1 h2
    have hi : i < aw * ah := by rw [← ha]; exact h1
    have hw0 : 0 < aw := by
      rcases Nat.eq_zero_or_pos aw with h0 | h0
      · rw [h0] at hi; simp at hi
      · exact h0
    have hx : i % aw < aw := Nat.mod_lt _ hw0
    have hy : i / aw < ah := by
      rw [Nat.div_lt_iff_lt_mul hw0, Nat.mul_comm]
      exact hi
    have := hget (i % aw) (i / aw) hx hy
    simp only [image8u.get, Int.toNat_ofNat] at this
    have e : i / aw * aw + i % aw = i := by
      rw [Nat.mul_comm]; exact Nat.div_add_mod i aw
    rw [e, List.getD_eq_getElem?_getD, List.getD_eq_getElem?_getD,
      List.getElem?_eq_getElem h1, List.getElem?_eq_getElem h2] at this
    simpa using this
  rw [hd]

theorem isFg_eq_false_of (m : image8u) (X Y : Int)
    (h : ∀ x' y' : Nat, x' < m.width → y' < m.height → (x' : Int) = X → (y' : Int) = Y →
      m.get y' x' ≠ kFg) : isFg m X Y = false := by
  by_cases hb : inBounds X Y m.width m.height = true
  · simp only [inBounds, Bool.and_eq_true, decide_eq_true_eq] at hb
    obtain ⟨⟨⟨h1, h2⟩, h3⟩, h4⟩ := hb
    have := h X.toNat Y.toNat (by omega) (by omega) (by omega) (by omega)
    have hX : ((X.toNat : Nat) : Int) = X := by omega
    have hY : ((Y.toNat : Nat) : Int) = Y := by omega
    rw [hX, hY] at this
    simp [isFg, this]
  · simp [isFg, hb]

theorem marks_iff (m : image8u) (x y : Nat) :
    marks m x y = true ↔
      (m.get y x = kFg ∧ ∃ dx dy : Int, IsNeighbourDelta dx dy ∧
        (inBounds (x + dx) (y + dy) m.width m.height = false ∨
          m.get (y + dy) (x + dx) ≠ kFg)) := by
  simp only [marks, Bool.and_eq_true, beq_iff_eq, isBoundaryAt_iff]

theorem buildContourMask_get_bg (m : image8u)
    (hall : ∀ x y : Nat, x < m.width → y < m.height → m.get y x ≠ kFg) (x y : Nat)
    (hx : x < m.width) (hy : y < m.height) : (buildContourMask m).get y x = 0 := by
  rw [buildContourMask_get m x y hx hy]
  have : marks m x y = false := by
    cases hm : marks m x y with
    | false => rfl
    | true => exact absurd ((marks_iff m x y).1 hm).1 (hall x y hx hy)
  simp [this]

/-- C1: `buildContourMask m` has the size of `m`, one sample per pixel; inside the
raster, pixel `(x, y)` is 255 exactly when `m(x, y)` is 255 and one of its eight
neighbours is out of bounds or differs from 255 in `m`, and every other pixel is 0;
an all-background mask gives an all-background output. -/
theorem buildContourMask_spec (m : image8u) :
    (buildContourMask m).width = m.width ∧ (buildContourMask m).height = m.height ∧
    (buildContourMask m).data.length = m.width * m.height ∧
    (∀ x y : Nat, x < m.width → y < m.height →
      ((buildContourMask m).get y x = 255 ↔
        (m.get y x = 255 ∧ ∃ dx dy : Int, IsNeighbourDelta dx dy ∧
          (inBounds (x + dx) (y + dy) m.width m.height = false ∨
            m.get (y + dy) (x + dx) ≠ 255))) ∧
      ((buildContourMask m).get y x ≠ 255 → (buildContourMask m).get y x = 0)) ∧
    ((∀ x y : Nat, x < m.width → y < m.height → m.get y x ≠ 255) →
      ∀ x y : Nat, x < m.width → y < m.height → (buildContourMask m).get y x = 0) := by
  refine ⟨buildContourMask_width m, buildContourMask_height m, ?_, ?_, ?_⟩
  · have := buildContourMask_WF m
    rw [image8u.WF, buildContourMask_width, buildContourMask_height] at this
    exact this
  · intro x y hx hy
    rw [buildContourMask_get m x y hx hy]
    have hiff := marks_iff m x y
    simp only [kFg] at hiff
    by_cases hm : marks m x y = true
    · simp only [hm, if_true, kFg, true_iff, ne_eq, not_true_eq_false, false_implies, and_true]
      exact hiff.1 hm
    · simp only [hm, Bool.false_eq_true, if_false]
      refine ⟨⟨fun h => absurd h (by decide), fun h => absurd (hiff.2 h) hm⟩, ?_⟩
      simp
  · intro hall x y hx hy
    exact buildContourMask_get_bg m hall x y hx hy

/-- C1, at a concrete mask: the 2-by-1 mask with samples 255, 0. -/
theorem buildContourMask_spec_witness :
    ((buildContourMask ⟨2, 1, [255, 0]⟩).get (0 : Nat) (0 : Nat) = 255 ↔
      ((⟨2, 1, [255, 0]⟩ : image8u).get (0 : Nat) (0 : Nat) = 255 ∧
        ∃ dx dy : Int, IsNeighbourDelta dx dy ∧
          (inBounds ((0 : Nat) + dx) ((0 : Nat) + dy) 2 1 = false ∨
            (⟨2, 1, [255, 0]⟩ : image8u).get ((0 : Nat) + dy) ((0 : Nat) + dx) ≠ 255))) ∧
    ((buildContourMask ⟨2, 1, [255, 0]⟩).get (0 : Nat) (0 : Nat) ≠ 255 →
      (buildContourMask ⟨2, 1, [255, 0]⟩).get (0 : Nat) (0 : Nat) = 0) :=
  (buildContourMask_spec ⟨2, 1, [255, 0]⟩).2.2.2.1 0 0 (by decide) (by decide)

/-- C8: `extractContour` returns a sequence, every point of which lies inside the
raster, so its final bounds assertion does not fail. -/
theorem extractContour_in_bounds (m : image8u) :
    ∃ c, extractContour m = some c ∧
      ∀ p ∈ c, 0 ≤ p.x ∧ p.x < m.width ∧ 0 ≤ p.y ∧ p.y < m.height := by
  refine ⟨tracedContour m, extractContour_eq m, ?_⟩
  intro p hp
  have := isFg_inBounds m p.x p.y (tracedContour_fg m p hp)
  simp only [inBounds, Bool.and_eq_true, decide_eq_true_eq] at this
  omega

theorem tracedContour_ne_nil (m : image8u) (start : point2i) (h : findStart m = some start) :
    tracedContour m ≠ [] := by
  by_cases hn : hasNeighbor m start = true
  · by_cases hs : (step m 4 start ⟨start.x - 1, start.y⟩).1 = start
    · rw [tracedContour_stuck m start h hs]; simp
    · rw [tracedContour_traced m start h hn hs]
      obtain ⟨ext, h1, _, _⟩ := rawTrace_spec m start hs
      intro hnil
      have hp := ((rotateToMinYX_perm (orient (rawTrace m start))).trans
        (orient_perm (rawTrace m start))).length_eq
      rw [hnil, h1] at hp
      simp at hp
  · rw [tracedContour_isolated m start h (by simpa using hn)]; simp

theorem tracedContour_eq_nil_iff (m : image8u) :
    tracedContour m = [] ↔ ∀ x y : Nat, x < m.width → y < m.height → m.get y x ≠ kFg := by
  rcases findStart_spec m with ⟨h0, hall⟩ | ⟨x, y, h1, hx, hy, hg, _⟩
  · exact ⟨fun _ => hall, fun _ => tracedContour_none m h0⟩
  · constructor
    · intro h; exact absurd h (tracedContour_ne_nil m _ h1)
    · intro h; exact absurd hg (h x y hx hy)

/-- C6: `extractContour m` is the empty sequence exactly when no pixel of `m` is 255;
for such a mask `buildContourMask m` has no foreground pixel either and its trace is
empty. -/
theorem extractContour_empty_iff (m : image8u) :
    (extractContour m = some [] ↔
      ∀ x y : Nat, x < m.width → y < m.height → m.get y x ≠ 255) ∧
    ((∀ x y : Nat, x < m.width → y < m.height → m.get y x ≠ 255) →
      (∀ x y : Nat, x < m.width → y < m.height → (buildContourMask m).get y x ≠ 255) ∧
      extractContour (buildContourMask m) = some []) := by
  have key : ∀ m : image8u, extractContour m = some [] ↔
      ∀ x y : Nat, x < m.width → y < m.height → m.get y x ≠ 255 := by
    intro m
    rw [extractContour_eq, Option.some.injEq]
    exact tracedContour_eq_nil_iff m
  refine ⟨key m, ?_⟩
  intro hall
  have hbg : ∀ x y : Nat, x < m.width → y < m.height →
      (buildContourMask m).get y x ≠ 255 := by
    intro x y hx hy
    rw [buildContourMask_get_bg m hall x y hx hy]
    decide
  refine ⟨hbg, (key _).2 ?_⟩
  intro x y hx hy
  rw [buildContourMask_width] at hx
  rw [buildContourMask_height] at hy
  exact hbg x y hx hy

/-- C6, at a concrete mask: the all-background 2-by-2 mask. -/
theorem extractContour_empty_iff_witness :
    (∀ x y : Nat, x < 2 → y < 2 →
      (buildContourMask ⟨2, 2, [0, 0, 0, 0]⟩).get y x ≠ 255) ∧
    extractContour (buildContourMask ⟨2, 2, [0, 0, 0, 0]⟩) = some [] :=
  (extractContour_empty_iff ⟨2, 2, [0, 0, 0, 0]⟩).2
    (by intro x y hx hy; interval_cases x <;> interval_cases y <;> decide)

/-- C7: when the first foreground pixel in row-major scan order has no foreground
pixel among its eight neighbours, `extractContour` returns exactly that one pixel;
and for a mask whose only foreground pixel is `(x, y)`, `buildContourMask` gives the
single-pixel mask at `(x, y)` (the mask itself when its background is 0) and the
trace of that is the one point `(x, y)`. -/
theorem extractContour_isolated_start :
    (∀ (m : image8u) (x y : Nat), x < m.width → y < m.height → m.get y x = 255 →
      (∀ x' y' : Nat, x' < m.width → y' < m.height → ScannedBefore x' y' x y →
        m.get y' x' ≠ 255) →
      (∀ dx dy : Int, IsNeighbourDelta dx dy → isFg m (x + dx) (y + dy) = false) →
      extractContour m = some [⟨x, y⟩]) ∧
    (∀ (m : image8u) (x y : Nat), x < m.width → y < m.height → m.get y x = 255 →
      (∀ x' y' : Nat, x' < m.width → y' < m.height → ¬ (x' = x ∧ y' = y) →
        m.get y' x' ≠ 255) →
      (∀ x' y' : Nat, x' < m.width → y' < m.height →
        (buildContourMask m).get y' x' = if x' = x ∧ y' = y then 255 else 0) ∧
      (m.data.length = m.width * m.height →
        (∀ x' y' : Nat, x' < m.width → y' < m.height → ¬ (x' = x ∧ y' = y) →
          m.get y' x' = 0) →
        buildContourMask m = m) ∧
      extractContour (buildContourMask m) = some [⟨x, y⟩]) := by
  have part1 : ∀ (m : image8u) (x y : Nat), x < m.width → y < m.height → m.get y x = 255 →
      (∀ x' y' : Nat, x' < m.width → y' < m.height → ScannedBefore x' y' x y →
        m.get y' x' ≠ 255) →
      (∀ dx dy : Int, IsNeighbourDelta dx dy → isFg m (x + dx) (y + dy) = false) →
      extractContour m = some [⟨x, y⟩] := by
    intro m x y hx hy hfg hfirst hiso
    rw [extractContour_eq]
    have hs := findStart_eq_some m x y hx hy hfg hfirst
    rw [tracedContour_isolated m ⟨x, y⟩ hs (hasNeighbor_eq_false m ⟨x, y⟩ hiso)]
  refine ⟨part1, ?_⟩
  intro m x y hx hy hfg hother
  have hpix : ∀ x' y' : Nat, x' < m.width → y' < m.height →
      (buildContourMask m).get y' x' = if x' = x ∧ y' = y then 255 else 0 := by
    intro x' y' hx' hy'
    rw [buildContourMask_get m x' y' hx' hy']
    by_cases he : x' = x ∧ y' = y
    · obtain ⟨rfl, rfl⟩ := he
      have : marks m x' y' = true := by
        rw [marks_iff]
        refine ⟨hfg, 1, 0, by simp [IsNeighbourDelta], ?_⟩
        by_cases hb : inBounds ((x' : Int) + 1) ((y' : Int) + 0) m.width m.height = true
        · right
          simp only [inBounds, Bool.and_eq_true, decide_eq_true_eq] at hb
          have := hother (x' + 1) y' (by omega) hy' (by omega)
          simpa using this
        · left; simpa using hb
      simp [this, kFg]
    · have : marks m x' y' = false := by
        cases hm : marks m x' y' with
        | false => rfl
        | true => exact absurd ((marks_iff m x' y').1 hm).1 (hother x' y' hx' hy' he)
      simp [this, he]
  refine ⟨hpix, ?_, ?_⟩
  · intro hwf hzero
    apply image8u_ext _ _ (buildContourMask_WF m) hwf (buildContourMask_width m)
      (buildContourMask_height m)
    intro x' y' hx' hy'
    rw [buildContourMask_width] at hx'
    rw [buildContourMask_height] at hy'
    rw [hpix x' y' hx' hy']
    by_cases he : x' = x ∧ y' = y
    · obtain ⟨rfl, rfl⟩ := he
      simp [hfg]
    · simp [he, hzero x' y' hx' hy' he]
  · apply part1 (buildContourMask m) x y
    · rw [buildContourMask_width]; exact hx
    · rw [buildContourMask_height]; exact hy
    · rw [hpix x y hx hy]; simp
    · intro x' y' hx' hy' hsb
      rw [buildContourMask_width] at hx'
      rw [buildContourMask_height] at hy'
      rw [hpix x' y' hx' hy']
      have : ¬ (x' = x ∧ y' = y) := by
        unfold ScannedBefore at hsb
        omega
      simp [this]
    · intro dx dy hd
      apply isFg_eq_false_of
      intro x' y' hx' hy' hX hY
      rw [buildContourMask_width] at hx'
      rw [buildContourMask_height] at hy'
      rw [hpix x' y' hx' hy']
      have : ¬ (x' = x ∧ y' = y) := by
        unfold IsNeighbourDelta at hd
        omega
      simp [this, kFg]

/-- C7, at concrete masks: the 3-by-3 mask with foreground at (1, 0) and (1, 2), which
are not neighbours; and the 3-by-2 mask whose only foreground pixel is (1, 1). -/
theorem extractContour_isolated_start_witness :
    extractContour ⟨3, 3, [0, 255, 0, 0, 0, 0, 0, 255, 0]⟩
      = some [⟨(1 : Nat), (0 : Nat)⟩] ∧
    ((∀ x' y' : Nat, x' < 3 → y' < 2 →
      (buildContourMask ⟨3, 2, [0, 0, 0, 0, 255, 0]⟩).get y' x'
        = if x' = 1 ∧ y' = 1 then 255 else 0) ∧
    ((⟨3, 2, [0, 0, 0, 0, 255, 0]⟩ : image8u).data.length = 3 * 2 →
      (∀ x' y' : Nat, x' < 3 → y' < 2 → ¬ (x' = 1 ∧ y' = 1) →
        (⟨3, 2, [0, 0, 0, 0, 255, 0]⟩ : image8u).get y' x' = 0) →
      buildContourMask ⟨3, 2, [0, 0, 0, 0, 255, 0]⟩ = ⟨3, 2, [0, 0, 0, 0, 255, 0]⟩) ∧
    extractContour (buildContourMask ⟨3, 2, [0, 0, 0, 0, 255, 0]⟩)
      = some [⟨(1 : Nat), (1 : Nat)⟩]) :=
  ⟨extractContour_isolated_start.1 ⟨3, 3, [0, 255, 0, 0, 0, 0, 0, 255, 0]⟩ 1 0
      (by decide) (by decide) (by decide)
      (by intro x y hx hy hs; interval_cases x <;> interval_cases y <;>
            first | decide | (exfalso; unfold ScannedBefore at hs; omega))
      (by
        intro dx dy hd
        obtain ⟨k, hk, rfl, rfl⟩ := (neighbourDelta_iff dx dy).1 hd
        interval_cases k <;> decide),
    extractContour_isolated_start.2 ⟨3, 2, [0, 0, 0, 0, 255, 0]⟩ 1 1 (by decide) (by decide)
      (by decide)
      (by intro x y hx hy; interval_cases x <;> interval_cases y <;> decide)⟩

/-! ## Start normalisation -/

theorem bestUpTo_succ (pts : List point2i) (k : Nat) :
    bestUpTo pts (k + 1) =
      if lexLt (pts.getD (k + 1) default) (pts.getD (bestUpTo pts k) default) then k + 1
      else bestUpTo pts k := by
  simp only [bestUpTo, List.range'_concat, List.foldl_append, List.foldl_cons, List.foldl_nil,
    lexLt]
  rw [Nat.one_mul, Nat.add_comm 1 k]

theorem bestUpTo_spec (pts : List point2i) (k : Nat) :
    bestUpTo pts k ≤ k ∧
    ∀ i, i ≤ k → ¬ lexLt (pts.getD i default) (pts.getD (bestUpTo pts k) default) := by
  induction k with
  | zero =>
    refine ⟨by simp [bestUpTo], ?_⟩
    intro i hi
    have : i = 0 := by omega
    subst this
    simp [bestUpTo, lexLt]
  | succ k ih =>
    rw [bestUpTo_succ]
    obtain ⟨h1, h2⟩ := ih
    by_cases hlt : lexLt (pts.getD (k + 1) default) (pts.getD (bestUpTo pts k) default)
    · simp only [hlt, if_true]
      refine ⟨le_refl _, ?_⟩
      intro i hi
      by_cases e : i = k + 1
      · subst e; simp [lexLt]
      · have := h2 i (by omega)
        unfold lexLt at *
        omega
    · simp only [hlt, if_false]
      refine ⟨by omega, ?_⟩
      intro i hi
      by_cases e : i = k + 1
      · subst e; exact hlt
      · exact h2 i (by omega)

theorem bestIndex_eq (pts : List point2i) : bestIndex pts = bestUpTo pts (pts.length - 1) := rfl

theorem rotateToMinYX_head (pts : List point2i) (hne : pts ≠ []) :
    ∃ rest, rotateToMinYX pts = pts.getD (bestIndex pts) default :: rest ∧
      ∀ q ∈ pts, ¬ lexLt q (pts.getD (bestIndex pts) default) := by
  obtain ⟨h1, h2⟩ := bestUpTo_spec pts (pts.length - 1)
  rw [← bestIndex_eq] at h1 h2
  have hlen : 0 < pts.length := List.length_pos.2 hne
  have hb : bestIndex pts < pts.length := by omega
  refine ⟨(pts.drop (bestIndex pts + 1)) ++ pts.take (bestIndex pts), ?_, ?_⟩
  · unfold rotateToMinYX
    have : pts.isEmpty = false := by
      cases pts with
      | nil => exact absurd rfl hne
      | cons a l => rfl
    simp only [this, Bool.false_eq_true, if_false]
    rw [List.drop_eq_getElem_cons hb, List.getD_eq_getElem?_getD, List.getElem?_eq_getElem hb]
    simp only [List.cons_append, Option.getD_some]
  · intro q hq
    obtain ⟨i, hi, rfl⟩ := List.getElem_of_mem hq
    have := h2 i (by omega)
    rw [List.getD_eq_getElem?_getD, List.getElem?_eq_getElem hi] at this
    simpa using this

/-- C4: for a mask with a foreground pixel, `extractContour` returns a non-empty sequence
whose first point is least by `(y, x)` among the returned points: no returned point has
a smaller `y`, and none with the same `y` has a smaller `x`. -/
theorem extractContour_first_is_min (m : image8u) (x y : Nat) (hx : x < m.width)
    (hy : y < m.height) (hfg : m.get y x = 255) :
    ∃ first rest, extractContour m = some (first :: rest) ∧
      ∀ q ∈ first :: rest, first.y ≤ q.y ∧ (q.y = first.y → first.x ≤ q.x) := by
  rw [extractContour_eq]
  have hsingle : ∀ s : point2i, ∀ q ∈ [s], s.y ≤ q.y ∧ (q.y = s.y → s.x ≤ q.x) := by
    intro s q hq
    rw [List.mem_singleton.1 hq]
    exact ⟨le_refl _, fun _ => le_refl _⟩
  cases h : findStart m with
  | none =>
    rcases findStart_spec m with ⟨_, h0⟩ | ⟨x0, y0, h1, _⟩
    · exact absurd hfg (h0 x y hx hy)
    · rw [h] at h1; cases h1
  | some start =>
    by_cases hn : hasNeighbor m start = true
    · by_cases hs : (step m 4 start ⟨start.x - 1, start.y⟩).1 = start
      · rw [tracedContour_stuck m start h hs]
        exact ⟨start, [], rfl, hsingle start⟩
      · rw [tracedContour_traced m start h hn hs]
        have hne : orient (rawTrace m start) ≠ [] := by
          intro hnil
          obtain ⟨ext, h1, _, _⟩ := rawTrace_spec m start hs
          have hp := (orient_perm (rawTrace m start)).length_eq
          rw [hnil, h1] at hp
          simp at hp
        obtain ⟨rest, hr, hmin⟩ := rotateToMinYX_head _ hne
        refine ⟨_, rest, by rw [hr], ?_⟩
        intro q hq
        rw [← hr] at hq
        have := hmin q ((rotateToMinYX_perm _).mem_iff.1 hq)
        unfold lexLt at this
        omega
    · rw [tracedContour_isolated m start h (by simpa using hn)]
      exact ⟨start, [], rfl, hsingle start⟩

/-- C4, at a concrete mask: the 2-by-2 mask with foreground at (1, 0) and (0, 1). -/
theorem extractContour_first_is_min_witness :
    ∃ first rest, extractContour ⟨2, 2, [0, 255, 255, 0]⟩ = some (first :: rest) ∧
      ∀ q ∈ first :: rest, first.y ≤ q.y ∧ (q.y = first.y → first.x ≤ q.x) :=
  extractContour_first_is_min ⟨2, 2, [0, 255, 255, 0]⟩ 1 0 (by decide) (by decide) (by decide)

/-! ## Orientation -/

theorem foldl_add_eq_sum (g : Nat → Int) (n : Nat) :
    (List.range n).foldl (fun (a : Int) (i : Nat) => a + g i) 0 = ∑ i in Finset.range n, g i := by
  induction n with
  | zero => simp
  | succ n ih => rw [List.range_succ, List.foldl_append, ih, Finset.sum_range_succ]; simp

theorem chainSum_eq_sum (L : List point2i) :
    chainSum L = ∑ i in Finset.range (L.length - 1),
      cross (L.getD i default) (L.getD (i + 1) default) := by
  induction L with
  | nil => simp [chainSum]
  | cons p t ih =>
    cases t with
    | nil => simp [chainSum]
    | cons q r =>
      rw [chainSum, ih]
      simp only [List.length_cons, Nat.add_sub_cancel]
      rw [Finset.sum_range_succ']
      simp only [List.getD_cons_succ, List.getD_cons_zero]
      ring

theorem chainSum_append (A : List point2i) (x : point2i) (B : List point2i) :
    chainSum (A ++ x :: B) = chainSum (A ++ [x]) + chainSum (x :: B) := by
  induction A with
  | nil => simp [chainSum]
  | cons a t ih =>
    cases t with
    | nil => simp [chainSum]
    | cons a' t' =>
      simp only [List.cons_append, chainSum, List.append_eq] at ih ⊢
      rw [ih]
      ring

theorem cross_antisymm (p q : point2i) : cross q p = - cross p q := by
  unfold cross; ring

theorem chainSum_reverse (L : List point2i) : chainSum L.reverse = - chainSum L := by
  induction L with
  | nil => simp [chainSum]
  | cons p t ih =>
    cases t with
    | nil => simp [chainSum]
    | cons q r =>
      rw [List.reverse_cons, List.reverse_cons, List.append_assoc]
      simp only [List.singleton_append]
      rw [chainSum_append, ← List.reverse_cons, ih]
      simp only [chainSum, cross_antisymm q p]
      ring

theorem cycSum_append_comm (A B : List point2i) : cycSum (A ++ B) = cycSum (B ++ A) := by
  cases A with
  | nil => simp
  | cons a A' =>
    cases B with
    | nil => simp
    | cons b B' =>
      unfold cycSum
      simp only [List.cons_append, List.take_succ_cons, List.take_zero, List.append_assoc]
      have e1 := chainSum_append (a :: A') b (B' ++ [a])
      have e2 := chainSum_append (b :: B') a (A' ++ [b])
      simp only [List.cons_append] at e1 e2
      rw [e1, e2]
      ring

theorem cycSum_reverse (c : List point2i) : cycSum c.reverse = - cycSum c := by
  cases c with
  | nil => simp [cycSum, chainSum]
  | cons h t =>
    rw [List.reverse_cons, cycSum_append_comm]
    have e : cycSum ([h] ++ t.reverse) = chainSum (h :: (t ++ [h])).reverse := by
      unfold cycSum
      simp
    rw [e, chainSum_reverse]
    simp [cycSum]

theorem shoelace_eq_cycSum (c : List point2i) : shoelace c = cycSum c := by
  cases c with
  | nil => simp [shoelace, cycSum, chainSum]
  | cons h t =>
    unfold cycSum shoelace
    rw [chainSum_eq_sum]
    simp only [List.take_succ_cons, List.take_zero, List.length_append, List.length_cons,
      List.length_nil, Nat.add_sub_cancel]
    apply Finset.sum_congr rfl
    intro i hi
    rw [Finset.mem_range] at hi
    have h1 : (h :: t ++ [h]).getD i default = (h :: t).getD i default := by
      rw [List.getD_append _ _ _ _ (by simpa using hi)]
    have h2 : (h :: t ++ [h]).getD (i + 1) default
        = (h :: t).getD ((i + 1) % (t.length + 1)) default := by
      by_cases e : i + 1 < t.length + 1
      · rw [Nat.mod_eq_of_lt e, List.getD_append _ _ _ _ (by simpa using e)]
      · have e' : i + 1 = t.length + 1 := by omega
        rw [e', Nat.mod_self, List.getD_append_right _ _ _ _ (by simp)]
        simp
    rw [h1, h2]
    rfl

theorem signedArea2_eq_cycSum (c : List point2i) : signedArea2_imageCoords c = cycSum c := by
  unfold signedArea2_imageCoords
  by_cases h : c.length < 3
  · simp only [h, if_true]
    match c, h with
    | [], _ => simp [cycSum, chainSum]
    | [p], _ => simp [cycSum, chainSum, cross]
    | [p, q], _ => simp [cycSum, chainSum, cross]
  · simp only [h, if_false]
    rw [← shoelace_eq_cycSum]
    exact foldl_add_eq_sum _ _

theorem cycSum_orient_nonneg (c : List point2i) : 0 ≤ cycSum (orient c) := by
  unfold orient
  rw [signedArea2_eq_cycSum]
  by_cases h : cycSum c < 0
  · simp only [h, if_true]
    rw [cycSum_reverse]
    omega
  · simp only [h, if_false]
    omega

theorem cycSum_rotateToMinYX (c : List point2i) : cycSum (rotateToMinYX c) = cycSum c := by
  unfold rotateToMinYX
  by_cases h : c.isEmpty = true
  · simp [h]
  · simp only [h, Bool.false_eq_true, if_false]
    rw [cycSum_append_comm, List.take_append_drop]

theorem cycSum_tracedContour_nonneg (m : image8u) : 0 ≤ cycSum (tracedContour m) := by
  cases h : findStart m with
  | none => rw [tracedContour_none m h]; simp [cycSum, chainSum]
  | some start =>
    by_cases hn : hasNeighbor m start = true
    · by_cases hs : (step m 4 start ⟨start.x - 1, start.y⟩).1 = start
      · rw [tracedContour_stuck m start h hs]; simp [cycSum, chainSum, cross]
      · rw [tracedContour_traced m start h hn hs, cycSum_rotateToMinYX]
        exact cycSum_orient_nonneg _
    · rw [tracedContour_isolated m start h (by simpa using hn)]
      simp [cycSum, chainSum, cross]

/-- C3: the sequence `p_0 .. p_(n-1)` returned by `extractContour` has a non-negative
shoelace sum, the sum over `i` of `x_i * y_((i+1) mod n) - x_((i+1) mod n) * y_i` taken
in the integers. -/
theorem extractContour_shoelace_nonneg (m : image8u) :
    ∃ c, extractContour m = some c ∧
      0 ≤ ∑ i in Finset.range c.length,
        ((c.getD i default).x * (c.getD ((i + 1) % c.length) default).y
          - (c.getD ((i + 1) % c.length) default).x * (c.getD i default).y) := by
  refine ⟨tracedContour m, extractContour_eq m, ?_⟩
  have := cycSum_tracedContour_nonneg m
  rw [← shoelace_eq_cycSum] at this
  exact this

/-! ## Cyclic chains -/

theorem cycChain_append_comm {α : Type} (R : α → α → Prop) (A B : List α)
    (h : CycChain R (A ++ B)) : CycChain R (B ++ A) := by
  cases A with
  | nil => simpa using h
  | cons a A' =>
    cases B with
    | nil => simpa using h
    | cons b B' =>
      unfold CycChain at *
      simp only [List.cons_append, List.take_succ_cons, List.take_zero,
        List.append_assoc] at h ⊢
      have h1 : List.Chain' R ((a :: A') ++ b :: (B' ++ [a])) := by simpa using h
      rw [List.chain'_split] at h1
      have h2 : List.Chain' R ((b :: B') ++ a :: (A' ++ [b])) := by
        rw [List.chain'_split]
        exact ⟨by simpa using h1.2, by simpa using h1.1⟩
      simpa using h2

theorem cycChain_reverse {α : Type} (R : α → α → Prop) (hsymm : ∀ a b, R a b → R b a)
    (c : List α) (h : CycChain R c) : CycChain R c.reverse := by
  cases c with
  | nil => simpa using h
  | cons a t =>
    have h1 : List.Chain' R (a :: (t ++ [a])) := by simpa [CycChain] using h
    have h2 : List.Chain' R (a :: (t ++ [a])).reverse := by
      rw [List.chain'_reverse]
      exact h1.imp (fun x y hxy => hsymm x y hxy)
    have h3 : CycChain R ([a] ++ t.reverse) := by
      unfold CycChain
      simpa using h2
    have := cycChain_append_comm R [a] t.reverse h3
    simpa using this

theorem get_eq_getD {α : Type} [Inhabited α] (l : List α) (i : Nat) (h : i < l.length) :
    l.get ⟨i, h⟩ = l.getD i default := by
  rw [List.getD_eq_getElem?_getD, List.getElem?_eq_getElem h]
  rfl

theorem cycChain_index {α : Type} [Inhabited α] (R : α → α → Prop) (c : List α)
    (h : CycChain R c) (i : Nat) (hi : i < c.length) :
    R (c.getD i default) (c.getD ((i + 1) % c.length) default) := by
  cases c with
  | nil => simp at hi
  | cons a t =>
    have h1 : List.Chain' R (a :: t ++ [a]) := by simpa [CycChain] using h
    rw [List.chain'_iff_get] at h1
    have h2 := h1 i (by simpa using hi)
    rw [get_eq_getD, get_eq_getD] at h2
    have e1 : (a :: t ++ [a]).getD i default = (a :: t).getD i default := by
      rw [List.getD_append _ _ _ _ hi]
    have e2 : (a :: t ++ [a]).getD (i + 1) default =
        (a :: t).getD ((i + 1) % (a :: t).length) default := by
      by_cases e : i + 1 < (a :: t).length
      · rw [Nat.mod_eq_of_lt e, List.getD_append _ _ _ _ e]
      · have e' : i + 1 = (a :: t).length := by
          simp only [List.length_cons] at hi e ⊢
          omega
        rw [e', Nat.mod_self, List.getD_append_right _ _ _ _ (le_refl _)]
        simp
    rw [e1, e2] at h2
    exact h2

/-! ## Adjacency along the trace -/

theorem adjacent8_symm (p q : point2i) (h : Adjacent8 p q) : Adjacent8 q p := by
  obtain ⟨h1, h2, h3⟩ := h
  exact ⟨by rw [abs_sub_comm]; exact h1, by rw [abs_sub_comm]; exact h2, by omega⟩

theorem adjacent8_ne (p q : point2i) (h : Adjacent8 p q) : p ≠ q := by
  rintro rfl
  exact h.2.2 ⟨rfl, rfl⟩

theorem adjacent8_nb (p : point2i) (k : Nat) (hk : k < 8) : Adjacent8 p (nb p k) := by
  unfold Adjacent8 nb
  simp only [add_sub_cancel_left]
  interval_cases k <;> simp [dx8, dy8]

theorem nb_back (p : point2i) (k : Nat) (hk : k < 8) : nb (nb p k) ((k + 4) % 8) = p := by
  cases p with
  | mk x y =>
    unfold nb
    interval_cases k <;> simp [dx8, dy8]

theorem step_movable (m : image8u) (dir_b : Int) (p back : point2i) (hp : Movable m p) :
    Adjacent8 p (step m dir_b p back).1 ∧ Movable m (step m dir_b p back).1 := by
  obtain ⟨hfg, k0, hk0, hn0⟩ := hp
  rcases step_cases m dir_b p back with ⟨_, hnone⟩ | ⟨k, hk, hk1, hs⟩
  · rw [hnone k0 hk0] at hn0; cases hn0
  · rw [hs]
    refine ⟨adjacent8_nb p k hk, hk1, (k + 4) % 8, Nat.mod_lt _ (by omega), ?_⟩
    rw [nb_back p k hk]
    exact hfg

theorem traceLoop_chain (m : image8u) (p0 : point2i) (fuel : Nat) :
    ∀ (cur b : point2i) (contour : List point2i), Movable m cur →
      ∃ ext, traceLoop m p0 fuel cur b contour = contour ++ ext ∧ p0 ∉ ext ∧
        List.Chain' Adjacent8 (cur :: ext) ∧ ext.length ≤ fuel ∧
        (ext.length < fuel → List.Chain' Adjacent8 (cur :: ext ++ [p0])) := by
  induction fuel with
  | zero =>
    intro cur b contour _
    exact ⟨[], by simp [traceLoop], by simp, by simp, by simp, by simp⟩
  | succ fuel ih =>
    intro cur b contour hcur
    obtain ⟨hadj, hmov⟩ := step_movable m 4 cur b hcur
    unfold traceLoop
    simp only []
    by_cases h : (step m 4 cur b).1 = p0
    · refine ⟨[], by simp [h], by simp, by simp, by simp, ?_⟩
      intro _
      rw [← h]
      simpa using hadj
    · obtain ⟨ext, h1, h2, h3, h4, h5⟩ := ih (step m 4 cur b).1 (step m 4 cur b).2
        (contour ++ [(step m 4 cur b).1]) hmov
      refine ⟨(step m 4 cur b).1 :: ext, by simp [h, h1], ?_, ?_, ?_, ?_⟩
      · simp only [List.mem_cons, not_or]
        exact ⟨fun e => h e.symm, h2⟩
      · exact List.Chain'.cons hadj h3
      · simp only [List.length_cons]; omega
      · intro hlt
        simp only [List.length_cons, Nat.add_lt_add_iff_right] at hlt
        have := h5 hlt
        simp only [List.cons_append] at this ⊢
        exact List.Chain'.cons hadj this

theorem hasNeighbor_movable (m : image8u) (start : point2i)
    (hfg : isFg m start.x start.y = true) (hn : hasNeighbor m start = true) :
    Movable m start := by
  refine ⟨hfg, ?_⟩
  unfold hasNeighbor at hn
  rw [List.any_eq_true] at hn
  obtain ⟨k, hk, h⟩ := hn
  exact ⟨k, List.mem_range.1 hk, h⟩

theorem rawTrace_chain (m : image8u) (p0 : point2i) (hp : Movable m p0) :
    ∃ p1 ext, rawTrace m p0 = p0 :: p1 :: ext ∧ p0 ∉ ext ∧
      List.Chain' Adjacent8 (p0 :: p1 :: ext) ∧
      (rawTrace m p0).length ≤ m.width * m.height + 8 ∧
      ((rawTrace m p0).length < m.width * m.height + 8 →
        CycChain Adjacent8 (rawTrace m p0)) := by
  obtain ⟨hadj, hmov⟩ := step_movable m 4 p0 ⟨p0.x - 1, p0.y⟩ hp
  obtain ⟨ext, h1, h2, h3, h4, h5⟩ := traceLoop_chain m p0 (m.width * m.height + 8 - 2)
    (step m 4 p0 ⟨p0.x - 1, p0.y⟩).1 (step m 4 p0 ⟨p0.x - 1, p0.y⟩).2
    [p0, (step m 4 p0 ⟨p0.x - 1, p0.y⟩).1] hmov
  have hraw : rawTrace m p0 = p0 :: (step m 4 p0 ⟨p0.x - 1, p0.y⟩).1 :: ext := by
    simpa [rawTrace] using h1
  refine ⟨_, ext, hraw, h2, List.Chain'.cons hadj h3, ?_, ?_⟩
  · rw [hraw]; simp only [List.length_cons]; omega
  · intro hlt
    rw [hraw] at hlt ⊢
    simp only [List.length_cons] at hlt
    have := h5 (by omega)
    unfold CycChain
    simp only [List.cons_append, List.take_succ_cons, List.take_zero]
    exact List.Chain'.cons hadj (by simpa using this)

/-! ## Cyclic connectivity and repeated pixels -/

theorem hline_isFg (n : Nat) (x y : Int) :
    isFg (hline n) x y = true ↔ 0 ≤ x ∧ x < n ∧ y = 0 := by
  unfold isFg inBounds hline image8u.get
  simp only [kFg]
  constructor
  · intro h
    by_cases hb : (decide (x ≥ 0) && decide (x < (n : Int)) && decide (y ≥ 0) &&
        decide (y < ((1 : Nat) : Int))) = true
    · simp only [Bool.and_eq_true, decide_eq_true_eq] at hb
      omega
    · rw [Bool.not_eq_true] at hb
      rw [hb] at h
      simp at h
  · rintro ⟨h1, h2, rfl⟩
    have hx : x.toNat < n := by omega
    simp [h1, h2, List.getD_eq_getElem?_getD, List.getElem?_replicate, hx]

theorem hline_connected (n : Nat) : Connected8 (hline n) := by
  have reach : ∀ a : Nat, a < n →
      Relation.ReflTransGen
        (fun a b => isFg (hline n) a.x a.y = true ∧ isFg (hline n) b.x b.y = true ∧
          Adjacent8 a b) (⟨0, 0⟩ : point2i) ⟨a, 0⟩ := by
    intro a
    induction a with
    | zero => intro _; exact Relation.ReflTransGen.refl
    | succ a ih =>
      intro ha
      refine Relation.ReflTransGen.tail (ih (by omega)) ⟨?_, ?_, ?_⟩
      · rw [hline_isFg]; simp; omega
      · rw [hline_isFg]; simp; omega
      · simp [Adjacent8]
  have symm : Symmetric (fun (a b : point2i) => isFg (hline n) a.x a.y = true ∧
      isFg (hline n) b.x b.y = true ∧ Adjacent8 a b) := by
    intro a b ⟨h1, h2, h3⟩
    exact ⟨h2, h1, adjacent8_symm a b h3⟩
  intro p q hp hq
  rw [hline_isFg] at hp hq
  obtain ⟨px, py⟩ := p
  obtain ⟨qx, qy⟩ := q
  simp only at hp hq
  obtain ⟨hp1, hp2, rfl⟩ := hp
  obtain ⟨hq1, hq2, rfl⟩ := hq
  have e1 : px = ((px.toNat : Nat) : Int) := by omega
  have e2 : qx = ((qx.toNat : Nat) : Int) := by omega
  rw [e1, e2]
  exact Relation.ReflTransGen.trans
    (Relation.ReflTransGen.symmetric symm (reach px.toNat (by omega)))
    (reach qx.toNat (by omega))

set_option maxRecDepth 100000 in
/-- C2, refuted as stated: on the 11-by-1 all-foreground mask, one 8-connected
component, the loop stops at the safety bound of 19 points; the returned sequence ends
at (2, 0) and starts at (0, 0), which are not 8-neighbours. -/
theorem extractContour_open_on_hline11 :
    Connected8 (hline 11) ∧
    extractContour (hline 11) = some
      [⟨0, 0⟩, ⟨1, 0⟩, ⟨2, 0⟩, ⟨3, 0⟩, ⟨4, 0⟩, ⟨5, 0⟩, ⟨6, 0⟩, ⟨7, 0⟩, ⟨8, 0⟩, ⟨9, 0⟩, ⟨10, 0⟩,
        ⟨9, 0⟩, ⟨8, 0⟩, ⟨7, 0⟩, ⟨6, 0⟩, ⟨5, 0⟩, ⟨4, 0⟩, ⟨3, 0⟩, ⟨2, 0⟩] ∧
    ¬ Adjacent8 ⟨2, 0⟩ ⟨0, 0⟩ :=
  ⟨hline_connected 11, by decide, by decide⟩

/-- C5, refuted as stated: on the 3-by-1 all-foreground mask, one 8-connected component,
the returned sequence visits (1, 0) twice. -/
theorem extractContour_repeats_on_hline3 :
    Connected8 (hline 3) ∧
    extractContour (hline 3) = some [⟨0, 0⟩, ⟨1, 0⟩, ⟨2, 0⟩, ⟨1, 0⟩] ∧
    ¬ ([⟨0, 0⟩, ⟨1, 0⟩, ⟨2, 0⟩, ⟨1, 0⟩] : List point2i).Nodup :=
  ⟨hline_connected 3, by decide, by decide⟩

theorem cycChain_orient {R : point2i → point2i → Prop} (hsymm : ∀ a b, R a b → R b a)
    (c : List point2i) (h : CycChain R c) : CycChain R (orient c) := by
  unfold orient
  split
  · exact cycChain_reverse R hsymm c h
  · exact h

theorem cycChain_rotateToMinYX {R : point2i → point2i → Prop} (c : List point2i)
    (h : CycChain R c) : CycChain R (rotateToMinYX c) := by
  unfold rotateToMinYX
  by_cases he : c.isEmpty = true
  · simp only [he, if_true]; exact h
  · simp only [he, Bool.false_eq_true, if_false]
    apply cycChain_append_comm
    rw [List.take_append_drop]
    exact h

theorem tracedContour_long (m : image8u) (h2 : 2 ≤ (tracedContour m).length) :
    ∃ start, findStart m = some start ∧ Movable m start ∧
      (step m 4 start ⟨start.x - 1, start.y⟩).1 ≠ start ∧
      tracedContour m = rotateToMinYX (orient (rawTrace m start)) := by
  cases h : findStart m with
  | none => rw [tracedContour_none m h] at h2; simp at h2
  | some start =>
    by_cases hn : hasNeighbor m start = true
    · by_cases hs : (step m 4 start ⟨start.x - 1, start.y⟩).1 = start
      · rw [tracedContour_stuck m start h hs] at h2; simp at h2
      · exact ⟨start, rfl, hasNeighbor_movable m start (findStart_fg m start h) hn, hs,
          tracedContour_traced m start h hn hs⟩
    · rw [tracedContour_isolated m start h (by simpa using hn)] at h2; simp at h2

theorem normalised_length (c : List point2i) :
    (rotateToMinYX (orient c)).length = c.length :=
  ((rotateToMinYX_perm (orient c)).trans (orient_perm c)).length_eq

/-- C2, amended: when `extractContour` returns at least 2 and fewer than `w * h + 8`
points, the trace has closed before the safety bound, and every consecutive pair of
returned points, the pair (last, first) included, is an 8-neighbour pair. -/
theorem extractContour_cyclic_adjacent (m : image8u) (c : List point2i)
    (hc : extractContour m = some c) (h2 : 2 ≤ c.length)
    (hlt : c.length < m.width * m.height + 8) :
    ∀ i, i < c.length →
      Adjacent8 (c.getD i default) (c.getD ((i + 1) % c.length) default) := by
  rw [extractContour_eq, Option.some.injEq] at hc
  subst hc
  obtain ⟨start, _, hmov, _, htr⟩ := tracedContour_long m h2
  obtain ⟨p1, ext, _, _, _, _, hcyc⟩ := rawTrace_chain m start hmov
  rw [htr, normalised_length] at hlt
  have h3 : CycChain Adjacent8 (tracedContour m) := by
    rw [htr]
    exact cycChain_rotateToMinYX _ (cycChain_orient adjacent8_symm _ (hcyc hlt))
  exact cycChain_index Adjacent8 _ h3

/-- C2, amended, at a concrete mask: the 2-by-2 all-foreground mask, whose trace is its
four pixels in clockwise order; the pair (last, first) is an 8-neighbour pair. -/
theorem extractContour_cyclic_adjacent_witness :
    Adjacent8
      (([⟨0, 0⟩, ⟨1, 0⟩, ⟨1, 1⟩, ⟨0, 1⟩] : List point2i).getD 3 default)
      (([⟨0, 0⟩, ⟨1, 0⟩, ⟨1, 1⟩, ⟨0, 1⟩] : List point2i).getD
        ((3 + 1) % ([⟨0, 0⟩, ⟨1, 0⟩, ⟨1, 1⟩, ⟨0, 1⟩] : List point2i).length) default) :=
  extractContour_cyclic_adjacent ⟨2, 2, [255, 255, 255, 255]⟩
    [⟨0, 0⟩, ⟨1, 0⟩, ⟨1, 1⟩, ⟨0, 1⟩] (by decide) (by decide) (by decide) 3 (by decide)

theorem rawTrace_cyc_ne (m : image8u) (p0 : point2i) (hp : Movable m p0)
    (hs : (step m 4 p0 ⟨p0.x - 1, p0.y⟩).1 ≠ p0) :
    CycChain (fun a b : point2i => a ≠ b) (rawTrace m p0) ∧ (rawTrace m p0).count p0 = 1 := by
  obtain ⟨p1, ext, hraw, hnot, hch, _, _⟩ := rawTrace_chain m p0 hp
  obtain ⟨ext', hraw', _, _⟩ := rawTrace_spec m p0 hs
  have hp1 : p1 = (step m 4 p0 ⟨p0.x - 1, p0.y⟩).1 := by
    rw [hraw] at hraw'
    simp only [List.cons.injEq, true_and] at hraw'
    exact hraw'.1
  have hne1 : p0 ≠ p1 := by rw [hp1]; exact fun e => hs e.symm
  have hnot' : p0 ∉ p1 :: ext := by
    simp only [List.mem_cons, not_or]
    exact ⟨hne1, hnot⟩
  constructor
  · rw [hraw]
    unfold CycChain
    simp only [List.take_succ_cons, List.take_zero]
    rw [List.chain'_append]
    refine ⟨hch.imp (fun a b hab => adjacent8_ne a b hab), List.chain'_singleton _, ?_⟩
    intro x hx y hy
    simp only [List.head?_cons, Option.mem_def, Option.some.injEq] at hy
    subst hy
    rw [List.getLast?_cons_cons] at hx
    have := List.mem_of_mem_getLast? hx
    intro e
    subst e
    exact hnot' this
  · rw [hraw, List.count_cons_self, List.count_eq_zero_of_not_mem hnot']

/-- C5, amended: the scan seed, the first foreground pixel in row-major order, occurs
exactly once in the sequence returned by `extractContour`, and when at least two points
are returned any two cyclically consecutive points are different pixels; other pixels
may occur more than once. -/
theorem extractContour_seed_once (m : image8u) (x y : Nat) (hx : x < m.width)
    (hy : y < m.height) (hfg : m.get y x = 255)
    (hfirst : ∀ x' y' : Nat, x' < m.width → y' < m.height → ScannedBefore x' y' x y →
      m.get y' x' ≠ 255) :
    ∃ c, extractContour m = some c ∧ c.count ⟨x, y⟩ = 1 ∧
      (2 ≤ c.length →
        ∀ i, i < c.length → c.getD i default ≠ c.getD ((i + 1) % c.length) default) := by
  refine ⟨tracedContour m, extractContour_eq m, ?_⟩
  have hs := findStart_eq_some m x y hx hy hfg hfirst
  have hsmall : ∀ s : point2i, [s].count s = 1 ∧ (2 ≤ [s].length →
      ∀ i, i < [s].length → [s].getD i default ≠ [s].getD ((i + 1) % [s].length) default) := by
    intro s
    refine ⟨by simp, ?_⟩
    intro h; simp at h
  by_cases hn : hasNeighbor m ⟨x, y⟩ = true
  · by_cases hst : (step m 4 ⟨x, y⟩ ⟨(x : Int) - 1, y⟩).1 = ⟨x, y⟩
    · rw [tracedContour_stuck m _ hs hst]
      exact hsmall _
    · rw [tracedContour_traced m _ hs hn hst]
      obtain ⟨hcyc, hcount⟩ := rawTrace_cyc_ne m ⟨x, y⟩
        (hasNeighbor_movable m _ (findStart_fg m _ hs) hn) hst
      constructor
      · rw [((rotateToMinYX_perm _).trans (orient_perm _)).count_eq]
        exact hcount
      · intro _
        exact cycChain_index _ _
          (cycChain_rotateToMinYX _ (cycChain_orient (fun a b h => h.symm) _ hcyc))
  · rw [tracedContour_isolated m _ hs (by simpa using hn)]
    exact hsmall _

/-- C5, amended, at a concrete mask: the 3-by-1 all-foreground mask. -/
theorem extractContour_seed_once_witness :
    ∃ c, extractContour (hline 3) = some c ∧ c.count ⟨(0 : Nat), (0 : Nat)⟩ = 1 ∧
      (2 ≤ c.length →
        ∀ i, i < c.length → c.getD i default ≠ c.getD ((i + 1) % c.length) default) :=
  extractContour_seed_once (hline 3) 0 0 (by decide) (by decide) (by decide)
    (by intro x' y' _ _ hsb; exfalso; unfold ScannedBefore at hsb; omega)

/-! ## The boundary mask of a solid rectangle -/

theorem rect_outside_bg (m : image8u) (l t rw rh : Nat) (hm : IsRectMask m l t rw rh)
    (X Y : Int) (hout : ¬ ((l : Int) ≤ X ∧ X < l + rw ∧ (t : Int) ≤ Y ∧ Y < t + rh)) :
    isFg (buildContourMask m) X Y = false := by
  apply isFg_eq_false_of
  intro x' y' hx' hy' hX hY
  rw [buildContourMask_width] at hx'
  rw [buildContourMask_height] at hy'
  rw [buildContourMask_get m x' y' hx' hy']
  have hbg : m.get y' x' ≠ kFg := by
    intro h
    have := (hm.2.2 x' y' hx' hy').1 h
    omega
  have : marks m x' y' = false := by
    cases hmk : marks m x' y' with
    | false => rfl
    | true => exact absurd ((marks_iff m x' y').1 hmk).1 hbg
  simp [this, kFg]

theorem rect_border_fg (m : image8u) (l t rw rh : Nat) (hm : IsRectMask m l t rw rh)
    (X Y : Int) (hin : (l : Int) ≤ X ∧ X < l + rw ∧ (t : Int) ≤ Y ∧ Y < t + rh)
    (dx dy : Int) (hd : IsNeighbourDelta dx dy)
    (hout : ¬ ((l : Int) ≤ X + dx ∧ X + dx < l + rw ∧ (t : Int) ≤ Y + dy ∧ Y + dy < t + rh)) :
    isFg (buildContourMask m) X Y = true := by
  obtain ⟨hw, hh, hpix⟩ := hm
  have hX : X = ((X.toNat : Nat) : Int) := by omega
  have hY : Y = ((Y.toNat : Nat) : Int) := by omega
  have hx : X.toNat < m.width := by omega
  have hy : Y.toNat < m.height := by omega
  rw [hX, hY, isFg_of_nat _ _ _ (by rw [buildContourMask_width]; exact hx)
    (by rw [buildContourMask_height]; exact hy), buildContourMask_get m _ _ hx hy]
  have hmk : marks m X.toNat Y.toNat = true := by
    rw [marks_iff]
    refine ⟨(hpix _ _ hx hy).2 (by omega), dx, dy, hd, ?_⟩
    by_cases hb : inBounds ((X.toNat : Int) + dx) ((Y.toNat : Int) + dy) m.width m.height = true
    · right
      simp only [inBounds, Bool.and_eq_true, decide_eq_true_eq] at hb
      have e1 : (X.toNat : Int) + dx = (((X + dx).toNat : Nat) : Int) := by omega
      have e2 : (Y.toNat : Int) + dy = (((Y + dy).toNat : Nat) : Int) := by omega
      rw [e1, e2]
      intro h
      have := (hpix (X + dx).toNat (Y + dy).toNat (by omega) (by omega)).1 h
      omega
    · left
      simpa using hb
  simp [hmk]

/-! ## Straight and corner steps of the trace -/

theorem startDirOf_nb (p : point2i) (e : Nat) (he : e < 8) :
    startDirOf 4 p (nb p e) = (e + 1) % 8 := by
  unfold startDirOf nb
  simp only [add_sub_cancel_left]
  interval_cases e <;> simp [dx8, dy8, dirFromDelta]

theorem nb_straight (p : point2i) (e : Nat) (he : e < 8) (hev : e % 2 = 0) :
    nb p ((e + 1) % 8) = nb (nb p ((e + 2) % 8)) e := by
  unfold nb
  interval_cases e <;> simp_all [dx8, dy8]

theorem nb_corner (p : point2i) (e : Nat) (he : e < 8) (hev : e % 2 = 0) :
    nb p ((e + 3) % 8) = nb (nb p ((e + 4) % 8)) ((e + 2) % 8) := by
  unfold nb
  interval_cases e <;> simp_all [dx8, dy8]

theorem step_straight (m : image8u) (p : point2i) (e : Nat) (he : e < 8) (hev : e % 2 = 0)
    (h1 : isFg m (nb p ((e + 1) % 8)).x (nb p ((e + 1) % 8)).y = false)
    (h2 : isFg m (nb p ((e + 2) % 8)).x (nb p ((e + 2) % 8)).y = true) :
    step m 4 p (nb p e) = (nb p ((e + 2) % 8), nb (nb p ((e + 2) % 8)) e) := by
  have hs := startDirOf_nb p e he
  have key := step_found m 4 p (nb p e) 1 (by decide)
    (by rw [hs]; rw [show ((e + 1) % 8 + 1) % 8 = (e + 2) % 8 by omega]; exact h2)
    (by
      intro u hu
      have : u = 0 := by omega
      subst this
      rw [hs]
      simpa using h1)
  rw [key, hs, ← nb_straight p e he hev]
  rw [show ((e + 1) % 8 + 1) % 8 = (e + 2) % 8 by omega,
    show ((e + 2) % 8 + 7) % 8 = (e + 1) % 8 by omega]

theorem step_corner (m : image8u) (p : point2i) (e : Nat) (he : e < 8) (hev : e % 2 = 0)
    (h1 : isFg m (nb p ((e + 1) % 8)).x (nb p ((e + 1) % 8)).y = false)
    (h2 : isFg m (nb p ((e + 2) % 8)).x (nb p ((e + 2) % 8)).y = false)
    (h3 : isFg m (nb p ((e + 3) % 8)).x (nb p ((e + 3) % 8)).y = false)
    (h4 : isFg m (nb p ((e + 4) % 8)).x (nb p ((e + 4) % 8)).y = true) :
    step m 4 p (nb p e) =
      (nb p ((e + 4) % 8), nb (nb p ((e + 4) % 8)) ((e + 2) % 8)) := by
  have hs := startDirOf_nb p e he
  have key := step_found m 4 p (nb p e) 3 (by decide)
    (by rw [hs]; rw [show ((e + 1) % 8 + 3) % 8 = (e + 4) % 8 by omega]; exact h4)
    (by
      intro u hu
      rw [hs]
      interval_cases u
      · simpa using h1
      · rw [show ((e + 1) % 8 + 1) % 8 = (e + 2) % 8 by omega]; exact h2
      · rw [show ((e + 1) % 8 + 2) % 8 = (e + 3) % 8 by omega]; exact h3)
  rw [key, hs, ← nb_corner p e he hev]
  rw [show ((e + 1) % 8 + 3) % 8 = (e + 4) % 8 by omega,
    show ((e + 4) % 8 + 7) % 8 = (e + 3) % 8 by omega]

theorem walk_zero (p : point2i) (d : Nat) : walk p d 0 = p := by
  simp [walk]

theorem walk_succ (p : point2i) (d j : Nat) : walk p d (j + 1) = walk (nb p d) d j := by
  simp only [walk, nb, Nat.cast_add, Nat.cast_one, point2i.mk.injEq]
  constructor <;> ring

theorem traceLoop_close (m : image8u) (p0 : point2i) (fuel : Nat) (cur b : point2i)
    (contour : List point2i) (h : (step m 4 cur b).1 = p0) :
    traceLoop m p0 (fuel + 1) cur b contour = contour := by
  simp [traceLoop, h]

theorem traceLoop_move (m : image8u) (p0 : point2i) (fuel : Nat) (cur b : point2i)
    (contour : List point2i) (q b' : point2i) (h : step m 4 cur b = (q, b'))
    (hq : q ≠ p0) :
    traceLoop m p0 (fuel + 1) cur b contour = traceLoop m p0 fuel q b' (contour ++ [q]) := by
  simp [traceLoop, h, hq]

theorem traceLoop_run (m : image8u) (p0 : point2i) (e : Nat) (he : e < 8) (hev : e % 2 = 0)
    (j : Nat) :
    ∀ (fuel : Nat) (p : point2i) (contour : List point2i),
      (∀ i, i < j →
        isFg m (nb (walk p ((e + 2) % 8) i) ((e + 1) % 8)).x
          (nb (walk p ((e + 2) % 8) i) ((e + 1) % 8)).y = false ∧
        isFg m (walk p ((e + 2) % 8) (i + 1)).x (walk p ((e + 2) % 8) (i + 1)).y = true ∧
        walk p ((e + 2) % 8) (i + 1) ≠ p0) →
      traceLoop m p0 (fuel + j) p (nb p e) contour =
        traceLoop m p0 fuel (walk p ((e + 2) % 8) j) (nb (walk p ((e + 2) % 8) j) e)
          (contour ++ (List.range j).map (fun (i : Nat) => walk p ((e + 2) % 8) (i + 1))) := by
  induction j with
  | zero =>
    intro fuel p contour _
    simp [walk_zero]
  | succ j ih =>
    intro fuel p contour hall
    obtain ⟨h1, h2, h3⟩ := hall 0 (by omega)
    rw [walk_zero] at h1
    have e1 : walk p ((e + 2) % 8) (0 + 1) = nb p ((e + 2) % 8) := by
      rw [walk_succ, walk_zero]
    rw [e1] at h2 h3
    have hst := step_straight m p e he hev h1 h2
    rw [show fuel + (j + 1) = (fuel + j) + 1 by omega,
      traceLoop_move m p0 (fuel + j) p (nb p e) contour _ _ hst h3,
      ih fuel (nb p ((e + 2) % 8)) (contour ++ [nb p ((e + 2) % 8)])]
    · rw [← walk_succ, List.range_succ_eq_map, List.map_cons, List.map_map, List.append_assoc]
      congr 2
      simp only [List.singleton_append, List.cons.injEq]
      refine ⟨by rw [walk_succ, walk_zero], ?_⟩
      apply List.map_congr_left
      intro i _
      simp only [Function.comp_apply, Nat.succ_eq_add_one, walk_succ]
    · intro i hi
      have := hall (i + 1) (by omega)
      rw [walk_succ, walk_succ] at this
      exact this

/-! ## The trace around a rectangle -/

theorem rect_fg (m : image8u) (l t rw rh : Nat) (hm : IsRectMask m l t rw rh)
    (q : point2i)
    (hin : (l : Int) ≤ q.x ∧ q.x < l + rw ∧ (t : Int) ≤ q.y ∧ q.y < t + rh)
    (hb : q.x = l ∨ q.x = l + rw - 1 ∨ q.y = t ∨ q.y = t + rh - 1) :
    isFg (buildContourMask m) q.x q.y = true := by
  rcases hb with h | h | h | h
  · exact rect_border_fg m l t rw rh hm q.x q.y hin (-1) 0 (by simp [IsNeighbourDelta])
      (by omega)
  · exact rect_border_fg m l t rw rh hm q.x q.y hin 1 0 (by simp [IsNeighbourDelta])
      (by omega)
  · exact rect_border_fg m l t rw rh hm q.x q.y hin 0 (-1) (by simp [IsNeighbourDelta])
      (by omega)
  · exact rect_border_fg m l t rw rh hm q.x q.y hin 0 1 (by simp [IsNeighbourDelta])
      (by omega)

theorem rect_bg (m : image8u) (l t rw rh : Nat) (hm : IsRectMask m l t rw rh)
    (q : point2i)
    (hout : ¬ ((l : Int) ≤ q.x ∧ q.x < l + rw ∧ (t : Int) ≤ q.y ∧ q.y < t + rh)) :
    isFg (buildContourMask m) q.x q.y = false :=
  rect_outside_bg m l t rw rh hm q.x q.y hout

theorem rect_first_step (m : image8u) (l t rw rh : Nat) (hm : IsRectMask m l t rw rh)
    (hrw : 2 ≤ rw) (hrh : 2 ≤ rh) :
    step (buildContourMask m) 4 ⟨l, t⟩ ⟨(l : Int) - 1, t⟩
      = (⟨(l : Int) + 1, t⟩, nb ⟨(l : Int) + 1, t⟩ 6) := by
  have e0 : (⟨(l : Int) - 1, t⟩ : point2i) = nb ⟨l, t⟩ 4 := by
    simp [nb, dx8, dy8]; ring
  rw [e0, step_corner (buildContourMask m) ⟨l, t⟩ 4 (by decide) (by decide)]
  · simp [nb, dx8, dy8]
  · apply rect_bg m l t rw rh hm
    simp [nb, dx8, dy8]
  · apply rect_bg m l t rw rh hm
    simp [nb, dx8, dy8]
  · apply rect_bg m l t rw rh hm
    simp [nb, dx8, dy8]
  · apply rect_fg m l t rw rh hm
    · simp [nb, dx8, dy8]; omega
    · simp [nb, dx8, dy8]

theorem rect_run_top (m : image8u) (l t rw rh : Nat) (hm : IsRectMask m l t rw rh)
    (hrw : 2 ≤ rw) (hrh : 2 ≤ rh) (fuel : Nat) (contour : List point2i) :
    traceLoop (buildContourMask m) ⟨l, t⟩ (fuel + (rw - 2)) ⟨(l : Int) + 1, t⟩
        (nb ⟨(l : Int) + 1, t⟩ 6) contour
      = traceLoop (buildContourMask m) ⟨l, t⟩ fuel ⟨(l : Int) + rw - 1, t⟩
          (nb ⟨(l : Int) + rw - 1, t⟩ 6)
          (contour ++ (List.range (rw - 2)).map
            (fun (i : Nat) => (⟨(l : Int) + 2 + i, t⟩ : point2i))) := by
  have key := traceLoop_run (buildContourMask m) ⟨l, t⟩ 6 (by decide) (by decide) (rw - 2)
    fuel ⟨(l : Int) + 1, t⟩ contour
  simp only [Nat.reduceAdd, Nat.reduceMod] at key
  have hw : ∀ i : Nat, walk ⟨(l : Int) + 1, t⟩ 0 i = ⟨(l : Int) + 1 + i, t⟩ := by
    intro i; simp [walk, dx8, dy8]
  rw [key]
  · rw [hw]
    have e1 : (⟨(l : Int) + 1 + ((rw - 2 : Nat) : Int), t⟩ : point2i) = ⟨(l : Int) + rw - 1, t⟩ := by
      simp only [point2i.mk.injEq, and_true]; omega
    rw [e1]
    congr 2
    apply List.map_congr_left
    intro i _
    rw [hw]
    simp only [point2i.mk.injEq, and_true, Nat.cast_add, Nat.cast_one]; ring
  · intro i hi
    rw [hw, hw]
    refine ⟨?_, ?_, ?_⟩
    · apply rect_bg m l t rw rh hm
      simp [nb, dx8, dy8]
    · apply rect_fg m l t rw rh hm
      · simp only [Nat.cast_add, Nat.cast_one]; omega
      · simp
    · simp only [ne_eq, point2i.mk.injEq, and_true, Nat.cast_add, Nat.cast_one]; omega

theorem rect_corner_tr (m : image8u) (l t rw rh : Nat) (hm : IsRectMask m l t rw rh)
    (hrw : 2 ≤ rw) (hrh : 2 ≤ rh) (fuel : Nat) (contour : List point2i) :
    traceLoop (buildContourMask m) ⟨l, t⟩ (fuel + 1) ⟨(l : Int) + rw - 1, t⟩
        (nb ⟨(l : Int) + rw - 1, t⟩ 6) contour
      = traceLoop (buildContourMask m) ⟨l, t⟩ fuel ⟨(l : Int) + rw - 1, (t : Int) + 1⟩
          (nb ⟨(l : Int) + rw - 1, (t : Int) + 1⟩ 0)
          (contour ++ [(⟨(l : Int) + rw - 1, (t : Int) + 1⟩ : point2i)]) := by
  have hst := step_corner (buildContourMask m) ⟨(l : Int) + rw - 1, t⟩ 6 (by decide) (by decide)
    (by apply rect_bg m l t rw rh hm; simp [nb, dx8, dy8])
    (by apply rect_bg m l t rw rh hm; simp [nb, dx8, dy8])
    (by apply rect_bg m l t rw rh hm; simp [nb, dx8, dy8])
    (by
      apply rect_fg m l t rw rh hm
      · simp [nb, dx8, dy8]; omega
      · simp [nb, dx8, dy8])
  simp only [Nat.reduceAdd, Nat.reduceMod] at hst
  have e : nb (⟨(l : Int) + rw - 1, t⟩ : point2i) 2 = ⟨(l : Int) + rw - 1, (t : Int) + 1⟩ := by
    simp [nb, dx8, dy8]
  rw [e] at hst
  exact traceLoop_move _ _ fuel _ _ contour _ _ hst
    (by simp only [ne_eq, point2i.mk.injEq, not_and]; omega)

theorem rect_run_right (m : image8u) (l t rw rh : Nat) (hm : IsRectMask m l t rw rh)
    (hrw : 2 ≤ rw) (hrh : 2 ≤ rh) (fuel : Nat) (contour : List point2i) :
    traceLoop (buildContourMask m) ⟨l, t⟩ (fuel + (rh - 2)) ⟨(l : Int) + rw - 1, (t : Int) + 1⟩
        (nb ⟨(l : Int) + rw - 1, (t : Int) + 1⟩ 0) contour
      = traceLoop (buildContourMask m) ⟨l, t⟩ fuel ⟨(l : Int) + rw - 1, (t : Int) + rh - 1⟩
          (nb ⟨(l : Int) + rw - 1, (t : Int) + rh - 1⟩ 0)
          (contour ++ (List.range (rh - 2)).map
            (fun (i : Nat) => (⟨(l : Int) + rw - 1, (t : Int) + 2 + i⟩ : point2i))) := by
  have key := traceLoop_run (buildContourMask m) ⟨l, t⟩ 0 (by decide) (by decide) (rh - 2)
    fuel ⟨(l : Int) + rw - 1, (t : Int) + 1⟩ contour
  simp only [Nat.reduceAdd, Nat.reduceMod] at key
  have hw : ∀ i : Nat, walk ⟨(l : Int) + rw - 1, (t : Int) + 1⟩ 2 i
      = ⟨(l : Int) + rw - 1, (t : Int) + 1 + i⟩ := by
    intro i; simp [walk, dx8, dy8]
  rw [key]
  · rw [hw]
    have e1 : (⟨(l : Int) + rw - 1, (t : Int) + 1 + ((rh - 2 : Nat) : Int)⟩ : point2i)
        = ⟨(l : Int) + rw - 1, (t : Int) + rh - 1⟩ := by
      simp only [point2i.mk.injEq, true_and]; omega
    rw [e1]
    congr 2
    apply List.map_congr_left
    intro i _
    rw [hw]
    simp only [point2i.mk.injEq, true_and, Nat.cast_add, Nat.cast_one]; ring
  · intro i hi
    rw [hw, hw]
    refine ⟨?_, ?_, ?_⟩
    · apply rect_bg m l t rw rh hm
      simp [nb, dx8, dy8]
    · apply rect_fg m l t rw rh hm
      · simp only [Nat.cast_add, Nat.cast_one]; omega
      · simp
    · simp only [ne_eq, point2i.mk.injEq, not_and, Nat.cast_add, Nat.cast_one]; omega

theorem rect_corner_br (m : image8u) (l t rw rh : Nat) (hm : IsRectMask m l t rw rh)
    (hrw : 2 ≤ rw) (hrh : 2 ≤ rh) (fuel : Nat) (contour : List point2i) :
    traceLoop (buildContourMask m) ⟨l, t⟩ (fuel + 1) ⟨(l : Int) + rw - 1, (t : Int) + rh - 1⟩
        (nb ⟨(l : Int) + rw - 1, (t : Int) + rh - 1⟩ 0) contour
      = traceLoop (buildContourMask m) ⟨l, t⟩ fuel ⟨(l : Int) + rw - 2, (t : Int) + rh - 1⟩
          (nb ⟨(l : Int) + rw - 2, (t : Int) + rh - 1⟩ 2)
          (contour ++ [(⟨(l : Int) + rw - 2, (t : Int) + rh - 1⟩ : point2i)]) := by
  have hst := step_corner (buildContourMask m) ⟨(l : Int) + rw - 1, (t : Int) + rh - 1⟩ 0
    (by decide) (by decide)
    (by apply rect_bg m l t rw rh hm; simp [nb, dx8, dy8])
    (by apply rect_bg m l t rw rh hm; simp [nb, dx8, dy8])
    (by apply rect_bg m l t rw rh hm; simp [nb, dx8, dy8])
    (by
      apply rect_fg m l t rw rh hm
      · simp [nb, dx8, dy8]; omega
      · simp [nb, dx8, dy8])
  simp only [Nat.reduceAdd, Nat.reduceMod] at hst
  have e : nb (⟨(l : Int) + rw - 1, (t : Int) + rh - 1⟩ : point2i) 4
      = ⟨(l : Int) + rw - 2, (t : Int) + rh - 1⟩ := by
    simp [nb, dx8, dy8]; ring
  rw [e] at hst
  exact traceLoop_move _ _ fuel _ _ contour _ _ hst
    (by simp only [ne_eq, point2i.mk.injEq, not_and]; omega)

theorem rect_run_bottom (m : image8u) (l t rw rh : Nat) (hm : IsRectMask m l t rw rh)
    (hrw : 2 ≤ rw) (hrh : 2 ≤ rh) (fuel : Nat) (contour : List point2i) :
    traceLoop (buildContourMask m) ⟨l, t⟩ (fuel + (rw - 2)) ⟨(l : Int) + rw - 2, (t : Int) + rh - 1⟩
        (nb ⟨(l : Int) + rw - 2, (t : Int) + rh - 1⟩ 2) contour
      = traceLoop (buildContourMask m) ⟨l, t⟩ fuel ⟨(l : Int), (t : Int) + rh - 1⟩
          (nb ⟨(l : Int), (t : Int) + rh - 1⟩ 2)
          (contour ++ (List.range (rw - 2)).map
            (fun (i : Nat) => (⟨(l : Int) + rw - 3 - i, (t : Int) + rh - 1⟩ : point2i))) := by
  have key := traceLoop_run (buildContourMask m) ⟨l, t⟩ 2 (by decide) (by decide) (rw - 2)
    fuel ⟨(l : Int) + rw - 2, (t : Int) + rh - 1⟩ contour
  simp only [Nat.reduceAdd, Nat.reduceMod] at key
  have hw : ∀ i : Nat, walk ⟨(l : Int) + rw - 2, (t : Int) + rh - 1⟩ 4 i
      = ⟨(l : Int) + rw - 2 - i, (t : Int) + rh - 1⟩ := by
    intro i; simp [walk, dx8, dy8]; ring
  rw [key]
  · rw [hw]
    have e1 : (⟨(l : Int) + rw - 2 - ((rw - 2 : Nat) : Int), (t : Int) + rh - 1⟩ : point2i)
        = ⟨(l : Int), (t : Int) + rh - 1⟩ := by
      simp only [point2i.mk.injEq, and_true]; omega
    rw [e1]
    congr 2
    apply List.map_congr_left
    intro i _
    rw [hw]
    simp only [point2i.mk.injEq, and_true, Nat.cast_add, Nat.cast_one]; ring
  · intro i hi
    rw [hw, hw]
    refine ⟨?_, ?_, ?_⟩
    · apply rect_bg m l t rw rh hm
      simp [nb, dx8, dy8]
    · apply rect_fg m l t rw rh hm
      · simp only [Nat.cast_add, Nat.cast_one]; omega
      · simp
    · simp only [ne_eq, point2i.mk.injEq, not_and, Nat.cast_add, Nat.cast_one]; omega

theorem rect_step_bl (m : image8u) (l t rw rh : Nat) (hm : IsRectMask m l t rw rh)
    (hrw : 2 ≤ rw) (hrh : 2 ≤ rh) :
    step (buildContourMask m) 4 ⟨(l : Int), (t : Int) + rh - 1⟩
        (nb ⟨(l : Int), (t : Int) + rh - 1⟩ 2)
      = (⟨(l : Int), (t : Int) + rh - 2⟩, nb ⟨(l : Int), (t : Int) + rh - 2⟩ 4) := by
  have hst := step_corner (buildContourMask m) ⟨(l : Int), (t : Int) + rh - 1⟩ 2
    (by decide) (by decide)
    (by apply rect_bg m l t rw rh hm; simp [nb, dx8, dy8])
    (by apply rect_bg m l t rw rh hm; simp [nb, dx8, dy8])
    (by apply rect_bg m l t rw rh hm; simp [nb, dx8, dy8])
    (by
      apply rect_fg m l t rw rh hm
      · simp [nb, dx8, dy8]; omega
      · simp [nb, dx8, dy8])
  simp only [Nat.reduceAdd, Nat.reduceMod] at hst
  have e : nb (⟨(l : Int), (t : Int) + rh - 1⟩ : point2i) 6
      = ⟨(l : Int), (t : Int) + rh - 2⟩ := by
    simp [nb, dx8, dy8]; ring
  rw [e] at hst
  exact hst

theorem rect_run_left (m : image8u) (l t rw rh : Nat) (hm : IsRectMask m l t rw rh)
    (hrw : 2 ≤ rw) (hrh : 3 ≤ rh) (fuel : Nat) (contour : List point2i) :
    traceLoop (buildContourMask m) ⟨l, t⟩ (fuel + (rh - 3)) ⟨(l : Int), (t : Int) + rh - 2⟩
        (nb ⟨(l : Int), (t : Int) + rh - 2⟩ 4) contour
      = traceLoop (buildContourMask m) ⟨l, t⟩ fuel ⟨(l : Int), (t : Int) + 1⟩
          (nb ⟨(l : Int), (t : Int) + 1⟩ 4)
          (contour ++ (List.range (rh - 3)).map
            (fun (i : Nat) => (⟨(l : Int), (t : Int) + rh - 3 - i⟩ : point2i))) := by
  have key := traceLoop_run (buildContourMask m) ⟨l, t⟩ 4 (by decide) (by decide) (rh - 3)
    fuel ⟨(l : Int), (t : Int) + rh - 2⟩ contour
  simp only [Nat.reduceAdd, Nat.reduceMod] at key
  have hw : ∀ i : Nat, walk ⟨(l : Int), (t : Int) + rh - 2⟩ 6 i
      = ⟨(l : Int), (t : Int) + rh - 2 - i⟩ := by
    intro i; simp [walk, dx8, dy8]; ring
  rw [key]
  · rw [hw]
    have e1 : (⟨(l : Int), (t : Int) + rh - 2 - ((rh - 3 : Nat) : Int)⟩ : point2i)
        = ⟨(l : Int), (t : Int) + 1⟩ := by
      simp only [point2i.mk.injEq, true_and]; omega
    rw [e1]
    congr 2
    apply List.map_congr_left
    intro i _
    rw [hw]
    simp only [point2i.mk.injEq, true_and, Nat.cast_add, Nat.cast_one]; ring
  · intro i hi
    rw [hw, hw]
    refine ⟨?_, ?_, ?_⟩
    · apply rect_bg m l t rw rh hm
      simp [nb, dx8, dy8]
    · apply rect_fg m l t rw rh hm
      · simp only [Nat.cast_add, Nat.cast_one]; omega
      · simp
    · simp only [ne_eq, point2i.mk.injEq, not_and, Nat.cast_add, Nat.cast_one]; omega

theorem rect_step_last (m : image8u) (l t rw rh : Nat) (hm : IsRectMask m l t rw rh)
    (hrw : 2 ≤ rw) (hrh : 2 ≤ rh) :
    (step (buildContourMask m) 4 ⟨(l : Int), (t : Int) + 1⟩
        (nb ⟨(l : Int), (t : Int) + 1⟩ 4)).1 = ⟨l, t⟩ := by
  have hst := step_straight (buildContourMask m) ⟨(l : Int), (t : Int) + 1⟩ 4
    (by decide) (by decide)
    (by apply rect_bg m l t rw rh hm; simp [nb, dx8, dy8])
    (by
      apply rect_fg m l t rw rh hm
      · simp [nb, dx8, dy8]; omega
      · simp [nb, dx8, dy8])
  rw [hst]
  simp [nb, dx8, dy8]

theorem rect_fuel (W H l t rw rh : Nat) (hrw : 2 ≤ rw) (hrh : 2 ≤ rh) (hw : l + rw ≤ W)
    (hh : t + rh ≤ H) : 2 * rw + 2 * rh ≤ W * H + 11 := by
  have h1 : rw * rh ≤ W * H := Nat.mul_le_mul (by omega) (by omega)
  obtain ⟨a, rfl⟩ : ∃ a, rw = a + 2 := ⟨rw - 2, by omega⟩
  obtain ⟨b, rfl⟩ : ∃ b, rh = b + 2 := ⟨rh - 2, by omega⟩
  nlinarith [Nat.zero_le (a * b)]

theorem rect_rawTrace (m : image8u) (l t rw rh : Nat) (hm : IsRectMask m l t rw rh)
    (hrw : 2 ≤ rw) (hrh : 2 ≤ rh) :
    rawTrace (buildContourMask m) ⟨l, t⟩ = rectTrace l t rw rh := by
  have hfuel := rect_fuel m.width m.height l t rw rh hrw hrh hm.1 hm.2.1
  unfold rawTrace
  simp only [rect_first_step m l t rw rh hm hrw hrh, buildContourMask_width,
    buildContourMask_height]
  by_cases h2 : rh = 2
  · obtain ⟨f, hf⟩ : ∃ f, m.width * m.height + 8 - 2
        = f + 1 + (rw - 2) + 1 + (rh - 2) + 1 + (rw - 2) :=
      ⟨m.width * m.height + 8 - 2 - (1 + (rw - 2) + 1 + (rh - 2) + 1 + (rw - 2)), by omega⟩
    rw [hf, rect_run_top m l t rw rh hm hrw hrh, rect_corner_tr m l t rw rh hm hrw hrh,
      rect_run_right m l t rw rh hm hrw hrh, rect_corner_br m l t rw rh hm hrw hrh,
      rect_run_bottom m l t rw rh hm hrw hrh, traceLoop_close]
    · unfold rectTrace
      subst h2
      simp
    · rw [rect_step_bl m l t rw rh hm hrw hrh]
      subst h2
      simp only [point2i.mk.injEq, true_and]
      push_cast
      ring
  · have h3 : 3 ≤ rh := by omega
    obtain ⟨f, hf⟩ : ∃ f, m.width * m.height + 8 - 2
        = f + 1 + (rh - 3) + 1 + (rw - 2) + 1 + (rh - 2) + 1 + (rw - 2) :=
      ⟨m.width * m.height + 8 - 2
        - (1 + (rh - 3) + 1 + (rw - 2) + 1 + (rh - 2) + 1 + (rw - 2)), by omega⟩
    rw [hf, rect_run_top m l t rw rh hm hrw hrh, rect_corner_tr m l t rw rh hm hrw hrh,
      rect_run_right m l t rw rh hm hrw hrh, rect_corner_br m l t rw rh hm hrw hrh,
      rect_run_bottom m l t rw rh hm hrw hrh,
      traceLoop_move _ _ _ _ _ _ _ _ (rect_step_bl m l t rw rh hm hrw hrh)
        (by simp only [ne_eq, point2i.mk.injEq, not_and]; omega),
      rect_run_left m l t rw rh hm hrw h3,
      traceLoop_close _ _ _ _ _ _ (rect_step_last m l t rw rh hm hrw hrh)]
    unfold rectTrace
    obtain ⟨k, rfl⟩ : ∃ k, rh = k + 3 := ⟨rh - 3, by omega⟩
    simp only [List.append_assoc, Nat.add_sub_cancel]
    rw [show k + 3 - 2 = k + 1 by omega, List.range_succ_eq_map k]
    simp only [List.map_cons, List.map_map, List.cons_append, List.nil_append,
      List.singleton_append]
    have hl : List.map (fun (i : Nat) => (⟨(l : Int), (t : Int) + ((k + 3 : Nat) : Int) - 3 - i⟩ : point2i))
          (List.range k)
        = List.map ((fun (i : Nat) => (⟨(l : Int), (t : Int) + ((k + 3 : Nat) : Int) - 2 - i⟩ : point2i))
            ∘ Nat.succ) (List.range k) := by
      apply List.map_congr_left
      intro i _
      simp only [Function.comp_apply, Nat.succ_eq_add_one, point2i.mk.injEq, true_and]
      push_cast
      ring
    rw [hl]
    simp only [Nat.cast_zero, sub_zero]

theorem map_range_one {α : Type} (g h : Nat → α) (k : Nat) (H : ∀ i, g (i + 1) = h i) :
    (List.range (k + 1)).map g = g 0 :: (List.range k).map h := by
  rw [List.range_succ_eq_map, List.map_cons, List.map_map]
  congr 1
  apply List.map_congr_left
  intro i _
  exact H i

theorem map_range_two {α : Type} (g h : Nat → α) (k : Nat) (H : ∀ i, g (i + 2) = h i) :
    (List.range (k + 2)).map g = g 0 :: g 1 :: (List.range k).map h := by
  rw [map_range_one g (fun i => g (i + 1)) (k + 1) (fun _ => rfl),
    map_range_one (fun i => g (i + 1)) h k H]

theorem rectTrace_eq_makeRectContour (l t rw rh : Nat) (hrw : 2 ≤ rw) (hrh : 2 ≤ rh) :
    rectTrace l t rw rh = makeRectContour ⟨l, t⟩ ⟨(l : Int) + rw, (t : Int) + rh⟩ := by
  obtain ⟨a, rfl⟩ : ∃ a, rw = a + 2 := ⟨rw - 2, by omega⟩
  obtain ⟨b, rfl⟩ : ∃ b, rh = b + 2 := ⟨rh - 2, by omega⟩
  unfold makeRectContour rectTrace
  simp only []
  have n1 : ((l : Int) + ((a + 2 : Nat) : Int) - 1 - l + 1).toNat = a + 2 := by omega
  have n2 : ((t : Int) + ((b + 2 : Nat) : Int) - 1 - t).toNat = b + 1 := by omega
  have n3 : ((l : Int) + ((a + 2 : Nat) : Int) - 1 - l).toNat = a + 1 := by omega
  have n4 : ((t : Int) + ((b + 2 : Nat) : Int) - 1 - t - 1).toNat = b := by omega
  rw [n1, n2, n3, n4]
  rw [map_range_two (fun (i : Nat) => (⟨(l : Int) + i, t⟩ : point2i))
      (fun (i : Nat) => (⟨(l : Int) + 2 + i, t⟩ : point2i)) a
      (by intro i; simp only [point2i.mk.injEq, and_true]; push_cast; ring),
    map_range_one
      (fun (i : Nat) => (⟨(l : Int) + ((a + 2 : Nat) : Int) - 1, (t : Int) + 1 + i⟩ : point2i))
      (fun (i : Nat) => (⟨(l : Int) + ((a + 2 : Nat) : Int) - 1, (t : Int) + 2 + i⟩ : point2i)) b
      (by intro i; simp only [point2i.mk.injEq, true_and]; push_cast; ring),
    map_range_one
      (fun (i : Nat) => (⟨(l : Int) + ((a + 2 : Nat) : Int) - 1 - 1 - i,
        (t : Int) + ((b + 2 : Nat) : Int) - 1⟩ : point2i))
      (fun (i : Nat) => (⟨(l : Int) + ((a + 2 : Nat) : Int) - 3 - i,
        (t : Int) + ((b + 2 : Nat) : Int) - 1⟩ : point2i)) a
      (by intro i; simp only [point2i.mk.injEq, and_true]; push_cast; ring)]
  simp only [Nat.add_sub_cancel, List.cons_append, List.nil_append, List.append_assoc,
    Nat.cast_zero, add_zero, Nat.cast_one, sub_zero, List.singleton_append,
    List.cons.injEq, point2i.mk.injEq, true_and, and_true, List.append_cancel_left_eq]
  refine ⟨by ring, ?_⟩
  apply List.map_congr_left
  intro i _
  simp only [point2i.mk.injEq, true_and]
  ring

theorem rectTrace_length (l t rw rh : Nat) (hrw : 2 ≤ rw) (hrh : 2 ≤ rh) :
    (rectTrace l t rw rh).length = 2 * rw + 2 * rh - 4 := by
  simp [rectTrace]
  omega

theorem chainSum_run_append (f : Nat → point2i) (c : Int) (k : Nat)
    (hc : ∀ i, i < k → cross (f i) (f (i + 1)) = c) (B : List point2i) :
    chainSum ((List.range (k + 1)).map f ++ B) = k * c + chainSum (f k :: B) := by
  induction k generalizing B with
  | zero => simp [List.range_succ]
  | succ k ih =>
    rw [List.range_succ, List.map_append, List.append_assoc]
    simp only [List.map_cons, List.map_nil, List.singleton_append]
    rw [ih (fun i hi => hc i (by omega)) (f (k + 1) :: B), chainSum, hc k (by omega)]
    push_cast
    ring

theorem chainSum_seg (g h : Nat → point2i) (k : Nat) (c : Int) (x : point2i) (hx : x = g 0)
    (H : ∀ i, g (i + 1) = h i) (hc : ∀ i, i < k → cross (g i) (g (i + 1)) = c)
    (B : List point2i) :
    chainSum (x :: ((List.range k).map h ++ B)) = k * c + chainSum (g k :: B) := by
  rw [hx, ← List.cons_append, ← map_range_one g h k H]
  exact chainSum_run_append g c k hc B

theorem rectTrace_cycSum (l t a b : Nat) :
    cycSum (rectTrace l t (a + 2) (b + 2)) = 2 * ((a : Int) + 1) * ((b : Int) + 1) := by
  have htake : (rectTrace l t (a + 2) (b + 2)).take 1 = [(⟨l, t⟩ : point2i)] := by
    simp [rectTrace]
  unfold cycSum
  rw [htake, rectTrace_eq_makeRectContour l t (a + 2) (b + 2) (by omega) (by omega)]
  unfold makeRectContour
  simp only []
  have n1 : ((l : Int) + ((a + 2 : Nat) : Int) - 1 - l + 1).toNat = (a + 1) + 1 := by omega
  have n2 : ((t : Int) + ((b + 2 : Nat) : Int) - 1 - t).toNat = b + 1 := by omega
  have n3 : ((l : Int) + ((a + 2 : Nat) : Int) - 1 - l).toNat = a + 1 := by omega
  have n4 : ((t : Int) + ((b + 2 : Nat) : Int) - 1 - t - 1).toNat = b := by omega
  rw [n1, n2, n3, n4]
  simp only [List.append_assoc]
  rw [chainSum_run_append _ (-(t : Int)) (a + 1)
    (by intro i _; simp only [cross]; push_cast; ring)]
  rw [chainSum_seg
    (fun (i : Nat) => (⟨(l : Int) + ((a + 2 : Nat) : Int) - 1, (t : Int) + i⟩ : point2i)) _
    (b + 1) ((l : Int) + a + 1) _
    (by simp only [point2i.mk.injEq]; push_cast; constructor <;> ring)
    (by intro i; simp only [point2i.mk.injEq, true_and]; push_cast; ring)
    (by intro i _; simp only [cross]; push_cast; ring)]
  rw [chainSum_seg
    (fun (i : Nat) => (⟨(l : Int) + ((a + 2 : Nat) : Int) - 1 - i,
      (t : Int) + ((b + 2 : Nat) : Int) - 1⟩ : point2i)) _
    (a + 1) ((t : Int) + b + 1) _
    (by simp only [point2i.mk.injEq]; push_cast; constructor <;> ring)
    (by intro i; simp only [point2i.mk.injEq, and_true]; push_cast; ring)
    (by intro i _; simp only [cross]; push_cast; ring)]
  rw [chainSum_seg
    (fun (i : Nat) => (⟨(l : Int), (t : Int) + ((b + 2 : Nat) : Int) - 1 - i⟩ : point2i)) _
    b (-(l : Int)) _
    (by simp only [point2i.mk.injEq]; push_cast; constructor <;> ring)
    (by intro i; simp only [point2i.mk.injEq, true_and]; push_cast; ring)
    (by intro i _; simp only [cross]; push_cast; ring)]
  simp only [chainSum, cross]
  push_cast
  ring

theorem bestUpTo_eq_zero (pts : List point2i) (k : Nat)
    (h : ∀ i, i ≤ k → ¬ lexLt (pts.getD i default) (pts.getD 0 default)) :
    bestUpTo pts k = 0 := by
  induction k with
  | zero => simp [bestUpTo]
  | succ k ih =>
    rw [bestUpTo_succ, ih (fun i hi => h i (by omega)), if_neg]
    exact h (k + 1) (le_refl _)

theorem rotateToMinYX_of_head_min (pts : List point2i)
    (h : ∀ q ∈ pts, ¬ lexLt q (pts.getD 0 default)) : rotateToMinYX pts = pts := by
  unfold rotateToMinYX
  by_cases he : pts.isEmpty = true
  · simp [he]
  · have hb : bestIndex pts = 0 := by
      rw [bestIndex_eq]
      apply bestUpTo_eq_zero
      intro i hi
      have hne : pts ≠ [] := by
        intro e; rw [e] at he; simp at he
      have hlen : 0 < pts.length := List.length_pos.2 hne
      have hi' : i < pts.length := by omega
      apply h
      rw [List.getD_eq_getElem?_getD, List.getElem?_eq_getElem hi']
      simp
    simp [he, hb]

theorem rect_findStart (m : image8u) (l t rw rh : Nat) (hm : IsRectMask m l t rw rh)
    (hrw : 2 ≤ rw) (hrh : 2 ≤ rh) : findStart (buildContourMask m) = some ⟨l, t⟩ := by
  have hx : l < (buildContourMask m).width := by
    rw [buildContourMask_width]; have := hm.1; omega
  have hy : t < (buildContourMask m).height := by
    rw [buildContourMask_height]; have := hm.2.1; omega
  apply findStart_eq_some _ l t hx hy
  · have := rect_fg m l t rw rh hm ⟨l, t⟩ (by simp; omega) (by simp)
    exact isFg_get _ _ _ this
  · intro x' y' hx' hy' hsb
    have := rect_bg m l t rw rh hm ⟨x', y'⟩ (by unfold ScannedBefore at hsb; simp; omega)
    rw [isFg_of_nat _ _ _ hx' hy'] at this
    simpa using this

/-- C9: for a mask showing one solid rectangle with top-left pixel `(l, t)`, width
`rw ≥ 2` and height `rh ≥ 2`, `extractContour (buildContourMask m)` is the perimeter,
clockwise from the top-left pixel: the top edge left to right, the right edge downward,
the bottom edge right to left, the left edge upward; these are `2 * rw + 2 * rh - 4`
points, the start not repeated, and the sequence is the one `makeRectContour` builds. -/
theorem extractContour_rectangle (m : image8u) (l t rw rh : Nat) (hrw : 2 ≤ rw)
    (hrh : 2 ≤ rh) (hm : IsRectMask m l t rw rh) :
    extractContour (buildContourMask m) = some
      ((List.range rw).map (fun (i : Nat) => (⟨(l : Int) + i, t⟩ : point2i))
        ++ (List.range (rh - 1)).map
            (fun (i : Nat) => (⟨(l : Int) + rw - 1, (t : Int) + 1 + i⟩ : point2i))
        ++ (List.range (rw - 1)).map
            (fun (i : Nat) => (⟨(l : Int) + rw - 2 - i, (t : Int) + rh - 1⟩ : point2i))
        ++ (List.range (rh - 2)).map
            (fun (i : Nat) => (⟨(l : Int), (t : Int) + rh - 2 - i⟩ : point2i))) ∧
    extractContour (buildContourMask m)
      = some (makeRectContour ⟨l, t⟩ ⟨(l : Int) + rw, (t : Int) + rh⟩) ∧
    (makeRectContour ⟨l, t⟩ ⟨(l : Int) + rw, (t : Int) + rh⟩).length
      = 2 * rw + 2 * rh - 4 := by
  have hstart := rect_findStart m l t rw rh hm hrw hrh
  have hstep := rect_first_step m l t rw rh hm hrw hrh
  have hs : (step (buildContourMask m) 4 ⟨l, t⟩
      ⟨(⟨l, t⟩ : point2i).x - 1, (⟨l, t⟩ : point2i).y⟩).1 ≠ ⟨l, t⟩ := by
    simp only [hstep, ne_eq, point2i.mk.injEq, and_true]
    omega
  have hn : hasNeighbor (buildContourMask m) ⟨l, t⟩ = true := by
    unfold hasNeighbor
    rw [List.any_eq_true]
    refine ⟨0, by simp, ?_⟩
    have := rect_fg m l t rw rh hm ⟨(l : Int) + 1, t⟩ (by simp; omega) (by simp)
    simpa [dx8, dy8] using this
  have hraw := rect_rawTrace m l t rw rh hm hrw hrh
  have horient : orient (rectTrace l t rw rh) = rectTrace l t rw rh := by
    unfold orient
    rw [signedArea2_eq_cycSum]
    obtain ⟨a, rfl⟩ : ∃ a, rw = a + 2 := ⟨rw - 2, by omega⟩
    obtain ⟨b, rfl⟩ : ∃ b, rh = b + 2 := ⟨rh - 2, by omega⟩
    rw [rectTrace_cycSum, if_neg]
    have h1 : (0 : Int) ≤ ((a : Int) + 1) * ((b : Int) + 1) := by positivity
    nlinarith
  have hrot : rotateToMinYX (rectTrace l t rw rh) = rectTrace l t rw rh := by
    apply rotateToMinYX_of_head_min
    intro q hq
    have h0 : (rectTrace l t rw rh).getD 0 default = ⟨l, t⟩ := by simp [rectTrace]
    rw [h0]
    obtain ⟨_, _, _, hfg⟩ := rawTrace_spec (buildContourMask m) ⟨l, t⟩ hs
    rw [hraw] at hfg
    have hq' := hfg (findStart_fg _ _ hstart) q hq
    have hin : (l : Int) ≤ q.x ∧ q.x < l + rw ∧ (t : Int) ≤ q.y ∧ q.y < t + rh := by
      by_contra hout
      rw [rect_bg m l t rw rh hm q hout] at hq'
      cases hq'
    unfold lexLt
    simp only
    omega
  have hmain : extractContour (buildContourMask m)
      = some (makeRectContour ⟨l, t⟩ ⟨(l : Int) + rw, (t : Int) + rh⟩) := by
    rw [extractContour_eq, tracedContour_traced _ _ hstart hn hs, hraw, horient, hrot,
      rectTrace_eq_makeRectContour l t rw rh hrw hrh]
  have hexp : makeRectContour ⟨l, t⟩ ⟨(l : Int) + rw, (t : Int) + rh⟩
      = (List.range rw).map (fun (i : Nat) => (⟨(l : Int) + i, t⟩ : point2i))
        ++ (List.range (rh - 1)).map
            (fun (i : Nat) => (⟨(l : Int) + rw - 1, (t : Int) + 1 + i⟩ : point2i))
        ++ (List.range (rw - 1)).map
            (fun (i : Nat) => (⟨(l : Int) + rw - 2 - i, (t : Int) + rh - 1⟩ : point2i))
        ++ (List.range (rh - 2)).map
            (fun (i : Nat) => (⟨(l : Int), (t : Int) + rh - 2 - i⟩ : point2i)) := by
    unfold makeRectContour
    simp only []
    have n1 : ((l : Int) + rw - 1 - l + 1).toNat = rw := by omega
    have n2 : ((t : Int) + rh - 1 - t).toNat = rh - 1 := by omega
    have n3 : ((l : Int) + rw - 1 - l).toNat = rw - 1 := by omega
    have n4 : ((t : Int) + rh - 1 - t - 1).toNat = rh - 2 := by omega
    rw [n1, n2, n3, n4]
    congr 2
    · congr 1
      funext i
      simp only [point2i.mk.injEq, and_true]; ring
    · funext i
      simp only [point2i.mk.injEq, true_and]; ring
  refine ⟨by rw [hmain, hexp], hmain, ?_⟩
  rw [← rectTrace_eq_makeRectContour l t rw rh hrw hrh]
  exact rectTrace_length l t rw rh hrw hrh

theorem testRectMask_isRect : IsRectMask testRectMask 2 3 5 5 := by
  refine ⟨by decide, by decide, ?_⟩
  intro x y hx hy
  have hx' : x < 12 := hx
  have hy' : y < 12 := hy
  interval_cases x <;> interval_cases y <;> decide

/-- C9, at the rectangle of the tests: the 5-by-5 rectangle from (2, 3) to (7, 8)
exclusive gives the 16 points of `makeRectContour`. -/
theorem extractContour_rectangle_witness :
    (extractContour (buildContourMask testRectMask)
      = some (makeRectContour ⟨(2 : Nat), (3 : Nat)⟩
          ⟨((2 : Nat) : Int) + (5 : Nat), ((3 : Nat) : Int) + (5 : Nat)⟩) ∧
    (makeRectContour ⟨(2 : Nat), (3 : Nat)⟩
        ⟨((2 : Nat) : Int) + (5 : Nat), ((3 : Nat) : Int) + (5 : Nat)⟩).length
      = 2 * 5 + 2 * 5 - 4) ∧
    makeRectContour ⟨2, 3⟩ ⟨7, 8⟩ =
      [⟨2, 3⟩, ⟨3, 3⟩, ⟨4, 3⟩, ⟨5, 3⟩, ⟨6, 3⟩, ⟨6, 4⟩, ⟨6, 5⟩, ⟨6, 6⟩, ⟨6, 7⟩, ⟨5, 7⟩,
        ⟨4, 7⟩, ⟨3, 7⟩, ⟨2, 7⟩, ⟨2, 6⟩, ⟨2, 5⟩, ⟨2, 4⟩] :=
  ⟨(extractContour_rectangle testRectMask 2 3 5 5 (by decide) (by decide)
      testRectMask_isRect).2, by decide⟩

/-! ## Lists as arrays, and the priority queue -/

theorem getD_set_eq {α : Type} (l : List α) (i j : Nat) (v d : α) (hi : i < l.length) :
    (l.set i v).getD j d = if j = i then v else l.getD j d := by
  simp only [List.getD_eq_getElem?_getD, List.getElem?_set]
  by_cases h : i = j
  · subst h; simp [hi]
  · simp [h, Ne.symm h, eq_comm]

theorem pqTop_mem : ∀ (pq : List HeapItem) (it : HeapItem), pqTop pq = some it → it ∈ pq
  | [], it, h => by simp [pqTop] at h
  | x :: xs, it, h => by
    unfold pqTop at h
    cases hx : pqTop xs with
    | none =>
      rw [hx] at h
      simp only [Option.some.injEq] at h
      subst h
      exact List.mem_cons_self _ _
    | some y =>
      rw [hx] at h
      simp only at h
      have hy := pqTop_mem xs y hx
      split at h
      · simp only [Option.some.injEq] at h
        subst h
        exact List.mem_cons_of_mem _ hy
      · simp only [Option.some.injEq] at h
        subst h
        exact List.mem_cons_self _ _

theorem pqTop_eq_none (pq : List HeapItem) (h : pqTop pq = none) : pq = [] := by
  cases pq with
  | nil => rfl
  | cons x xs =>
    unfold pqTop at h
    cases hx : pqTop xs with
    | none => rw [hx] at h; simp at h
    | some y =>
      rw [hx] at h
      simp only at h
      split at h <;> simp at h

/-! ## Removing one entry from a cyclic chain -/

theorem chain'_imp_mem {α : Type} {R S : α → α → Prop} {l : List α}
    (h : List.Chain' R l) (H : ∀ x y, x ∈ l → y ∈ l → R x y → S x y) : List.Chain' S l := by
  rw [List.Chain'.iff_mem] at h
  exact h.imp (fun x y ⟨hx, hy, hr⟩ => H x y hx hy hr)

theorem chain'_remove_mid {α : Type} {R S : α → α → Prop} (P Q : List α) (i : α)
    (h : List.Chain' R (P ++ i :: Q)) (hP : i ∉ P) (hQ : i ∉ Q)
    (hkeep : ∀ x y, x ≠ i → y ≠ i → R x y → S x y)
    (hnew : ∀ x y, R x i → R i y → S x y) : List.Chain' S (P ++ Q) := by
  rw [List.chain'_split] at h
  obtain ⟨h1, h2⟩ := h
  rw [List.chain'_append] at h1
  obtain ⟨h1a, _, h1c⟩ := h1
  rw [List.chain'_cons'] at h2
  obtain ⟨h2a, h2b⟩ := h2
  rw [List.chain'_append]
  refine ⟨chain'_imp_mem h1a (fun x y hx hy hr => hkeep x y (fun e => hP (e ▸ hx))
      (fun e => hP (e ▸ hy)) hr),
    chain'_imp_mem h2b (fun x y hx hy hr => hkeep x y (fun e => hQ (e ▸ hx))
      (fun e => hQ (e ▸ hy)) hr), ?_⟩
  intro x hx y hy
  exact hnew x y (h1c x hx i (by simp)) (h2a y hy)

theorem cycChain_remove {α : Type} {R S : α → α → Prop} (L1 L2 : List α) (i : α)
    (h : CycChain R (L1 ++ i :: L2)) (h1 : i ∉ L1) (h2 : i ∉ L2)
    (hkeep : ∀ x y, x ≠ i → y ≠ i → R x y → S x y)
    (hnew : ∀ x y, R x i → R i y → S x y) : CycChain S (L1 ++ L2) := by
  cases L1 with
  | nil =>
    cases L2 with
    | nil => simp [CycChain]
    | cons y L2' =>
      have hc : List.Chain' R ([i] ++ ((y :: L2') ++ [i])) := by simpa [CycChain] using h
      have hyi : y ≠ i := fun e => h2 (e ▸ List.mem_cons_self _ _)
      rw [List.chain'_append] at hc
      obtain ⟨_, hc2, hc3⟩ := hc
      have hiy : R i y := hc3 i (by simp) y (by simp)
      have hc4 : List.Chain' R ((y :: L2') ++ i :: []) := by simpa using hc2
      have hc5 : List.Chain' R ((y :: L2') ++ i :: [y]) := by
        rw [List.chain'_split]
        rw [List.chain'_split] at hc4
        exact ⟨hc4.1, by simpa using hiy⟩
      have := chain'_remove_mid (y :: L2') [y] i hc5 h2 (by simpa using hyi.symm) hkeep hnew
      simpa [CycChain] using this
  | cons x L1' =>
    have hxi : x ≠ i := fun e => h1 (e ▸ List.mem_cons_self _ _)
    have hc : List.Chain' R ((x :: L1') ++ i :: (L2 ++ [x])) := by simpa [CycChain] using h
    have := chain'_remove_mid (x :: L1') (L2 ++ [x]) i hc h1
      (by simp only [List.mem_append, List.mem_singleton, not_or]; exact ⟨h2, hxi.symm⟩)
      hkeep hnew
    simpa [CycChain] using this

/-! ## The linked list of surviving vertices -/

theorem mem_aliveList (n : Nat) (alive : List Bool) (i : Nat) :
    i ∈ aliveList n alive ↔ i < n ∧ alive.getD i false = true := by
  simp [aliveList]

theorem aliveList_nodup (n : Nat) (alive : List Bool) : (aliveList n alive).Nodup :=
  (List.nodup_range n).filter _

theorem aliveList_set (n : Nat) (alive : List Bool) (i : Nat) (hlen : alive.length = n)
    (hi : i < n) :
    aliveList n (alive.set i false) = (aliveList n alive).filter (fun j => decide (j ≠ i)) := by
  unfold aliveList
  rw [List.filter_filter]
  apply List.filter_congr
  intro j _
  rw [getD_set_eq alive i j false false (by omega)]
  by_cases h : j = i
  · simp [h]
  · simp [h]

theorem nodup_split {α : Type} [DecidableEq α] (A : List α) (i : α) (hA : A.Nodup)
    (hi : i ∈ A) :
    ∃ L1 L2, A = L1 ++ i :: L2 ∧ i ∉ L1 ∧ i ∉ L2 ∧
      A.filter (fun j => decide (j ≠ i)) = L1 ++ L2 := by
  obtain ⟨L1, L2, rfl⟩ := List.append_of_mem hi
  rw [List.nodup_append] at hA
  obtain ⟨_, hn2, hdis⟩ := hA
  have h1 : i ∉ L1 := fun h => hdis h (List.mem_cons_self _ _)
  have h2 : i ∉ L2 := (List.nodup_cons.1 hn2).1
  refine ⟨L1, L2, rfl, h1, h2, ?_⟩
  rw [List.filter_append, List.filter_cons]
  simp only [ne_eq, not_true_eq_false, decide_False, Bool.false_eq_true, if_false]
  rw [List.filter_eq_self.2, List.filter_eq_self.2]
  · intro x hx
    have : x ≠ i := fun e => h2 (e ▸ hx)
    simpa using this
  · intro x hx
    have : x ≠ i := fun e => h1 (e ▸ hx)
    simpa using this

theorem cycChain_neighbours {α : Type} {R : α → α → Prop} (L1 L2 : List α) (i : α)
    (h : CycChain R (L1 ++ i :: L2)) (hne : L1 ++ L2 ≠ []) :
    ∃ x y, x ∈ L1 ++ L2 ∧ y ∈ L1 ++ L2 ∧ R x i ∧ R i y := by
  cases L1 with
  | nil =>
    cases L2 with
    | nil => exact absurd rfl hne
    | cons y L2' =>
      have hc : List.Chain' R ([i] ++ ((y :: L2') ++ [i])) := by simpa [CycChain] using h
      rw [List.chain'_append] at hc
      obtain ⟨_, hc2, hc3⟩ := hc
      rw [List.chain'_append] at hc2
      obtain ⟨_, _, hc4⟩ := hc2
      have hlast : ∃ z, z ∈ (y :: L2').getLast? := by
        cases hl : (y :: L2').getLast? with
        | none => simp at hl
        | some z => exact ⟨z, rfl⟩
      obtain ⟨z, hz⟩ := hlast
      refine ⟨z, y, ?_, by simp, hc4 z hz i (by simp), hc3 i (by simp) y (by simp)⟩
      simpa using List.mem_of_mem_getLast? hz
  | cons x L1' =>
    have hc : List.Chain' R ((x :: L1') ++ i :: (L2 ++ [x])) := by simpa [CycChain] using h
    rw [List.chain'_split] at hc
    obtain ⟨hc1, hc2⟩ := hc
    rw [List.chain'_append] at hc1
    obtain ⟨_, _, hc3⟩ := hc1
    rw [List.chain'_cons'] at hc2
    have hlast : ∃ z, z ∈ (x :: L1').getLast? := by
      cases hl : (x :: L1').getLast? with
      | none => simp at hl
      | some z => exact ⟨z, rfl⟩
    obtain ⟨z, hz⟩ := hlast
    have hhead : ∃ w, w ∈ (L2 ++ [x]).head? ∧ w ∈ (x :: L1') ++ L2 := by
      cases L2 with
      | nil => exact ⟨x, by simp, by simp⟩
      | cons w L2' => exact ⟨w, by simp, by simp⟩
    obtain ⟨w, hw, hwm⟩ := hhead
    refine ⟨z, w, ?_, hwm, hc3 z hz i (by simp), hc2.1 w hw⟩
    exact List.mem_append_left _ (List.mem_of_mem_getLast? hz)

theorem removeVertex_inv (costf : point2i → point2i → point2i → Cost)
    (contour : List point2i) (n : Nat) (s : SimplifyState) (pq : List HeapItem) (i : Nat)
    (hinv : SimplifyInv n s) (hi : i ∈ aliveList n s.alive) (h2 : 2 ≤ s.aliveCount)
    (hpq : ∀ it ∈ s.pq, it.idx ≠ (i : Int) → it ∈ pq) :
    SimplifyInv n (removeVertex costf contour s pq i) ∧
    (removeVertex costf contour s pq i).aliveCount = s.aliveCount - 1 ∧
    (removeVertex costf contour s pq i).pq.length = pq.length + 2 ∧
    aliveList n (removeVertex costf contour s pq i).alive
      = (aliveList n s.alive).filter (fun j => decide (j ≠ i)) := by
  obtain ⟨hp, hn, ha, hv, hcount, hcyc, hfresh⟩ := hinv
  have hin := (mem_aliveList n s.alive i).1 hi
  obtain ⟨L1, L2, hA, h1, h2', hfilt⟩ := nodup_split _ i (aliveList_nodup n s.alive) hi
  have hne : L1 ++ L2 ≠ [] := by
    intro e
    have hl : (aliveList n s.alive).length = 1 := by
      rw [hA]
      simp only [List.append_eq_nil] at e
      rw [e.1, e.2]; rfl
    omega
  rw [hA] at hcyc
  obtain ⟨x, y, hx, hy, hxi, hiy⟩ := cycChain_neighbours L1 L2 i hcyc hne
  have hxa : s.prev.getD i 0 = x := hxi.2
  have hyb : s.next.getD i 0 = y := hiy.1
  have hxA : x ∈ aliveList n s.alive := by
    rw [hA]
    rcases List.mem_append.1 hx with h | h
    · exact List.mem_append_left _ h
    · exact List.mem_append_right _ (List.mem_cons_of_mem _ h)
  have hyA : y ∈ aliveList n s.alive := by
    rw [hA]
    rcases List.mem_append.1 hy with h | h
    · exact List.mem_append_left _ h
    · exact List.mem_append_right _ (List.mem_cons_of_mem _ h)
  have hxn := ((mem_aliveList n s.alive x).1 hxA).1
  have hyn := ((mem_aliveList n s.alive y).1 hyA).1
  have hxi' : x ≠ i := fun e => by
    rcases List.mem_append.1 hx with h | h
    · exact h1 (e ▸ h)
    · exact h2' (e ▸ h)
  have hyi' : y ≠ i := fun e => by
    rcases List.mem_append.1 hy with h | h
    · exact h1 (e ▸ h)
    · exact h2' (e ▸ h)
  have hal : aliveList n (s.alive.set i false)
      = (aliveList n s.alive).filter (fun j => decide (j ≠ i)) :=
    aliveList_set n s.alive i ha hin.1
  unfold removeVertex
  simp only [hxa, hyb]
  refine ⟨⟨by simp [hp], by simp [hn], by simp [ha], by simp [hv], ?_, ?_, ?_⟩, trivial,
    by simp, hal⟩
  · rw [hal, hfilt, hcount, hA]
    simp only [List.length_append, List.length_cons]
    omega
  · rw [hal, hfilt]
    apply cycChain_remove L1 L2 i hcyc h1 h2'
    · intro u w hu hw huw
      obtain ⟨huw1, huw2⟩ := huw
      have hux : u ≠ x := by
        intro e
        rw [e, hxi.1] at huw1
        exact hw huw1.symm
      have hwy : w ≠ y := by
        intro e
        rw [e, hiy.2] at huw2
        exact hu huw2.symm
      constructor
      · rw [getD_set_eq _ _ _ _ _ (by omega), if_neg hux]; exact huw1
      · rw [getD_set_eq _ _ _ _ _ (by omega), if_neg hwy]; exact huw2
    · intro u w hu hw
      have e1 : u = x := by rw [← hxa]; exact hu.2.symm
      have e2 : w = y := by rw [← hyb]; exact hw.1.symm
      subst e1 e2
      constructor
      · rw [getD_set_eq _ _ _ _ _ (by omega), if_pos rfl]
      · rw [getD_set_eq _ _ _ _ _ (by omega), if_pos rfl]
  · intro j hj
    rw [hal, List.mem_filter] at hj
    obtain ⟨hjA, hji⟩ := hj
    have hji' : j ≠ i := by simpa using hji
    by_cases hjx : j = x
    · subst hjx
      exact ⟨_, List.mem_append_left _ (List.mem_append_right _ (List.mem_singleton_self _)),
        rfl, rfl⟩
    · by_cases hjy : j = y
      · subst hjy
        exact ⟨_, List.mem_append_right _ (List.mem_singleton_self _), rfl, rfl⟩
      · obtain ⟨it, hit, hidx, hver⟩ := hfresh j hjA
        refine ⟨it, ?_, hidx, ?_⟩
        · have : it ∈ pq := hpq it hit (by rw [hidx]; exact_mod_cast hji')
          simp [this]
        · rw [getD_set_eq _ _ _ _ _ (by simp; omega), if_neg hjy,
            getD_set_eq _ _ _ _ _ (by omega), if_neg hjx]
          exact hver

theorem inv_erase_stale (n : Nat) (s : SimplifyState) (it : HeapItem)
    (hinv : SimplifyInv n s)
    (hstale : ∀ i ∈ aliveList n s.alive, it.idx = (i : Int) → it.ver ≠ s.version.getD i 0) :
    SimplifyInv n { s with pq := s.pq.erase it } := by
  obtain ⟨hp, hn, ha, hv, hcount, hcyc, hfresh⟩ := hinv
  refine ⟨hp, hn, ha, hv, hcount, hcyc, ?_⟩
  intro i hi
  obtain ⟨it', hit', hidx, hver⟩ := hfresh i hi
  refine ⟨it', ?_, hidx, hver⟩
  have hne : it' ≠ it := by
    intro e
    subst e
    exact hstale i hi hidx hver
  exact (List.mem_erase_of_ne hne).2 hit'

theorem simplifyLoop_ok (costf : point2i → point2i → point2i → Cost)
    (contour : List point2i) (n target : Nat) (ht : 1 ≤ target) (fuel : Nat) :
    ∀ s : SimplifyState, SimplifyInv n s → target ≤ s.aliveCount →
      s.pq.length + 2 * (s.aliveCount - target) ≤ fuel →
      ∃ s', simplifyLoop costf contour n target fuel s = Except.ok s' ∧ SimplifyInv n s' ∧
        s'.aliveCount = target ∧
        List.Sublist (aliveList n s'.alive) (aliveList n s.alive) := by
  induction fuel with
  | zero =>
    intro s hinv hle hfuel
    refine ⟨s, ?_, hinv, by omega, List.Sublist.refl _⟩
    unfold simplifyLoop
    rw [if_neg (by omega)]
  | succ fuel ih =>
    intro s hinv hle hfuel
    by_cases hgt : s.aliveCount > target
    · unfold simplifyLoop
      rw [if_pos hgt]
      have hcount := hinv.2.2.2.2.1
      have hfresh := hinv.2.2.2.2.2.2
      cases htop : pqTop s.pq with
      | none =>
        exfalso
        have hnil := pqTop_eq_none s.pq htop
        have hpos : 0 < (aliveList n s.alive).length := by omega
        obtain ⟨i, hi⟩ := List.exists_mem_of_length_pos hpos
        obtain ⟨it, hit, _⟩ := hfresh i hi
        rw [hnil] at hit
        cases hit
      | some it =>
        have hmem := pqTop_mem s.pq it htop
        have hlen : (s.pq.erase it).length = s.pq.length - 1 := by
          rw [List.length_erase_of_mem hmem]
        have hpos : 0 < s.pq.length := List.length_pos_of_mem hmem
        have stale : (∀ i ∈ aliveList n s.alive, it.idx = (i : Int) →
            it.ver ≠ s.version.getD i 0) →
            ∃ s', simplifyLoop costf contour n target fuel { s with pq := s.pq.erase it }
                = Except.ok s' ∧ SimplifyInv n s' ∧ s'.aliveCount = target ∧
              List.Sublist (aliveList n s'.alive) (aliveList n s.alive) := by
          intro hst
          exact ih { s with pq := s.pq.erase it } (inv_erase_stale n s it hinv hst) hle
            (by simp only [hlen]; omega)
        simp only []
        by_cases hrange : it.idx < 0 ∨ it.idx ≥ (n : Int)
        · rw [if_pos hrange]
          apply stale
          intro i hi hidx
          have := ((mem_aliveList n s.alive i).1 hi).1
          omega
        · rw [if_neg hrange]
          by_cases hdead : (!s.alive.getD it.idx.toNat false) = true
          · rw [if_pos hdead]
            apply stale
            intro i hi hidx
            have := ((mem_aliveList n s.alive i).1 hi).2
            rw [hidx] at hdead
            simp only [Int.toNat_ofNat] at hdead
            rw [this] at hdead
            cases hdead
          · rw [if_neg hdead]
            by_cases hver : it.ver ≠ s.version.getD it.idx.toNat 0
            · rw [if_pos hver]
              apply stale
              intro i hi hidx
              rw [hidx] at hver
              simpa using hver
            · rw [if_neg hver]
              have hi : it.idx.toNat ∈ aliveList n s.alive := by
                rw [mem_aliveList]
                refine ⟨by omega, ?_⟩
                simpa using hdead
              obtain ⟨h1, h2, h3, h4⟩ := removeVertex_inv costf contour n s (s.pq.erase it)
                it.idx.toNat hinv hi (by omega)
                (by
                  intro it' hit' hne
                  have : it' ≠ it := by
                    intro e
                    subst e
                    apply hne
                    omega
                  exact (List.mem_erase_of_ne this).2 hit')
              obtain ⟨s', hs1, hs2, hs3, hs4⟩ :=
                ih (removeVertex costf contour s (s.pq.erase it) it.idx.toNat) h1
                  (by rw [h2]; omega) (by rw [h2, h3, hlen]; omega)
              refine ⟨s', hs1, hs2, hs3, hs4.trans ?_⟩
              rw [h4]
              exact List.filter_sublist _
    · refine ⟨s, ?_, hinv, by omega, List.Sublist.refl _⟩
      unfold simplifyLoop
      rw [if_neg hgt]

/-! ## The state on entry to the loop -/

theorem foldl_push_eq_map {α β : Type} (f : α → β) (l : List α) (init : List β) :
    l.foldl (fun (acc : List β) (i : α) => acc ++ [f i]) init = init ++ l.map f := by
  induction l generalizing init with
  | nil => simp
  | cons a t ih => simp [ih]

theorem getD_map_range (f : Nat → Nat) (n i : Nat) (hi : i < n) :
    ((List.range n).map f).getD i 0 = f i := by
  rw [List.getD_eq_getElem?_getD, List.getElem?_map, List.getElem?_range hi]
  rfl

theorem cycChain_range (R : Nat → Nat → Prop) (n : Nat)
    (hstep : ∀ i, i + 1 < n → R i (i + 1)) (hwrap : 0 < n → R (n - 1) 0) :
    CycChain R (List.range n) := by
  cases n with
  | zero => simp [CycChain]
  | succ k =>
    unfold CycChain
    have ht : (List.range (k + 1)).take 1 = [0] := by
      rw [List.range_succ_eq_map]; rfl
    rw [ht, List.chain'_append]
    refine ⟨(List.chain'_range_succ R k).2 (fun m hm => hstep m (by omega)),
      List.chain'_singleton _, ?_⟩
    intro x hx y hy
    rw [List.getLast?_range] at hx
    simp only [Nat.add_one_ne_zero, if_false, Option.mem_def, Option.some.injEq] at hx
    simp only [List.head?_cons, Option.mem_def, Option.some.injEq] at hy
    subst hx hy
    exact hwrap (by omega)

theorem initialState_inv (costf : point2i → point2i → point2i → Cost)
    (contour : List point2i) :
    SimplifyInv contour.length (initialState costf contour) ∧
    (initialState costf contour).pq.length = contour.length ∧
    (initialState costf contour).aliveCount = contour.length ∧
    aliveList contour.length (initialState costf contour).alive
      = List.range contour.length := by
  have hal : aliveList contour.length (List.replicate contour.length true)
      = List.range contour.length := by
    unfold aliveList
    rw [List.filter_eq_self]
    intro i hi
    rw [List.mem_range] at hi
    simp [List.getD_eq_getElem?_getD, List.getElem?_replicate, hi]
  unfold initialState
  simp only [foldl_push_eq_map, List.nil_append]
  refine ⟨⟨by simp, by simp, by simp, by simp, ?_, ?_, ?_⟩, by simp, trivial, hal⟩
  · rw [hal]; simp
  · rw [hal]
    apply cycChain_range
    · intro i hi
      constructor
      · rw [getD_map_range _ _ _ (by omega), Nat.mod_eq_of_lt hi]
      · rw [getD_map_range _ _ _ hi]
        have : i + 1 + contour.length - 1 = i + contour.length := by omega
        rw [this, Nat.add_mod_right, Nat.mod_eq_of_lt (by omega)]
    · intro hpos
      constructor
      · rw [getD_map_range _ _ _ (by omega)]
        have : contour.length - 1 + 1 = contour.length := by omega
        rw [this, Nat.mod_self]
      · rw [getD_map_range _ _ _ hpos]
        have : 0 + contour.length - 1 = contour.length - 1 := by omega
        rw [this, Nat.mod_eq_of_lt (by omega)]
  · intro i hi
    rw [hal, List.mem_range] at hi
    refine ⟨_, List.mem_map.2 ⟨i, List.mem_range.2 hi, rfl⟩, rfl, rfl⟩

/-! ## Collecting the survivors -/

theorem collectLoop_spec (contour : List point2i) (next : List Nat)
    (start aliveCount : Nat) (suf : List Nat) :
    ∀ (cur : Nat) (out : List point2i) (fuel : Nat),
      List.Chain' (fun x y => next.getD x 0 = y) (cur :: suf ++ [start]) →
      start ∉ suf → suf.length < fuel → out.length + suf.length ≤ aliveCount →
      collectLoop contour next start aliveCount fuel cur out
        = out ++ (cur :: suf).map (fun (i : Nat) => contour.getD i default) := by
  induction suf with
  | nil =>
    intro cur out fuel hch _ hfuel _
    obtain ⟨f, rfl⟩ : ∃ f, fuel = f + 1 := ⟨fuel - 1, by simp at hfuel; omega⟩
    have hnext : next.getD cur 0 = start := by simpa using hch
    unfold collectLoop
    simp only [hnext]
    rw [if_neg (by simp)]
    simp
  | cons c2 suf' ih =>
    intro cur out fuel hch hnot hfuel hlen
    obtain ⟨f, rfl⟩ : ∃ f, fuel = f + 1 := ⟨fuel - 1, by simp at hfuel; omega⟩
    simp only [List.cons_append] at hch
    rw [List.chain'_cons] at hch
    obtain ⟨hnext, hrest⟩ := hch
    have hc2 : c2 ≠ start := fun e => hnot (e ▸ List.mem_cons_self _ _)
    simp only [List.length_cons] at hfuel hlen
    unfold collectLoop
    simp only [hnext]
    rw [if_pos ⟨hc2, by simp only [List.length_append, List.length_singleton]; omega⟩,
      ih c2 _ f (by simpa using hrest) (fun h => hnot (List.mem_cons_of_mem _ h)) (by omega)
        (by simp only [List.length_append, List.length_singleton]; omega)]
    simp

theorem simplifyContourWith_spec (costf : point2i → point2i → point2i → Cost)
    (contour : List point2i) (target : Nat) (h0 : 0 < target)
    (hlt : target < contour.length) :
    ∃ A : List Nat, List.Sublist A (List.range contour.length) ∧ A.length = target ∧
      simplifyContourWith costf contour target
        = Except.ok (A.map (fun (i : Nat) => contour.getD i default)) := by
  obtain ⟨hinv, hpq, hac, hal⟩ := initialState_inv costf contour
  obtain ⟨s, hs, hsinv, hscount, hsub⟩ := simplifyLoop_ok costf contour contour.length
    target h0 (3 * contour.length) (initialState costf contour) hinv (by omega) (by omega)
  rw [hal] at hsub
  refine ⟨aliveList contour.length s.alive, hsub, by rw [← hsinv.2.2.2.2.1, hscount], ?_⟩
  have hne : contour ≠ [] := by
    intro e; rw [e] at hlt; simp at hlt
  have hempty : contour.isEmpty = false := by
    cases contour with
    | nil => exact absurd rfl hne
    | cons a l => rfl
  unfold simplifyContourWith
  simp only [hempty, Bool.false_eq_true, or_false]
  rw [if_neg (by omega), if_neg (by omega), hs]
  simp only []
  have hcount := hsinv.2.2.2.2.1
  have hcyc := hsinv.2.2.2.2.2.1
  have hnodup := aliveList_nodup contour.length s.alive
  have hfind : (List.range contour.length).find? (fun (i : Nat) => s.alive.getD i false)
      = (aliveList contour.length s.alive).head? := by
    unfold aliveList
    rw [List.filter_head?]
  rw [hfind]
  cases hA : aliveList contour.length s.alive with
  | nil =>
    rw [hA] at hcount
    simp at hcount
    omega
  | cons start suf =>
    rw [hA] at hcyc hnodup hcount
    simp only [List.head?_cons]
    have hch : List.Chain' (fun x y => s.next.getD x 0 = y) (start :: suf ++ [start]) := by
      have : List.Chain' (Linked s.prev s.next) (start :: suf ++ [start]) := by
        simpa [CycChain] using hcyc
      exact this.imp (fun x y h => h.1)
    rw [collectLoop_spec contour s.next start s.aliveCount suf start [] (s.aliveCount + 2) hch
      (List.nodup_cons.1 hnodup).1 (by rw [hcount]; simp only [List.length_cons]; omega)
      (by rw [hcount]; simp)]
    simp

theorem simplifyContourWith_length (costf : point2i → point2i → point2i → Cost)
    (c : List point2i) (t : Nat) :
    ∃ out, simplifyContourWith costf c t = Except.ok out ∧ out.length = min t c.length ∧
      ((t = 0 ∨ c = []) → out = []) := by
  by_cases h0 : t = 0 ∨ c = []
  · refine ⟨[], ?_, ?_, fun _ => rfl⟩
    · unfold simplifyContourWith
      have : t = 0 ∨ c.isEmpty = true := by
        rcases h0 with h | h
        · exact Or.inl h
        · exact Or.inr (by rw [h]; rfl)
      simp only [this, if_true]
    · rcases h0 with h | h
      · simp [h]
      · simp [h]
  · have ht : t ≠ 0 := fun e => h0 (Or.inl e)
    have hc : c ≠ [] := fun e => h0 (Or.inr e)
    have hempty : c.isEmpty = false := by
      cases c with
      | nil => exact absurd rfl hc
      | cons a l => rfl
    by_cases hle : c.length ≤ t
    · refine ⟨c, ?_, by simp [hle], fun h => absurd h h0⟩
      unfold simplifyContourWith
      simp only [hempty, Bool.false_eq_true, or_false]
      rw [if_neg ht, if_pos hle]
    · obtain ⟨A, _, hlen, hres⟩ := simplifyContourWith_spec costf c t (by omega) (by omega)
      refine ⟨_, hres, ?_, fun h => absurd h h0⟩
      rw [List.length_map, hlen]
      omega

/-- C10: for every point sequence `c` and every target `t`, `simplifyContour c t`
returns (no `rassert` fails and the loop ends) a sequence of exactly `min t |c|`
points, the empty one when `t = 0` or `c` is empty; targets 1 and 2 are no exception. -/
theorem simplifyContour_length (c : List point2i) (t : Nat) :
    ∃ out, simplifyContour c t = Except.ok out ∧ out.length = min t c.length ∧
      ((t = 0 ∨ c = []) → out = []) :=
  simplifyContourWith_length dist2_point_to_line c t

/-! ## The shoelace accumulator stays within `long long` -/

theorem area2Partial_full (poly : List point2i) (h : 3 ≤ poly.length) :
    signedArea2_imageCoords poly = area2Partial poly poly.length := by
  unfold signedArea2_imageCoords area2Partial
  rw [if_neg (by omega)]

theorem getD_mem_of_lt (poly : List point2i) (i : Nat) (hi : i < poly.length) :
    poly.getD i default ∈ poly := by
  rw [List.getD_eq_getElem?_getD, List.getElem?_eq_getElem hi]
  exact List.getElem_mem hi

theorem area2Partial_bound (poly : List point2i) (W H : Nat)
    (hb : ∀ p ∈ poly, 0 ≤ p.x ∧ p.x < W ∧ 0 ≤ p.y ∧ p.y < H) (k : Nat)
    (hk : k ≤ poly.length) :
    |area2Partial poly k| ≤ (k : Int) * ((W : Int) * H) := by
  induction k with
  | zero => simp [area2Partial]
  | succ k ih =>
    have ih' := ih (by omega)
    have hstep : area2Partial poly (k + 1) = area2Partial poly k +
        ((poly.getD k default).x * (poly.getD ((k + 1) % poly.length) default).y
          - (poly.getD ((k + 1) % poly.length) default).x * (poly.getD k default).y) := by
      simp [area2Partial, List.range_succ, List.foldl_append]
    rw [hstep]
    have hp := hb _ (getD_mem_of_lt poly k (by omega))
    have hq := hb _ (getD_mem_of_lt poly ((k + 1) % poly.length)
      (Nat.mod_lt _ (by omega)))
    generalize poly.getD k default = p at hp
    generalize poly.getD ((k + 1) % poly.length) default = q at hq
    have h1 : 0 ≤ p.x * q.y := mul_nonneg hp.1 hq.2.2.1
    have h2 : p.x * q.y ≤ (W : Int) * H :=
      mul_le_mul (le_of_lt hp.2.1) (le_of_lt hq.2.2.2) hq.2.2.1 (by omega)
    have h3 : 0 ≤ q.x * p.y := mul_nonneg hq.1 hp.2.2.1
    have h4 : q.x * p.y ≤ (W : Int) * H :=
      mul_le_mul (le_of_lt hq.2.1) (le_of_lt hp.2.2.2) hp.2.2.1 (by omega)
    rw [abs_le] at ih' ⊢
    push_cast
    constructor <;> nlinarith

/-- On a raster of at most `2^31 - 8` pixels the accumulator `a2` of
`signedArea2_imageCoords`, run on the traced sequence in the integers, never leaves the
range of `long long`; the test `signedArea2_imageCoords(contour) < 0` of
`extractContour` is therefore decided alike in both. -/
theorem area2Partial_rawTrace_fits (m : image8u) (start : point2i)
    (h : findStart m = some start) (hn : hasNeighbor m start = true)
    (hsize : m.width * m.height + 8 ≤ 2 ^ 31) (k : Nat)
    (hk : k ≤ (rawTrace m start).length) :
    -(2 : Int) ^ 63 < area2Partial (rawTrace m start) k ∧
      area2Partial (rawTrace m start) k < (2 : Int) ^ 63 := by
  have hfg := findStart_fg m start h
  have hmov := hasNeighbor_movable m start hfg hn
  obtain ⟨p1, ext, hraw, _, _, hlen, _⟩ := rawTrace_chain m start hmov
  have hs : (step m 4 start ⟨start.x - 1, start.y⟩).1 ≠ start := fun e =>
    adjacent8_ne _ _ (step_movable m 4 start ⟨start.x - 1, start.y⟩ hmov).1 e.symm
  obtain ⟨_, _, _, hall⟩ := rawTrace_spec m start hs
  have hb : ∀ p ∈ rawTrace m start,
      0 ≤ p.x ∧ p.x < m.width ∧ 0 ≤ p.y ∧ p.y < m.height := by
    intro p hp
    have := isFg_inBounds m p.x p.y (hall hfg p hp)
    simp only [inBounds, Bool.and_eq_true, decide_eq_true_eq] at this
    omega
  have hbound := area2Partial_bound (rawTrace m start) m.width m.height hb k hk
  rw [abs_le] at hbound
  have hk' : (k : Int) ≤ (m.width : Int) * m.height + 8 := by
    have : k ≤ m.width * m.height + 8 := le_trans hk hlen
    exact_mod_cast this
  have hs' : (m.width : Int) * m.height + 8 ≤ 2 ^ 31 := by exact_mod_cast hsize
  have hnn : (0 : Int) ≤ (m.width : Int) * m.height := by positivity
  have hkn : (0 : Int) ≤ k := by positivity
  constructor <;> nlinarith

/-! ## The simplifier keeps a subsequence -/

theorem map_getD_range (c : List point2i) :
    (List.range c.length).map (fun (i : Nat) => c.getD i default) = c := by
  apply List.ext_getElem (by simp)
  intro i h1 h2
  simp [List.getD_eq_getElem?_getD, List.getElem?_eq_getElem h2]

/-- C11: for `0 < t < |c|` the result of `simplifyContour c t` is an order-preserving
subsequence of `c`: there are indices `i_1 < i_2 < ... < i_t` into `c` with the result
`[c[i_1], ..., c[i_t]]`, so it begins with the surviving point of lowest index. -/
theorem simplifyContour_subsequence (c : List point2i) (t : Nat) (h0 : 0 < t)
    (hlt : t < c.length) :
    ∃ idx : List Nat, idx.Sorted (· < ·) ∧ (∀ i ∈ idx, i < c.length) ∧ idx.length = t ∧
      simplifyContour c t = Except.ok (idx.map (fun (i : Nat) => c.getD i default)) ∧
      List.Sublist (idx.map (fun (i : Nat) => c.getD i default)) c := by
  obtain ⟨A, hsub, hlen, hres⟩ := simplifyContourWith_spec dist2_point_to_line c t h0 hlt
  refine ⟨A, (List.sorted_lt_range c.length).sublist hsub, ?_, hlen, hres, ?_⟩
  · intro i hi
    exact List.mem_range.1 (hsub.subset hi)
  · have := hsub.map (fun (i : Nat) => c.getD i default)
    rw [map_getD_range] at this
    exact this

/-- C11, at a concrete contour: five points simplified to three. -/
theorem simplifyContour_subsequence_witness :
    ∃ idx : List Nat, idx.Sorted (· < ·) ∧
      (∀ i ∈ idx, i < ([⟨0, 0⟩, ⟨1, 0⟩, ⟨2, 0⟩, ⟨2, 1⟩, ⟨1, 1⟩] : List point2i).length) ∧
      idx.length = 3 ∧
      simplifyContour [⟨0, 0⟩, ⟨1, 0⟩, ⟨2, 0⟩, ⟨2, 1⟩, ⟨1, 1⟩] 3
        = Except.ok (idx.map (fun (i : Nat) =>
            ([⟨0, 0⟩, ⟨1, 0⟩, ⟨2, 0⟩, ⟨2, 1⟩, ⟨1, 1⟩] : List point2i).getD i default)) ∧
      List.Sublist (idx.map (fun (i : Nat) =>
          ([⟨0, 0⟩, ⟨1, 0⟩, ⟨2, 0⟩, ⟨2, 1⟩, ⟨1, 1⟩] : List point2i).getD i default))
        [⟨0, 0⟩, ⟨1, 0⟩, ⟨2, 0⟩, ⟨2, 1⟩, ⟨1, 1⟩] :=
  simplifyContour_subsequence [⟨0, 0⟩, ⟨1, 0⟩, ⟨2, 0⟩, ⟨2, 1⟩, ⟨1, 1⟩] 3 (by decide) (by decide)

/-- C12: for a target `t ≥ |c|`, `simplifyContour c t` returns `c` unchanged. -/
theorem simplifyContour_noop (c : List point2i) (t : Nat) (h : c.length ≤ t) :
    simplifyContour c t = Except.ok c := by
  unfold simplifyContour simplifyContourWith
  cases c with
  | nil => simp
  | cons a l =>
    have ht : t ≠ 0 := by
      simp only [List.length_cons] at h
      omega
    simp only [List.isEmpty_cons, Bool.false_eq_true, or_false]
    rw [if_neg ht, if_pos h]

/-- C12, at the contour of the test: the 16-point perimeter with target 16. -/
theorem simplifyContour_noop_witness :
    simplifyContour (makeRectContour ⟨1, 1⟩ ⟨6, 6⟩) 16
      = Except.ok (makeRectContour ⟨1, 1⟩ ⟨6, 6⟩) :=
  simplifyContour_noop (makeRectContour ⟨1, 1⟩ ⟨6, 6⟩) 16 (by decide)

/-! ## The corner indices of the splitter -/

theorem mem_iff_getD (c : List point2i) (p : point2i) :
    p ∈ c ↔ ∃ i, i < c.length ∧ c.getD i default = p := by
  constructor
  · intro h
    obtain ⟨i, hi, rfl⟩ := List.getElem_of_mem h
    exact ⟨i, hi, by rw [List.getD_eq_getElem?_getD, List.getElem?_eq_getElem hi]; rfl⟩
  · rintro ⟨i, hi, rfl⟩
    exact getD_mem_of_lt c i hi

theorem findCornerIndex_spec (c : List point2i) (p : point2i) :
    (findCornerIndex c p = none ∧ p ∉ c) ∨
    ∃ i, findCornerIndex c p = some i ∧ IsFirstIndex c p i := by
  unfold findCornerIndex
  rcases find?_range_spec (fun (i : Nat) => decide (c.getD i default = p)) c.length with
    ⟨h, hall⟩ | ⟨i, h, hi, hp, hb⟩
  · left
    refine ⟨h, ?_⟩
    rw [mem_iff_getD]
    rintro ⟨i, hi, he⟩
    have := hall i hi
    rw [he] at this
    simp at this
  · right
    refine ⟨i, h, hi, by simpa using hp, ?_⟩
    intro j hj
    simpa using hb j hj

theorem isFirstIndex_unique (c : List point2i) (p : point2i) (i j : Nat)
    (hi : IsFirstIndex c p i) (hj : IsFirstIndex c p j) : i = j := by
  rcases Nat.lt_trichotomy i j with h | h | h
  · exact absurd hi.2.1 (hj.2.2 i h)
  · exact h
  · exact absurd hj.2.1 (hi.2.2 j h)

theorem cornerIndices_ok (c : List point2i) (corners : List point2i)
    (hall : ∀ p ∈ corners, p ∈ c) :
    ∃ found, cornerIndices c corners = Except.ok found ∧
      found.length = corners.length ∧
      ∀ i, i ∈ found ↔ ∃ p ∈ corners, IsFirstIndex c p i := by
  induction corners with
  | nil => exact ⟨[], rfl, rfl, by simp⟩
  | cons p ps ih =>
    obtain ⟨rest, hrest, hlen, hmem⟩ := ih (fun q hq => hall q (List.mem_cons_of_mem _ hq))
    rcases findCornerIndex_spec c p with ⟨_, hno⟩ | ⟨i, hi, hfirst⟩
    · exact absurd (hall p (List.mem_cons_self _ _)) hno
    · refine ⟨i :: rest, by simp [cornerIndices, hi, hrest], by simp [hlen], ?_⟩
      intro k
      simp only [List.mem_cons, hmem]
      constructor
      · rintro (rfl | ⟨q, hq, hk⟩)
        · exact ⟨p, Or.inl rfl, hfirst⟩
        · exact ⟨q, Or.inr hq, hk⟩
      · rintro ⟨q, rfl | hq, hk⟩
        · exact Or.inl (isFirstIndex_unique c q k i hk hfirst)
        · exact Or.inr ⟨q, hq, hk⟩

theorem cornerIndices_error (c : List point2i) (corners : List point2i)
    (hex : ∃ p ∈ corners, p ∉ c) :
    cornerIndices c corners = Except.error (Failure.assertion 918273650) := by
  induction corners with
  | nil => simp at hex
  | cons p ps ih =>
    rcases findCornerIndex_spec c p with ⟨hnone, _⟩ | ⟨i, hi, hfirst⟩
    · simp [cornerIndices, hnone]
    · have hp : p ∈ c := getD_mem_of_lt c i hfirst.1 |> fun h => hfirst.2.1 ▸ h
      obtain ⟨q, hq, hqc⟩ := hex
      rcases List.mem_cons.1 hq with rfl | hq'
      · exact absurd hp hqc
      · simp [cornerIndices, hi, ih ⟨q, hq', hqc⟩]

theorem stdUnique_spec : ∀ (l : List Nat), l.Sorted (· ≤ ·) →
    (stdUnique l).Sorted (· < ·) ∧ (∀ i, i ∈ stdUnique l ↔ i ∈ l)
  | [], _ => by simp [stdUnique]
  | [a], _ => by simp [stdUnique]
  | a :: b :: r, h => by
    have hs : (b :: r).Sorted (· ≤ ·) := h.of_cons
    obtain ⟨ih1, ih2⟩ := stdUnique_spec (b :: r) hs
    have hab : a ≤ b := List.rel_of_sorted_cons h b (List.mem_cons_self _ _)
    unfold stdUnique
    by_cases e : a = b
    · rw [if_pos e]
      refine ⟨ih1, ?_⟩
      intro i
      rw [ih2 i]
      subst e
      simp
    · rw [if_neg e]
      constructor
      · rw [List.sorted_cons]
        refine ⟨?_, ih1⟩
        intro x hx
        have hx' := (ih2 x).1 hx
        have : b ≤ x := by
          rcases List.mem_cons.1 hx' with rfl | hxr
          · exact le_refl _
          · exact List.rel_of_sorted_cons hs x hxr
        omega
      · intro i
        simp only [List.mem_cons, ih2 i]

/-! ## The sides of the splitter are cyclic arcs -/

theorem contourPart_eq_cyclicArc (c : List point2i) (i j : Nat) (hi : i < c.length)
    (hj : j < c.length) (hij : i ≠ j) : contourPart c c.length i j = cyclicArc c i j := by
  unfold contourPart cyclicArc
  by_cases h : i < j
  · rw [if_pos h]
    have hL : ((((j : Int) - (i : Int)) % (c.length : Int)).toNat + 1) = (j - i) + 1 := by
      have : ((j : Int) - (i : Int)) % (c.length : Int) = ((j - i : Nat) : Int) := by
        rw [Int.emod_eq_of_lt (by omega) (by omega)]; omega
      rw [this]; simp
    rw [hL, List.range_succ_eq_map, List.map_cons, List.map_map]
    simp only [List.singleton_append, Nat.add_zero]
    congr 1
    · rw [Nat.mod_eq_of_lt hi]
    · rw [List.range'_eq_map_range, List.map_map]
      apply List.map_congr_left
      intro s hs
      have := List.mem_range.1 hs
      simp only [Function.comp]
      rw [Nat.mod_eq_of_lt (by omega)]
      congr 1; omega
  · rw [if_neg h]
    have hji : j < i := by omega
    have hL : ((((j : Int) - (i : Int)) % (c.length : Int)).toNat + 1)
        = (c.length - i) + (j + 1) := by
      have : ((j : Int) - (i : Int)) % (c.length : Int) = ((j + c.length - i : Nat) : Int) := by
        rw [← Int.add_emod_self, Int.emod_eq_of_lt (by omega) (by omega)]; omega
      rw [this]; simp; omega
    rw [hL, List.range_add (c.length - i) (j + 1), List.map_append, List.map_map]
    have h1 : (List.range (c.length - i)).map (fun (s : Nat) => c.getD ((i + s) % c.length) default)
        = [c.getD i default] ++ (List.range' (i + 1) (c.length - (i + 1))).map
            (fun (t : Nat) => c.getD t default) := by
      have : c.length - i = (c.length - (i + 1)) + 1 := by omega
      rw [this, List.range_succ_eq_map, List.map_cons, List.map_map]
      simp only [List.singleton_append, Nat.add_zero]
      congr 1
      · rw [Nat.mod_eq_of_lt hi]
      · rw [List.range'_eq_map_range, List.map_map]
        apply List.map_congr_left
        intro s hs
        have := List.mem_range.1 hs
        simp only [Function.comp]
        rw [Nat.mod_eq_of_lt (by omega)]
        congr 1; omega
    rw [h1, List.append_assoc]
    congr 2
    apply List.map_congr_left
    intro s hs
    have := List.mem_range.1 hs
    simp only [Function.comp]
    congr 1
    have : i + (c.length - i + s) = s + c.length := by omega
    rw [this, Nat.add_mod_right, Nat.mod_eq_of_lt (by omega)]

theorem sorted_lt_ext (A B : List Nat) (hA : A.Sorted (· < ·)) (hB : B.Sorted (· < ·))
    (h : ∀ i, i ∈ A ↔ i ∈ B) : A = B :=
  List.eq_of_perm_of_sorted ((List.perm_ext_iff_of_nodup hA.nodup hB.nodup).2 h) hA hB

theorem sorted_getD_lt (I : List Nat) (hI : I.Sorted (· < ·)) (k l : Nat) (hkl : k < l)
    (hl : l < I.length) : I.getD k 0 < I.getD l 0 := by
  have hk : k < I.length := by omega
  rw [List.getD_eq_getElem?_getD, List.getD_eq_getElem?_getD, List.getElem?_eq_getElem hk,
    List.getElem?_eq_getElem hl]
  simp only [Option.getD_some]
  exact List.pairwise_iff_get.1 hI ⟨k, hk⟩ ⟨l, hl⟩ hkl

theorem getD_mem {α : Type} (l : List α) (i : Nat) (d : α) (hi : i < l.length) :
    l.getD i d ∈ l := by
  rw [List.getD_eq_getElem?_getD, List.getElem?_eq_getElem hi]
  exact List.getElem_mem hi

theorem splitContourByCorners_spec (c corners : List point2i) (hc : c ≠ [])
    (hcorners : corners ≠ []) (hall : ∀ p ∈ corners, p ∈ c) :
    ∃ I, IsCornerIndexList c corners I ∧
      (I.length < 2 → splitContourByCorners c corners
          = Except.error (Failure.assertion 918273651)) ∧
      (2 ≤ I.length → splitContourByCorners c corners = Except.ok (arcsOf c I)) := by
  obtain ⟨found, hfound, _, hmem⟩ := cornerIndices_ok c corners hall
  obtain ⟨hs, hm⟩ := stdUnique_spec (found.insertionSort (· ≤ ·))
    (List.sorted_insertionSort (· ≤ ·) found)
  have hmem' : ∀ i, i ∈ stdUnique (found.insertionSort (· ≤ ·)) ↔
      ∃ p ∈ corners, IsFirstIndex c p i := by
    intro i
    rw [hm i, (List.perm_insertionSort (· ≤ ·) found).mem_iff, hmem i]
  refine ⟨stdUnique (found.insertionSort (· ≤ ·)), ⟨hs, hmem'⟩, ?_, ?_⟩
  · intro hlt
    unfold splitContourByCorners
    have h1 : c.isEmpty = false := by cases c <;> simp_all
    have h2 : corners.isEmpty = false := by cases corners <;> simp_all
    simp only [h1, h2, hfound, Bool.false_eq_true, if_false]
    rw [if_pos hlt]
  · intro hge
    unfold splitContourByCorners
    have h1 : c.isEmpty = false := by cases c <;> simp_all
    have h2 : corners.isEmpty = false := by cases corners <;> simp_all
    simp only [h1, h2, hfound, Bool.false_eq_true, if_false]
    rw [if_neg (by omega)]
    unfold arcsOf
    congr 1
    apply List.map_congr_left
    intro k hk
    have hk := List.mem_range.1 hk
    set I := stdUnique (found.insertionSort (· ≤ ·)) with hIdef
    have hk2 : (k + 1) % I.length < I.length := Nat.mod_lt _ (by omega)
    have hb : ∀ t, t < I.length → I.getD t 0 < c.length := by
      intro t ht
      obtain ⟨p, _, hp⟩ := (hmem' _).1 (getD_mem I t 0 ht)
      exact hp.1
    apply contourPart_eq_cyclicArc c _ _ (hb k hk) (hb _ hk2)
    by_cases hlast : k + 1 < I.length
    · rw [Nat.mod_eq_of_lt hlast]
      exact Nat.ne_of_lt (sorted_getD_lt I hs k (k + 1) (by omega) hlast)
    · have : k + 1 = I.length := by omega
      rw [this, Nat.mod_self]
      exact Nat.ne_of_gt (sorted_getD_lt I hs 0 k (by omega) hk)

theorem cyclicArc_length (c : List point2i) (i j : Nat) :
    (cyclicArc c i j).length = (((j : Int) - (i : Int)) % (c.length : Int)).toNat + 1 := by
  simp [cyclicArc]

theorem cyclicArc_head (c : List point2i) (i j : Nat) (hi : i < c.length) :
    (cyclicArc c i j).head? = some (c.getD i default) := by
  unfold cyclicArc
  rw [List.range_succ_eq_map, List.map_cons, List.head?_cons, Nat.add_zero, Nat.mod_eq_of_lt hi]

theorem cyclicArc_getLast (c : List point2i) (i j : Nat) (hi : i < c.length)
    (hj : j < c.length) : (cyclicArc c i j).getLast? = some (c.getD j default) := by
  unfold cyclicArc
  rw [List.range_succ, List.map_append, List.map_singleton, List.getLast?_concat]
  congr 2
  by_cases h : i ≤ j
  · have : ((j : Int) - (i : Int)) % (c.length : Int) = ((j - i : Nat) : Int) := by
      rw [Int.emod_eq_of_lt (by omega) (by omega)]; omega
    rw [this, Int.toNat_ofNat, Nat.add_sub_cancel' h, Nat.mod_eq_of_lt hj]
  · have : ((j : Int) - (i : Int)) % (c.length : Int) = ((j + c.length - i : Nat) : Int) := by
      rw [← Int.add_emod_self, Int.emod_eq_of_lt (by omega) (by omega)]; omega
    rw [this, Int.toNat_ofNat]
    have : i + (j + c.length - i) = j + c.length := by omega
    rw [this, Nat.add_mod_right, Nat.mod_eq_of_lt hj]

theorem arcsOf_getD (c : List point2i) (I : List Nat) (k : Nat) (hk : k < I.length) :
    (arcsOf c I).getD k [] = cyclicArc c (I.getD k 0) (I.getD ((k + 1) % I.length) 0) := by
  unfold arcsOf
  rw [List.getD_eq_getElem?_getD, List.getElem?_map, List.getElem?_range hk]
  rfl

/-- C14: for a non-empty sequence `c` of length `n` and a non-empty corner list whose points
all occur in `c`, let `I = [i_0 < i_1 < ... < i_(m-1)]` be the strictly increasing list of
the first-occurrence indices of the corners, with `m >= 2`. Then `splitContourByCorners`
returns exactly `m` sides, and side `k` is the inclusive cyclic arc
`[c[(i_k + s) mod n] for s = 0 .. ((i_((k+1) mod m) - i_k) mod n)]`; it starts at
`c[i_k]` and ends at `c[i_((k+1) mod m)]`. -/
theorem splitContourByCorners_sides (c corners : List point2i) (I : List Nat)
    (hc : c ≠ []) (hcorners : corners ≠ []) (hall : ∀ p ∈ corners, p ∈ c)
    (hsorted : I.Sorted (· < ·))
    (hmem : ∀ i, i ∈ I ↔ ∃ p ∈ corners, IsFirstIndex c p i) (hm : 2 ≤ I.length) :
    ∃ sides, splitContourByCorners c corners = Except.ok sides ∧ sides.length = I.length ∧
      ∀ k, k < I.length →
        sides.getD k [] =
          (List.range ((((I.getD ((k + 1) % I.length) 0 : Int) - (I.getD k 0 : Int))
              % (c.length : Int)).toNat + 1)).map
            (fun (s : Nat) => c.getD ((I.getD k 0 + s) % c.length) default) ∧
        (sides.getD k []).head? = some (c.getD (I.getD k 0) default) ∧
        (sides.getD k []).getLast? = some (c.getD (I.getD ((k + 1) % I.length) 0) default) := by
  obtain ⟨J, ⟨hJs, hJm⟩, _, hok⟩ := splitContourByCorners_spec c corners hc hcorners hall
  have hJI : J = I := sorted_lt_ext J I hJs hsorted (fun i => by rw [hJm i, hmem i])
  subst hJI
  refine ⟨arcsOf c J, hok hm, by simp [arcsOf], ?_⟩
  intro k hk
  have hb : ∀ t, t < J.length → J.getD t 0 < c.length := by
    intro t ht
    obtain ⟨p, _, hp⟩ := (hmem _).1 (getD_mem J t 0 ht)
    exact hp.1
  have hk2 : (k + 1) % J.length < J.length := Nat.mod_lt _ (by omega)
  rw [arcsOf_getD c J k hk]
  exact ⟨rfl, cyclicArc_head c _ _ (hb k hk), cyclicArc_getLast c _ _ (hb k hk) (hb _ hk2)⟩

theorem rect_corner_indices :
    ∀ i, i ∈ [0, 4, 8, 12] ↔ ∃ p ∈ [(⟨2, 3⟩ : point2i), ⟨6, 3⟩, ⟨6, 7⟩, ⟨2, 7⟩],
      IsFirstIndex (makeRectContour ⟨2, 3⟩ ⟨7, 8⟩) p i := by
  intro i
  constructor
  · intro hi
    simp only [List.mem_cons, List.mem_singleton, List.not_mem_nil, or_false] at hi
    rcases hi with rfl | rfl | rfl | rfl
    · exact ⟨⟨2, 3⟩, by decide, by decide⟩
    · exact ⟨⟨6, 3⟩, by decide, by decide⟩
    · exact ⟨⟨6, 7⟩, by decide, by decide⟩
    · exact ⟨⟨2, 7⟩, by decide, by decide⟩
  · rintro ⟨p, hp, hi⟩
    simp only [List.mem_cons, List.mem_singleton, List.not_mem_nil, or_false] at hp
    rcases hp with rfl | rfl | rfl | rfl
    · rw [isFirstIndex_unique _ _ i 0 hi (by decide)]; decide
    · rw [isFirstIndex_unique _ _ i 4 hi (by decide)]; decide
    · rw [isFirstIndex_unique _ _ i 8 hi (by decide)]; decide
    · rw [isFirstIndex_unique _ _ i 12 hi (by decide)]; decide

/-- C14, at the contour of the test: the 16-point perimeter of the rectangle from (2, 3) to
(7, 8) exclusive, split at its four corners, gives 4 sides of 5 points each. -/
theorem splitContourByCorners_sides_witness :
    ∃ sides, splitContourByCorners (makeRectContour ⟨2, 3⟩ ⟨7, 8⟩)
        [⟨2, 3⟩, ⟨6, 3⟩, ⟨6, 7⟩, ⟨2, 7⟩] = Except.ok sides ∧ sides.length = 4 ∧
      ∀ k, k < 4 → (sides.getD k []).length = 5 := by
  obtain ⟨sides, hok, hlen, hsides⟩ := splitContourByCorners_sides
    (makeRectContour ⟨2, 3⟩ ⟨7, 8⟩) [⟨2, 3⟩, ⟨6, 3⟩, ⟨6, 7⟩, ⟨2, 7⟩] [0, 4, 8, 12]
    (by decide) (by decide) (by decide) (by decide) rect_corner_indices (by decide)
  refine ⟨sides, hok, hlen, ?_⟩
  intro k hk
  rw [(hsides k hk).1]
  interval_cases k <;> rfl

/-! ## Valid corner sets -/

theorem firstIndex_spec (c : List point2i) (p : point2i) (hp : p ∈ c) :
    IsFirstIndex c p (firstIndex c p) := by
  rcases findCornerIndex_spec c p with ⟨_, hno⟩ | ⟨i, hi, hfirst⟩
  · exact absurd hp hno
  · unfold firstIndex
    rw [hi]
    exact hfirst

theorem cornerIndexList_length (c corners : List point2i) (I : List Nat)
    (hall : ∀ p ∈ corners, p ∈ c) (hI : IsCornerIndexList c corners I) :
    I.length = corners.dedup.length := by
  have hnd : (corners.dedup.map (firstIndex c)).Nodup := by
    apply List.Nodup.map_on _ (List.nodup_dedup corners)
    intro p hp q hq hpq
    have h1 := firstIndex_spec c p (hall p (List.mem_dedup.1 hp))
    have h2 := firstIndex_spec c q (hall q (List.mem_dedup.1 hq))
    rw [← h1.2.1, ← h2.2.1, hpq]
  have hperm : I.Perm (corners.dedup.map (firstIndex c)) := by
    rw [List.perm_ext_iff_of_nodup hI.1.nodup hnd]
    intro i
    rw [hI.2 i, List.mem_map]
    constructor
    · rintro ⟨p, hp, hi⟩
      exact ⟨p, List.mem_dedup.2 hp,
        isFirstIndex_unique c p _ _ (firstIndex_spec c p (hall p hp)) hi⟩
    · rintro ⟨p, hp, rfl⟩
      have hp' := List.mem_dedup.1 hp
      exact ⟨p, hp', firstIndex_spec c p (hall p hp')⟩
  rw [hperm.length_eq, List.length_map]

theorem splitContourByCorners_valid (c corners : List point2i)
    (hall : ∀ p ∈ corners, p ∈ c) (h2 : 2 ≤ corners.dedup.length) :
    ∃ I, IsCornerIndexList c corners I ∧ I.length = corners.dedup.length ∧
      (∀ i ∈ I, i < c.length) ∧
      splitContourByCorners c corners = Except.ok (arcsOf c I) := by
  have hcorners : corners ≠ [] := by
    rintro rfl
    simp at h2
  have hc : c ≠ [] := by
    rintro rfl
    cases corners with
    | nil => exact hcorners rfl
    | cons p ps => exact absurd (hall p (List.mem_cons_self _ _)) (List.not_mem_nil _)
  obtain ⟨I, hI, _, hok⟩ := splitContourByCorners_spec c corners hc hcorners hall
  have hlen := cornerIndexList_length c corners I hall hI
  refine ⟨I, hI, hlen, ?_, hok (by omega)⟩
  intro i hi
  obtain ⟨p, _, hp⟩ := (hI.2 i).1 hi
  exact hp.1

theorem cyclicArc_chain (R : point2i → point2i → Prop) (c : List point2i)
    (h : CycChain R c) (i j : Nat) (hc : c ≠ []) : List.Chain' R (cyclicArc c i j) := by
  unfold cyclicArc
  have hn : 0 < c.length := List.length_pos.2 hc
  generalize (((j : Int) - (i : Int)) % (c.length : Int)).toNat = L
  induction L with
  | zero =>
    rw [List.range_succ, List.range_zero, List.nil_append, List.map_singleton]
    exact List.chain'_singleton _
  | succ L ih =>
    rw [List.range_succ, List.map_append, List.map_singleton]
    rw [List.range_succ, List.map_append, List.map_singleton] at ih ⊢
    rw [List.append_assoc, List.singleton_append, List.chain'_split]
    refine ⟨ih, ?_⟩
    simp only [List.chain'_cons, List.chain'_singleton, and_true]
    have := cycChain_index R c h ((i + L) % c.length) (Nat.mod_lt _ hn)
    rw [Nat.mod_add_mod] at this
    exact this

/-- C17: if every cyclically consecutive pair of points of `c` (the pair last, first
included) is an 8-neighbour pair and the corner set is valid (every corner occurs in `c`,
at least two distinct corners), then `splitContourByCorners` returns sides in each of which
every two consecutive points are 8-neighbours. -/
theorem splitContourByCorners_sides_adjacent (c corners : List point2i)
    (hadj : CycChain Adjacent8 c) (hall : ∀ p ∈ corners, p ∈ c)
    (h2 : 2 ≤ corners.dedup.length) :
    ∃ sides, splitContourByCorners c corners = Except.ok sides ∧
      ∀ side ∈ sides, List.Chain' Adjacent8 side := by
  obtain ⟨I, _, _, _, hok⟩ := splitContourByCorners_valid c corners hall h2
  refine ⟨arcsOf c I, hok, ?_⟩
  intro side hside
  have hc : c ≠ [] := by
    rintro rfl
    cases corners with
    | nil => simp at h2
    | cons p ps => exact absurd (hall p (List.mem_cons_self _ _)) (List.not_mem_nil _)
  unfold arcsOf at hside
  obtain ⟨k, _, rfl⟩ := List.mem_map.1 hside
  exact cyclicArc_chain Adjacent8 c hadj _ _ hc

theorem rect_cycChain : CycChain Adjacent8 (makeRectContour ⟨2, 3⟩ ⟨7, 8⟩) := by
  unfold CycChain
  rw [show makeRectContour ⟨2, 3⟩ ⟨7, 8⟩ ++ (makeRectContour ⟨2, 3⟩ ⟨7, 8⟩).take 1 =
    [⟨2, 3⟩, ⟨3, 3⟩, ⟨4, 3⟩, ⟨5, 3⟩, ⟨6, 3⟩, ⟨6, 4⟩, ⟨6, 5⟩, ⟨6, 6⟩, ⟨6, 7⟩, ⟨5, 7⟩, ⟨4, 7⟩,
      ⟨3, 7⟩, ⟨2, 7⟩, ⟨2, 6⟩, ⟨2, 5⟩, ⟨2, 4⟩, ⟨2, 3⟩] from by decide]
  simp only [List.chain'_cons, List.chain'_singleton, and_true]
  decide

/-- C17, at the contour of the test: the sides of the 16-point rectangle perimeter. -/
theorem splitContourByCorners_sides_adjacent_witness :
    ∃ sides, splitContourByCorners (makeRectContour ⟨2, 3⟩ ⟨7, 8⟩)
        [⟨2, 3⟩, ⟨6, 3⟩, ⟨6, 7⟩, ⟨2, 7⟩] = Except.ok sides ∧
      ∀ side ∈ sides, List.Chain' Adjacent8 side :=
  splitContourByCorners_sides_adjacent (makeRectContour ⟨2, 3⟩ ⟨7, 8⟩)
    [⟨2, 3⟩, ⟨6, 3⟩, ⟨6, 7⟩, ⟨2, 7⟩] rect_cycChain (by decide) (by decide)

/-! ## The pipeline: simplify, then split -/

theorem simplifyContourWith_sublist (costf : point2i → point2i → point2i → Cost)
    (c : List point2i) (t : Nat) (h0 : 0 < t) (hle : t ≤ c.length) :
    ∃ r, simplifyContourWith costf c t = Except.ok r ∧ r.length = t ∧ r.Sublist c := by
  rcases Nat.lt_or_ge t c.length with hlt | hge
  · obtain ⟨A, hsub, hlen, hres⟩ := simplifyContourWith_spec costf c t h0 hlt
    refine ⟨_, hres, by simp [hlen], ?_⟩
    have := hsub.map (fun (i : Nat) => c.getD i default)
    rw [map_getD_range] at this
    exact this
  · refine ⟨c, ?_, by omega, List.Sublist.refl c⟩
    unfold simplifyContourWith
    cases c with
    | nil => simp
    | cons a l =>
      simp only [List.isEmpty_cons, Bool.false_eq_true, or_false]
      rw [if_neg (by omega), if_pos hge]

/-- C18: for a contour `c` of pairwise distinct points, `k >= 2` and `|c| >= k`,
`simplifyContour c k` returns exactly `k` points and `splitContourByCorners` of `c` by these
points succeeds with exactly `k` sides; for `k = 4` these are the two assertions of the
pipeline in `main`. -/
theorem splitContourByCorners_of_simplifyContour (c : List point2i) (k : Nat)
    (hnd : c.Nodup) (hk : 2 ≤ k) (hlen : k ≤ c.length) :
    ∃ corners sides, simplifyContour c k = Except.ok corners ∧ corners.length = k ∧
      splitContourByCorners c corners = Except.ok sides ∧ sides.length = k := by
  obtain ⟨r, hres, hrlen, hsub⟩ :=
    simplifyContourWith_sublist dist2_point_to_line c k (by omega) hlen
  have hrnd : r.Nodup := hnd.sublist hsub
  have hded : r.dedup = r := List.Nodup.dedup hrnd
  obtain ⟨I, _, hI, _, hok⟩ := splitContourByCorners_valid c r
    (fun p hp => hsub.subset hp) (by rw [hded]; omega)
  refine ⟨r, arcsOf c I, hres, hrlen, hok, ?_⟩
  rw [hded] at hI
  simp [arcsOf, hI, hrlen]

/-- C18, at the contour of the test: the 16-point rectangle perimeter with `k = 4`. -/
theorem splitContourByCorners_of_simplifyContour_witness :
    ∃ corners sides, simplifyContour (makeRectContour ⟨2, 3⟩ ⟨7, 8⟩) 4 = Except.ok corners ∧
      corners.length = 4 ∧
      splitContourByCorners (makeRectContour ⟨2, 3⟩ ⟨7, 8⟩) corners = Except.ok sides ∧
      sides.length = 4 :=
  splitContourByCorners_of_simplifyContour (makeRectContour ⟨2, 3⟩ ⟨7, 8⟩) 4
    (by decide) (by decide) (by decide)

/-! ## When the splitter fails -/

theorem splitContourByCorners_missing (c corners : List point2i) (hc : c ≠ [])
    (hex : ∃ p ∈ corners, p ∉ c) :
    splitContourByCorners c corners = Except.error (Failure.assertion 918273650) := by
  have hcorners : corners ≠ [] := by
    rintro rfl
    simp at hex
  unfold splitContourByCorners
  have h1 : c.isEmpty = false := by cases c <;> simp_all
  have h2 : corners.isEmpty = false := by cases corners <;> simp_all
  simp only [h1, h2, cornerIndices_error c corners hex, Bool.false_eq_true, if_false]

/-- C16, a case outside the claim: an empty contour is split into no sides although the
corner `(0, 0)` is not a point of it, and an empty corner list (fewer than two distinct
corners) gives the contour back as the only side; neither call fails. -/
theorem splitContourByCorners_empty_no_failure :
    ((∃ p ∈ [(⟨0, 0⟩ : point2i)], p ∉ ([] : List point2i)) ∧
      splitContourByCorners [] [⟨0, 0⟩] = Except.ok []) ∧
    (([] : List point2i).dedup.length < 2 ∧
      splitContourByCorners [⟨0, 0⟩, ⟨1, 0⟩] [] = Except.ok [[⟨0, 0⟩, ⟨1, 0⟩]]) :=
  ⟨⟨⟨⟨0, 0⟩, by simp, by simp⟩, rfl⟩, ⟨by decide, rfl⟩⟩

/-- C16, amended: an empty contour is split into no sides, and a non-empty contour with an
empty corner list is returned as the only side, both without failure. For a non-empty
contour and a non-empty corner list the call fails if and only if some corner is not a
point of the contour or the corners contain fewer than two distinct points: with assertion
918273650 in the first case and 918273651 in the second when all corners are found. A
failing call returns no sides. -/
theorem splitContourByCorners_fails_iff (c corners : List point2i) :
    (c = [] → splitContourByCorners c corners = Except.ok []) ∧
    (c ≠ [] → corners = [] → splitContourByCorners c corners = Except.ok [c]) ∧
    (c ≠ [] → corners ≠ [] →
      ((∃ e, splitContourByCorners c corners = Except.error e) ↔
        ((∃ p ∈ corners, p ∉ c) ∨ corners.dedup.length < 2)) ∧
      ((∃ p ∈ corners, p ∉ c) →
        splitContourByCorners c corners = Except.error (Failure.assertion 918273650)) ∧
      ((∀ p ∈ corners, p ∈ c) → corners.dedup.length < 2 →
        splitContourByCorners c corners = Except.error (Failure.assertion 918273651)) ∧
      ((∀ p ∈ corners, p ∈ c) → 2 ≤ corners.dedup.length →
        ∃ sides, splitContourByCorners c corners = Except.ok sides)) := by
  refine ⟨?_, ?_, ?_⟩
  · rintro rfl
    rfl
  · rintro hc rfl
    cases c with
    | nil => exact absurd rfl hc
    | cons a l => rfl
  · intro hc hcorners
    have hsmall : (∀ p ∈ corners, p ∈ c) → corners.dedup.length < 2 →
        splitContourByCorners c corners = Except.error (Failure.assertion 918273651) := by
      intro hall hlt
      obtain ⟨I, hI, herr, _⟩ := splitContourByCorners_spec c corners hc hcorners hall
      exact herr (by rw [cornerIndexList_length c corners I hall hI]; exact hlt)
    have hbig : (∀ p ∈ corners, p ∈ c) → 2 ≤ corners.dedup.length →
        ∃ sides, splitContourByCorners c corners = Except.ok sides := by
      intro hall hge
      obtain ⟨I, _, _, _, hok⟩ := splitContourByCorners_valid c corners hall hge
      exact ⟨_, hok⟩
    refine ⟨?_, splitContourByCorners_missing c corners hc, hsmall, hbig⟩
    constructor
    · rintro ⟨e, he⟩
      by_contra hcon
      rw [not_or] at hcon
      have hall : ∀ p ∈ corners, p ∈ c := by
        intro p hp
        by_contra hpc
        exact hcon.1 ⟨p, hp, hpc⟩
      obtain ⟨sides, hs⟩ := hbig hall (by omega)
      rw [hs] at he
      cases he
    · rintro (hex | hlt)
      · exact ⟨_, splitContourByCorners_missing c corners hc hex⟩
      · by_cases hall : ∀ p ∈ corners, p ∈ c
        · exact ⟨_, hsmall hall hlt⟩
        · refine ⟨_, splitContourByCorners_missing c corners hc ?_⟩
          by_contra hcon
          apply hall
          intro p hp
          by_contra hpc
          exact hcon ⟨p, hp, hpc⟩

/-- C16, amended, at concrete inputs: a corner that is not a point of the contour, and a
corner list with one distinct point. -/
theorem splitContourByCorners_fails_iff_witness :
    splitContourByCorners [⟨0, 0⟩, ⟨1, 0⟩, ⟨2, 0⟩] [⟨1, 0⟩, ⟨5, 5⟩]
        = Except.error (Failure.assertion 918273650) ∧
    splitContourByCorners [⟨0, 0⟩, ⟨1, 0⟩, ⟨2, 0⟩] [⟨1, 0⟩, ⟨1, 0⟩]
        = Except.error (Failure.assertion 918273651) :=
  ⟨(splitContourByCorners_fails_iff [⟨0, 0⟩, ⟨1, 0⟩, ⟨2, 0⟩] [⟨1, 0⟩, ⟨5, 5⟩]).2.2
      (by decide) (by decide) |>.2.1 ⟨⟨5, 5⟩, by decide, by decide⟩,
   (splitContourByCorners_fails_iff [⟨0, 0⟩, ⟨1, 0⟩, ⟨2, 0⟩] [⟨1, 0⟩, ⟨1, 0⟩]).2.2
      (by decide) (by decide) |>.2.2.1 (by decide) (by decide)⟩

/-! ## Joining the sides -/

theorem contourSeg_append (c : List point2i) (a b d : Nat) (hab : a ≤ b) (hbd : b ≤ d) :
    contourSeg c a b ++ contourSeg c b d = contourSeg c a d := by
  unfold contourSeg
  rw [← List.map_append]
  congr 1
  have h2 : d - a = (d - b) + (b - a) := by omega
  rw [h2, ← List.range'_append_1, Nat.add_sub_cancel' hab]

theorem contourSeg_drop (c : List point2i) (a : Nat) : contourSeg c a c.length = c.drop a := by
  unfold contourSeg
  apply List.ext_getElem (by simp)
  intro i h1 h2
  simp only [List.length_map, List.length_range'] at h1
  simp only [List.getElem_map, List.getElem_range', List.getElem_drop, one_mul]
  rw [List.getD_eq_getElem?_getD, List.getElem?_eq_getElem (by omega)]
  rfl

theorem contourSeg_take (c : List point2i) (b : Nat) (hb : b ≤ c.length) :
    contourSeg c 0 b = c.take b := by
  unfold contourSeg
  apply List.ext_getElem (by simp [hb])
  intro i h1 h2
  simp only [List.length_map, List.length_range'] at h1
  simp only [List.getElem_map, List.getElem_range', List.getElem_take, one_mul, Nat.zero_add]
  rw [List.getD_eq_getElem?_getD, List.getElem?_eq_getElem (by omega)]
  rfl

theorem cyclicArc_dropLast (c : List point2i) (i j : Nat) :
    (cyclicArc c i j).dropLast =
      (List.range (((j : Int) - (i : Int)) % (c.length : Int)).toNat).map
        (fun (s : Nat) => c.getD ((i + s) % c.length) default) := by
  unfold cyclicArc
  rw [List.range_succ, List.map_append, List.map_singleton, List.dropLast_concat]

theorem cyclicArc_dropLast_le (c : List point2i) (i j : Nat) (hij : i ≤ j)
    (hj : j < c.length) : (cyclicArc c i j).dropLast = contourSeg c i j := by
  rw [cyclicArc_dropLast]
  have : ((j : Int) - (i : Int)) % (c.length : Int) = ((j - i : Nat) : Int) := by
    rw [Int.emod_eq_of_lt (by omega) (by omega)]; omega
  rw [this, Int.toNat_ofNat]
  unfold contourSeg
  rw [List.range'_eq_map_range, List.map_map]
  apply List.map_congr_left
  intro s hs
  have := List.mem_range.1 hs
  simp only [Function.comp]
  rw [Nat.mod_eq_of_lt (by omega)]

theorem cyclicArc_dropLast_gt (c : List point2i) (i j : Nat) (hji : j < i)
    (hi : i < c.length) :
    (cyclicArc c i j).dropLast = contourSeg c i c.length ++ contourSeg c 0 j := by
  rw [cyclicArc_dropLast]
  have : ((j : Int) - (i : Int)) % (c.length : Int) = ((j + c.length - i : Nat) : Int) := by
    rw [← Int.add_emod_self, Int.emod_eq_of_lt (by omega) (by omega)]; omega
  rw [this, Int.toNat_ofNat]
  have hL : j + c.length - i = (c.length - i) + j := by omega
  rw [hL, List.range_add (c.length - i) j, List.map_append, List.map_map]
  unfold contourSeg
  congr 1
  · rw [List.range'_eq_map_range, List.map_map]
    apply List.map_congr_left
    intro s hs
    have := List.mem_range.1 hs
    simp only [Function.comp]
    rw [Nat.mod_eq_of_lt (by omega)]
  · rw [List.range'_eq_map_range, List.map_map]
    apply List.map_congr_left
    intro s hs
    have := List.mem_range.1 hs
    simp only [Function.comp, Nat.sub_zero, Nat.zero_add]
    congr 1
    have : i + (c.length - i + s) = s + c.length := by omega
    rw [this, Nat.add_mod_right, Nat.mod_eq_of_lt (by omega)]

theorem join_segs (c : List point2i) (I : List Nat) (hs : I.Sorted (· < ·)) (k : Nat)
    (hk : k < I.length) :
    ((List.range k).map (fun (j : Nat) =>
        contourSeg c (I.getD j 0) (I.getD (j + 1) 0))).flatten
      = contourSeg c (I.getD 0 0) (I.getD k 0) := by
  induction k with
  | zero => simp [contourSeg]
  | succ k ih =>
    rw [List.range_succ, List.map_append, List.flatten_append, ih (by omega)]
    simp only [List.map_singleton, List.flatten_cons, List.flatten_nil, List.append_nil]
    apply contourSeg_append
    · rcases Nat.eq_zero_or_pos k with rfl | hpos
      · exact le_refl _
      · exact Nat.le_of_lt (sorted_getD_lt I hs 0 k hpos (by omega))
    · exact Nat.le_of_lt (sorted_getD_lt I hs k (k + 1) (by omega) hk)

theorem joinSides_arcsOf (c : List point2i) (I : List Nat) (hs : I.Sorted (· < ·))
    (hb : ∀ i ∈ I, i < c.length) (hm : 2 ≤ I.length) :
    joinSides (arcsOf c I) = c.rotate (I.getD 0 0) := by
  obtain ⟨m, hmdef⟩ : ∃ m, I.length = m + 1 := ⟨I.length - 1, by omega⟩
  have hbd : ∀ t, t < I.length → I.getD t 0 < c.length := fun t ht => hb _ (getD_mem I t 0 ht)
  unfold joinSides arcsOf
  rw [List.map_map, hmdef, List.range_succ, List.map_append, List.flatten_append]
  have h1 : (List.range m).map (List.dropLast ∘ fun (k : Nat) =>
        cyclicArc c (I.getD k 0) (I.getD ((k + 1) % (m + 1)) 0))
      = (List.range m).map (fun (j : Nat) => contourSeg c (I.getD j 0) (I.getD (j + 1) 0)) := by
    apply List.map_congr_left
    intro k hk
    have hk := List.mem_range.1 hk
    simp only [Function.comp]
    rw [Nat.mod_eq_of_lt (by omega)]
    exact cyclicArc_dropLast_le c _ _
      (Nat.le_of_lt (sorted_getD_lt I hs k (k + 1) (by omega) (by omega))) (hbd _ (by omega))
  rw [h1, join_segs c I hs m (by omega)]
  simp only [List.map_singleton, List.flatten_cons, List.flatten_nil, List.append_nil,
    Function.comp, Nat.mod_self]
  rw [cyclicArc_dropLast_gt c _ _ (sorted_getD_lt I hs 0 m (by omega) (by omega))
    (hbd m (by omega)), ← List.append_assoc,
    contourSeg_append c _ _ _
      (Nat.le_of_lt (sorted_getD_lt I hs 0 m (by omega) (by omega)))
      (Nat.le_of_lt (hbd m (by omega))),
    contourSeg_drop, contourSeg_take c _ (Nat.le_of_lt (hbd 0 (by omega)))]
  exact (List.rotate_eq_drop_append_take (Nat.le_of_lt (hbd 0 (by omega)))).symm

theorem cornerIndexList_head (c corners : List point2i) (I : List Nat)
    (hI : IsCornerIndexList c corners I) (hm : 0 < I.length) :
    c.getD (I.getD 0 0) default ∈ corners ∧
      ∀ j, j < I.getD 0 0 → c.getD j default ∉ corners := by
  obtain ⟨p, hp, hfirst⟩ := (hI.2 _).1 (getD_mem I 0 0 hm)
  refine ⟨by rw [hfirst.2.1]; exact hp, ?_⟩
  intro j hj hmem
  by_cases hex : ∃ t, t < j ∧ c.getD t default = c.getD j default
  · -- the first position of the point `c[j]` is an entry of `I` below `I[0]`
    have hjlt : j < c.length := lt_trans hj hfirst.1
    have hq := firstIndex_spec c (c.getD j default) (getD_mem_of_lt c j hjlt)
    have hin : firstIndex c (c.getD j default) ∈ I := (hI.2 _).2 ⟨_, hmem, hq⟩
    have hle : firstIndex c (c.getD j default) ≤ j := by
      by_contra hgt
      exact hq.2.2 j (by omega) rfl
    obtain ⟨t, ht, het⟩ := List.getElem_of_mem hin
    have : I.getD 0 0 ≤ I.getD t 0 := by
      rcases Nat.eq_zero_or_pos t with rfl | hpos
      · exact le_refl _
      · exact Nat.le_of_lt (sorted_getD_lt I hI.1 0 t hpos ht)
    rw [List.getD_eq_getElem?_getD I t, List.getElem?_eq_getElem ht, Option.getD_some, het] at this
    omega
  · have hjlt : j < c.length := lt_trans hj hfirst.1
    have hfj : IsFirstIndex c (c.getD j default) j := by
      refine ⟨hjlt, rfl, ?_⟩
      intro t ht he
      exact hex ⟨t, ht, he⟩
    have hin : j ∈ I := (hI.2 _).2 ⟨_, hmem, hfj⟩
    obtain ⟨t, ht, het⟩ := List.getElem_of_mem hin
    have : I.getD 0 0 ≤ I.getD t 0 := by
      rcases Nat.eq_zero_or_pos t with rfl | hpos
      · exact le_refl _
      · exact Nat.le_of_lt (sorted_getD_lt I hI.1 0 t hpos ht)
    rw [List.getD_eq_getElem?_getD I t, List.getElem?_eq_getElem ht, Option.getD_some, het] at this
    omega

/-- C15, a case outside the claim: the square contour `(0,0), (1,0), (1,1), (0,1)` with the
valid corner set `(1,0), (0,1)` is split into two sides which, joined without their final
points, give `(1,0), (1,1), (0,1), (0,0)`: the contour started at its first corner, not
the contour itself. -/
theorem splitContourByCorners_join_rotated :
    (∀ p ∈ [(⟨1, 0⟩ : point2i), ⟨0, 1⟩], p ∈ [(⟨0, 0⟩ : point2i), ⟨1, 0⟩, ⟨1, 1⟩, ⟨0, 1⟩]) ∧
    2 ≤ [(⟨1, 0⟩ : point2i), ⟨0, 1⟩].dedup.length ∧
    ∃ sides, splitContourByCorners [⟨0, 0⟩, ⟨1, 0⟩, ⟨1, 1⟩, ⟨0, 1⟩] [⟨1, 0⟩, ⟨0, 1⟩]
        = Except.ok sides ∧
      joinSides sides = [⟨1, 0⟩, ⟨1, 1⟩, ⟨0, 1⟩, ⟨0, 0⟩] ∧
      joinSides sides ≠ [⟨0, 0⟩, ⟨1, 0⟩, ⟨1, 1⟩, ⟨0, 1⟩] :=
  ⟨by decide, by decide, _, rfl, by decide, by decide⟩

/-- C15, amended: for a contour `c` and a valid corner set (every corner occurs in `c`, at
least two distinct corners), the sides returned by `splitContourByCorners`, joined in order
after removing from each its final point, give `c` rotated left to its first corner point
`c[i0]` (no point before index `i0` is a corner); they reproduce `c` exactly when the first
point of `c` is a corner. -/
theorem splitContourByCorners_join (c corners : List point2i)
    (hall : ∀ p ∈ corners, p ∈ c) (h2 : 2 ≤ corners.dedup.length) :
    ∃ sides i0, splitContourByCorners c corners = Except.ok sides ∧
      i0 < c.length ∧ c.getD i0 default ∈ corners ∧
      (∀ j, j < i0 → c.getD j default ∉ corners) ∧
      joinSides sides = c.rotate i0 ∧
      (c.getD 0 default ∈ corners → joinSides sides = c) := by
  obtain ⟨I, hI, hlen, hb, hok⟩ := splitContourByCorners_valid c corners hall h2
  obtain ⟨hhead, hbefore⟩ := cornerIndexList_head c corners I hI (by omega)
  have hjoin := joinSides_arcsOf c I hI.1 hb (by omega)
  refine ⟨arcsOf c I, I.getD 0 0, hok, hb _ (getD_mem I 0 0 (by omega)), hhead, hbefore,
    hjoin, ?_⟩
  intro h0
  have hz : I.getD 0 0 = 0 := by
    by_contra hne
    exact hbefore 0 (by omega) h0
  rw [hjoin, hz, List.rotate_zero]

/-- C15, amended, at the contour of the test: the 16-point rectangle perimeter split at its
four corners. -/
theorem splitContourByCorners_join_witness :
    ∃ sides i0, splitContourByCorners (makeRectContour ⟨2, 3⟩ ⟨7, 8⟩)
        [⟨2, 3⟩, ⟨6, 3⟩, ⟨6, 7⟩, ⟨2, 7⟩] = Except.ok sides ∧
      i0 < (makeRectContour ⟨2, 3⟩ ⟨7, 8⟩).length ∧
      (makeRectContour ⟨2, 3⟩ ⟨7, 8⟩).getD i0 default
        ∈ [(⟨2, 3⟩ : point2i), ⟨6, 3⟩, ⟨6, 7⟩, ⟨2, 7⟩] ∧
      (∀ j, j < i0 → (makeRectContour ⟨2, 3⟩ ⟨7, 8⟩).getD j default
        ∉ [(⟨2, 3⟩ : point2i), ⟨6, 3⟩, ⟨6, 7⟩, ⟨2, 7⟩]) ∧
      joinSides sides = (makeRectContour ⟨2, 3⟩ ⟨7, 8⟩).rotate i0 ∧
      ((makeRectContour ⟨2, 3⟩ ⟨7, 8⟩).getD 0 default
          ∈ [(⟨2, 3⟩ : point2i), ⟨6, 3⟩, ⟨6, 7⟩, ⟨2, 7⟩] →
        joinSides sides = makeRectContour ⟨2, 3⟩ ⟨7, 8⟩) :=
  splitContourByCorners_join (makeRectContour ⟨2, 3⟩ ⟨7, 8⟩)
    [⟨2, 3⟩, ⟨6, 3⟩, ⟨6, 7⟩, ⟨2, 7⟩] (by decide) (by decide)

/-! ## The safety bound of the trace -/

theorem traceLoop_length (m : image8u) (p0 : point2i) (fuel : Nat) :
    ∀ (cur b : point2i) (contour : List point2i),
      (traceCloses m p0 fuel cur b = true →
        (traceLoop m p0 fuel cur b contour).length < contour.length + fuel) ∧
      (traceCloses m p0 fuel cur b = false →
        (traceLoop m p0 fuel cur b contour).length = contour.length + fuel) := by
  induction fuel with
  | zero =>
    intro cur b contour
    simp [traceCloses, traceLoop]
  | succ fuel ih =>
    intro cur b contour
    unfold traceCloses traceLoop
    simp only []
    by_cases h : (step m 4 cur b).1 = p0
    · simp [h]
    · simp only [h, if_false]
      obtain ⟨h1, h2⟩ := ih (step m 4 cur b).1 (step m 4 cur b).2
        (contour ++ [(step m 4 cur b).1])
      simp only [List.length_append, List.length_singleton] at h1 h2
      constructor
      · intro hc
        have := h1 hc
        omega
      · intro hc
        have := h2 hc
        omega

theorem closedTrace_iff (m : image8u) (h2 : 2 ≤ (tracedContour m).length) :
    (closedTrace m = true ↔ (tracedContour m).length < m.width * m.height + 8) ∧
    (closedTrace m = false → (tracedContour m).length = m.width * m.height + 8) := by
  obtain ⟨start, hstart, hmov, hs, htr⟩ := tracedContour_long m h2
  have hn : hasNeighbor m start = true := by
    by_contra hn
    rw [tracedContour_isolated m start hstart (by simpa using hn)] at h2
    simp at h2
  have hcl : closedTrace m = traceCloses m start (m.width * m.height + 8 - 2)
      (step m 4 start ⟨start.x - 1, start.y⟩).1 (step m 4 start ⟨start.x - 1, start.y⟩).2 := by
    simp [closedTrace, hstart, hn, hs]
  obtain ⟨h1, h0⟩ := traceLoop_length m start (m.width * m.height + 8 - 2)
    (step m 4 start ⟨start.x - 1, start.y⟩).1 (step m 4 start ⟨start.x - 1, start.y⟩).2
    [start, (step m 4 start ⟨start.x - 1, start.y⟩).1]
  rw [htr, normalised_length, hcl]
  unfold rawTrace
  simp only [List.length_cons, List.length_nil] at h1 h0
  refine ⟨⟨fun h => by have := h1 h; omega, ?_⟩, fun h => by have := h0 h; omega⟩
  intro hlt
  by_contra hc
  have := h0 (by simpa using hc)
  omega

set_option maxRecDepth 100000 in
/-- C19, refuted as stated: on the 12-by-1 all-foreground mask the trace collects
`12 * 1 + 8 = 20` points without the proposed next pixel being the start pixel; the call
does not fail but returns these 20 points, a sequence of more than 2 points that was not
closed by the trace returning to the start pixel. -/
theorem extractContour_returns_at_bound_on_hline12 :
    closedTrace (hline 12) = false ∧
    extractContour (hline 12) = some
      [⟨0, 0⟩, ⟨1, 0⟩, ⟨2, 0⟩, ⟨3, 0⟩, ⟨4, 0⟩, ⟨5, 0⟩, ⟨6, 0⟩, ⟨7, 0⟩, ⟨8, 0⟩, ⟨9, 0⟩, ⟨10, 0⟩,
        ⟨11, 0⟩, ⟨10, 0⟩, ⟨9, 0⟩, ⟨8, 0⟩, ⟨7, 0⟩, ⟨6, 0⟩, ⟨5, 0⟩, ⟨4, 0⟩, ⟨3, 0⟩] ∧
    ([⟨0, 0⟩, ⟨1, 0⟩, ⟨2, 0⟩, ⟨3, 0⟩, ⟨4, 0⟩, ⟨5, 0⟩, ⟨6, 0⟩, ⟨7, 0⟩, ⟨8, 0⟩, ⟨9, 0⟩, ⟨10, 0⟩,
        ⟨11, 0⟩, ⟨10, 0⟩, ⟨9, 0⟩, ⟨8, 0⟩, ⟨7, 0⟩, ⟨6, 0⟩, ⟨5, 0⟩, ⟨4, 0⟩, ⟨3, 0⟩] :
      List point2i).length = (hline 12).width * (hline 12).height + 8 :=
  ⟨by decide, by decide, by decide⟩

/-- C19, amended: `extractContour` has no failure at the safety bound. For every mask of
width `w` and height `h` the call returns a sequence; when it has 2 or more points, the
trace was closed by returning to the start pixel if and only if fewer than `w * h + 8`
points are returned, and when the trace reached the bound without the proposed next pixel
being the start pixel exactly the `w * h + 8` collected points are returned. -/
theorem extractContour_safety_bound (m : image8u) :
    ∃ c, extractContour m = some c ∧
      (2 ≤ c.length →
        (closedTrace m = true ↔ c.length < m.width * m.height + 8) ∧
        (closedTrace m = false → c.length = m.width * m.height + 8)) :=
  ⟨tracedContour m, extractContour_eq m, closedTrace_iff m⟩

set_option maxRecDepth 100000 in
/-- C19, amended, at a concrete mask: the 2-by-2 all-foreground mask. -/
theorem extractContour_safety_bound_witness :
    ∃ c, extractContour ⟨2, 2, [255, 255, 255, 255]⟩ = some c ∧
      (2 ≤ c.length →
        (closedTrace ⟨2, 2, [255, 255, 255, 255]⟩ = true ↔ c.length < 2 * 2 + 8) ∧
        (closedTrace ⟨2, 2, [255, 255, 255, 255]⟩ = false → c.length = 2 * 2 + 8)) :=
  extractContour_safety_bound ⟨2, 2, [255, 255, 255, 255]⟩

/-! ## Cyclic neighbours in the list of alive indices -/

theorem sorted_split_filter (L1 L2 : List Nat) (j : Nat)
    (hs : (L1 ++ j :: L2).Sorted (· < ·)) :
    (L1 ++ j :: L2).filter (fun (x : Nat) => decide (x < j)) = L1 ∧
    (L1 ++ j :: L2).filter (fun (x : Nat) => decide (j < x)) = L2 := by
  have hp := List.pairwise_append.1 hs
  obtain ⟨_, h2, h12⟩ := hp
  have hL1 : ∀ x ∈ L1, x < j := fun x hx => h12 x hx j (List.mem_cons_self _ _)
  have hL2 : ∀ y ∈ L2, j < y := fun y hy => List.rel_of_pairwise_cons h2 hy
  constructor
  · rw [List.filter_append, List.filter_cons]
    simp only [lt_self_iff_false, decide_False, Bool.false_eq_true, if_false]
    rw [List.filter_eq_self.2 (fun x hx => by simpa using hL1 x hx),
      List.filter_eq_nil_iff.2 (fun y hy => by have := hL2 y hy; simp; omega)]
    simp
  · rw [List.filter_append, List.filter_cons]
    simp only [lt_self_iff_false, decide_False, Bool.false_eq_true, if_false]
    rw [List.filter_eq_self.2 (fun y (hy : y ∈ L2) => by simpa using hL2 y hy),
      List.filter_eq_nil_iff.2 (fun x (hx : x ∈ L1) => by have := hL1 x hx; simp; omega)]
    simp

theorem cycChain_pred (R : Nat → Nat → Prop) (L1 L2 : List Nat) (i : Nat)
    (h : CycChain R (L1 ++ i :: L2)) :
    R ((L1.getLast?).getD (((i :: L2).getLast?).getD i)) i := by
  rcases List.eq_nil_or_concat L1 with rfl | ⟨L, z, rfl⟩
  all_goals try rw [List.concat_eq_append] at h ⊢
  · have hc : List.Chain' R ((i :: L2) ++ [i]) := by simpa [CycChain] using h
    rw [List.chain'_append] at hc
    obtain ⟨_, _, hc3⟩ := hc
    cases hl : (i :: L2).getLast? with
    | none => simp at hl
    | some z =>
      simp only [List.getLast?_nil, Option.getD_none, Option.getD_some]
      exact hc3 z hl i (by simp)
  · have hc : List.Chain' R ((L ++ [z]) ++ (i :: (L2 ++ (L ++ [z] ++ i :: L2).take 1))) := by
      simpa [CycChain] using h
    rw [List.chain'_append] at hc
    obtain ⟨_, _, hc3⟩ := hc
    simp only [List.concat_eq_append, List.getLast?_concat, Option.getD_some]
    exact hc3 z (by simp) i (by simp)

theorem cycChain_succ (R : Nat → Nat → Prop) (L1 L2 : List Nat) (i : Nat)
    (h : CycChain R (L1 ++ i :: L2)) :
    R i ((L2.head?).getD (((L1 ++ [i]).head?).getD i)) := by
  cases L2 with
  | cons y L2' =>
    have hc : List.Chain' R (L1 ++ i :: (y :: (L2' ++ (L1 ++ i :: y :: L2').take 1))) := by
      simpa [CycChain] using h
    rw [List.chain'_split, List.chain'_cons] at hc
    simp only [List.head?_cons, Option.getD_some]
    exact hc.2.1
  | nil =>
    have hc : List.Chain' R ((L1 ++ [i]) ++ (L1 ++ [i]).take 1) := by
      simpa [CycChain] using h
    rw [List.chain'_append] at hc
    obtain ⟨_, _, hc3⟩ := hc
    cases hl : (L1 ++ [i]).head? with
    | none => cases L1 <;> simp at hl
    | some w =>
      simp only [List.head?_nil, Option.getD_none, Option.getD_some]
      apply hc3 i (by simp) w
      cases L1 with
      | nil => simpa using hl
      | cons a t => simpa using hl

theorem linked_pred_succ (prev next : List Nat) (A : List Nat) (hs : A.Sorted (· < ·))
    (hc : CycChain (Linked prev next) A) (j : Nat) (hj : j ∈ A) :
    prev.getD j 0 = cyclicPred A j ∧ next.getD j 0 = cyclicSucc A j ∧
      cyclicPred A j ∈ A ∧ cyclicSucc A j ∈ A := by
  obtain ⟨L1, L2, rfl⟩ := List.append_of_mem hj
  obtain ⟨hf1, hf2⟩ := sorted_split_filter L1 L2 j hs
  have hp := cycChain_pred _ L1 L2 j hc
  have hn := cycChain_succ _ L1 L2 j hc
  have e1 : cyclicPred (L1 ++ j :: L2) j = (L1.getLast?).getD (((j :: L2).getLast?).getD j) := by
    unfold cyclicPred
    rw [hf1, List.getLast?_append]
    cases h : (j :: L2).getLast? with
    | none => simp at h
    | some z => simp
  have e2 : cyclicSucc (L1 ++ j :: L2) j = (L2.head?).getD (((L1 ++ [j]).head?).getD j) := by
    unfold cyclicSucc
    rw [hf2]
    cases L1 <;> simp
  rw [e1, e2]
  refine ⟨hp.2, hn.1, ?_, ?_⟩
  · rcases List.eq_nil_or_concat L1 with rfl | ⟨L, z, rfl⟩
    · cases hl : (j :: L2).getLast? with
      | none => simp at hl
      | some z =>
        simp only [List.getLast?_nil, Option.getD_none, Option.getD_some, List.nil_append]
        exact List.mem_of_mem_getLast? hl
    · simp [List.concat_eq_append]
  · cases L2 with
    | cons y L2' => simp
    | nil =>
      cases L1 with
      | nil => simp
      | cons a t => simp

/-! ## The order of the priority queue -/

theorem cost_lt_iff (a b : Cost) (ha : a.Proper) (hb : b.Proper) :
    a.lt b = true ↔ a.toRat < b.toRat := by
  obtain ⟨n1, d1, rfl, h1⟩ := ha
  obtain ⟨n2, d2, rfl, h2⟩ := hb
  have h1q : (0 : ℚ) < (d1 : ℚ) := by exact_mod_cast h1
  have h2q : (0 : ℚ) < (d2 : ℚ) := by exact_mod_cast h2
  simp only [Cost.lt, Cost.toRat, decide_eq_true_eq]
  rw [div_lt_div_iff₀ h1q h2q]
  exact_mod_cast Iff.rfl

theorem heapItem_gt_iff (x y : HeapItem) (hx : x.cost.Proper) (hy : y.cost.Proper) :
    x.gt y = true ↔
      (y.cost.toRat < x.cost.toRat ∨ (y.cost.toRat = x.cost.toRat ∧ y.idx < x.idx)) := by
  unfold HeapItem.gt Cost.ne
  have e1 := cost_lt_iff x.cost y.cost hx hy
  have e2 := cost_lt_iff y.cost x.cost hy hx
  by_cases h1 : x.cost.lt y.cost = true
  · have := e1.1 h1
    simp only [h1, Bool.true_or, if_true]
    constructor
    · intro h; exact Or.inl (e2.1 h)
    · rintro (h | ⟨h, _⟩)
      · exact absurd h (not_lt.2 (le_of_lt this))
      · rw [h] at this; exact absurd this (lt_irrefl _)
  · by_cases h2 : y.cost.lt x.cost = true
    · simp only [h2, Bool.or_true, if_true]
      exact iff_of_true trivial (Or.inl (e2.1 h2))
    · have n1 : ¬ x.cost.toRat < y.cost.toRat := fun h => h1 (e1.2 h)
      have n2 : ¬ y.cost.toRat < x.cost.toRat := fun h => h2 (e2.2 h)
      have heq : y.cost.toRat = x.cost.toRat := le_antisymm (not_lt.1 n1) (not_lt.1 n2)
      simp only [Bool.not_eq_true] at h1 h2
      simp only [h1, h2, Bool.or_self, Bool.false_eq_true, if_false, decide_eq_true_eq]
      constructor
      · intro h; exact Or.inr ⟨heq, h⟩
      · rintro (h | ⟨_, h⟩)
        · exact absurd h n2
        · exact h

theorem pqTop_min : ∀ (pq : List HeapItem), (∀ e ∈ pq, e.cost.Proper) →
    ∀ it, pqTop pq = some it → ∀ e ∈ pq,
      it.cost.toRat < e.cost.toRat ∨ (it.cost.toRat = e.cost.toRat ∧ it.idx ≤ e.idx)
  | [], _, it, h, _, _ => by simp [pqTop] at h
  | x :: xs, hp, it, h, e, he => by
    have hpx := hp x (List.mem_cons_self _ _)
    have hpxs : ∀ e ∈ xs, e.cost.Proper := fun e he => hp e (List.mem_cons_of_mem _ he)
    unfold pqTop at h
    cases hxs : pqTop xs with
    | none =>
      rw [hxs] at h
      simp only [Option.some.injEq] at h
      subst h
      have := pqTop_eq_none xs hxs
      subst this
      simp only [List.mem_singleton] at he
      subst he
      exact Or.inr ⟨rfl, le_refl _⟩
    | some y =>
      rw [hxs] at h
      simp only [] at h
      have ih := pqTop_min xs hpxs y hxs
      have hpy := hpxs y (pqTop_mem xs y hxs)
      have hg := heapItem_gt_iff x y hpx hpy
      by_cases hgt : x.gt y = true
      · rw [if_pos hgt, Option.some.injEq] at h
        subst h
        rcases List.mem_cons.1 he with rfl | he'
        · rcases hg.1 hgt with h1 | ⟨h1, h2⟩
          · exact Or.inl h1
          · exact Or.inr ⟨h1, le_of_lt h2⟩
        · exact ih e he'
      · rw [if_neg hgt, Option.some.injEq] at h
        subst h
        have hxy : x.cost.toRat < y.cost.toRat ∨
            (x.cost.toRat = y.cost.toRat ∧ x.idx ≤ y.idx) := by
          rcases lt_trichotomy x.cost.toRat y.cost.toRat with h1 | h1 | h1
          · exact Or.inl h1
          · refine Or.inr ⟨h1, ?_⟩
            by_contra hlt
            exact hgt (hg.2 (Or.inr ⟨h1.symm, by omega⟩))
          · exact absurd (hg.2 (Or.inl h1)) hgt
        rcases List.mem_cons.1 he with rfl | he'
        · exact Or.inr ⟨rfl, le_refl _⟩
        · rcases ih e he' with h1 | ⟨h1, h2⟩
          · rcases hxy with h3 | ⟨h3, _⟩
            · exact Or.inl (lt_trans h3 h1)
            · exact Or.inl (h3 ▸ h1)
          · rcases hxy with h3 | ⟨h3, h4⟩
            · exact Or.inl (h1 ▸ h3)
            · exact Or.inr ⟨h3.trans h1, le_trans h4 h2⟩

theorem naiveArgmin_spec (κ : Nat → ℚ) : ∀ (A : List Nat), A ≠ [] →
    ∃ i, naiveArgmin κ A = some i ∧ i ∈ A ∧
      ∀ j ∈ A, κ i < κ j ∨ (κ i = κ j ∧ i ≤ j)
  | [], h => absurd rfl h
  | i :: rest, _ => by
    unfold naiveArgmin
    cases rest with
    | nil =>
      refine ⟨i, by simp [naiveArgmin], by simp, ?_⟩
      intro j hj
      simp only [List.mem_singleton] at hj
      subst hj
      exact Or.inr ⟨rfl, le_refl _⟩
    | cons r rs =>
      obtain ⟨m, hm, hmem, hmin⟩ := naiveArgmin_spec κ (r :: rs) (by simp)
      rw [hm]
      simp only []
      by_cases hc : κ m < κ i ∨ (κ m = κ i ∧ m < i)
      · rw [if_pos hc]
        refine ⟨m, rfl, List.mem_cons_of_mem _ hmem, ?_⟩
        intro j hj
        rcases List.mem_cons.1 hj with rfl | hj'
        · rcases hc with h | ⟨h1, h2⟩
          · exact Or.inl h
          · exact Or.inr ⟨h1, le_of_lt h2⟩
        · exact hmin j hj'
      · rw [if_neg hc]
        have him : κ i < κ m ∨ (κ i = κ m ∧ i ≤ m) := by
          rcases lt_trichotomy (κ i) (κ m) with h1 | h1 | h1
          · exact Or.inl h1
          · refine Or.inr ⟨h1, ?_⟩
            by_contra hlt
            exact hc (Or.inr ⟨h1.symm, by omega⟩)
          · exact absurd (Or.inl h1) hc
        refine ⟨i, rfl, List.mem_cons_self _ _, ?_⟩
        intro j hj
        rcases List.mem_cons.1 hj with rfl | hj'
        · exact Or.inr ⟨rfl, le_refl _⟩
        · rcases hmin j hj' with h1 | ⟨h1, h2⟩
          · rcases him with h3 | ⟨h3, _⟩
            · exact Or.inl (lt_trans h3 h1)
            · exact Or.inl (h3 ▸ h1)
          · rcases him with h3 | ⟨h3, h4⟩
            · exact Or.inl (h1 ▸ h3)
            · exact Or.inr ⟨h3.trans h1, le_trans h4 h2⟩

theorem naiveArgmin_eq (κ : Nat → ℚ) (A : List Nat) (i : Nat) (hi : i ∈ A)
    (hmin : ∀ j ∈ A, κ i < κ j ∨ (κ i = κ j ∧ i ≤ j)) : naiveArgmin κ A = some i := by
  obtain ⟨m, hm, hmem, hmmin⟩ := naiveArgmin_spec κ A (List.ne_nil_of_mem hi)
  rw [hm]
  congr 1
  rcases hmin m hmem with h1 | ⟨h1, h2⟩
  · rcases hmmin i hi with h3 | ⟨h3, _⟩
    · exact absurd (lt_trans h1 h3) (lt_irrefl _)
    · rw [h3] at h1; exact absurd h1 (lt_irrefl _)
  · rcases hmmin i hi with h3 | ⟨_, h4⟩
    · rw [h1] at h3; exact absurd h3 (lt_irrefl _)
    · omega

theorem dist2_point_to_line_exact (p a b : point2i) :
    ∃ num den, dist2_point_to_line p a b = Cost.frac num den ∧ 0 < den ∧
      (num : ℚ) / (den : ℚ) = dist2Exact p a b := by
  unfold dist2_point_to_line dist2Exact
  simp only []
  by_cases hv : (b.x - a.x) * (b.x - a.x) + (b.y - a.y) * (b.y - a.y) = 0
  · have hq : ((b.x : ℚ) - (a.x : ℚ)) * ((b.x : ℚ) - (a.x : ℚ))
        + ((b.y : ℚ) - (a.y : ℚ)) * ((b.y : ℚ) - (a.y : ℚ)) = 0 := by exact_mod_cast hv
    rw [if_pos hv, if_pos hq]
    refine ⟨_, _, rfl, by decide, ?_⟩
    push_cast
    ring
  · have hq : ¬ ((b.x : ℚ) - (a.x : ℚ)) * ((b.x : ℚ) - (a.x : ℚ))
        + ((b.y : ℚ) - (a.y : ℚ)) * ((b.y : ℚ) - (a.y : ℚ)) = 0 := by exact_mod_cast hv
    rw [if_neg hv, if_neg hq]
    refine ⟨_, _, rfl, ?_, ?_⟩
    · have := mul_self_nonneg (b.x - a.x)
      have := mul_self_nonneg (b.y - a.y)
      omega
    · push_cast
      ring

/-! ## The costs in the queue -/

theorem aliveList_sorted (n : Nat) (alive : List Bool) : (aliveList n alive).Sorted (· < ·) :=
  (List.sorted_lt_range n).filter _

theorem cyclic_neighbours_ne (A : List Nat) (hs : A.Sorted (· < ·)) (j : Nat) (hj : j ∈ A)
    (h2 : 2 ≤ A.length) : cyclicPred A j ≠ j ∧ cyclicSucc A j ≠ j := by
  obtain ⟨L1, L2, rfl⟩ := List.append_of_mem hj
  obtain ⟨hf1, hf2⟩ := sorted_split_filter L1 L2 j hs
  obtain ⟨_, hp2, h12⟩ := List.pairwise_append.1 hs
  have hL1 : ∀ x ∈ L1, x < j := fun x hx => h12 x hx j (List.mem_cons_self _ _)
  have hL2 : ∀ y ∈ L2, j < y := fun y hy => List.rel_of_pairwise_cons hp2 hy
  have hlen : 1 ≤ L1.length + L2.length := by
    simp only [List.length_append, List.length_cons] at h2
    omega
  unfold cyclicPred cyclicSucc
  rw [hf1, hf2]
  constructor
  · cases h1 : L1.getLast? with
    | some z =>
      have := hL1 z (List.mem_of_mem_getLast? h1)
      simp only [Option.getD_some]
      omega
    | none =>
      have e : L1 = [] := List.getLast?_eq_none_iff.1 h1
      subst e
      cases L2 with
      | nil => simp at hlen
      | cons y t =>
        cases h3 : (y :: t).getLast? with
        | none => simp at h3
        | some z =>
          have := hL2 z (List.mem_of_mem_getLast? h3)
          simp only [List.nil_append, Option.getD_none, List.getLast?_cons_cons, h3,
            Option.getD_some]
          omega
  · cases L2 with
    | cons y t =>
      have := hL2 y (List.mem_cons_self _ _)
      simp only [List.head?_cons, Option.getD_some]
      omega
    | nil =>
      cases L1 with
      | nil => simp at hlen
      | cons x t =>
        have := hL1 x (List.mem_cons_self _ _)
        simp only [List.head?_nil, Option.getD_none, List.cons_append, List.head?_cons,
          Option.getD_some]
        omega

theorem compute_cost_alive (costf : point2i → point2i → point2i → Cost)
    (c : List point2i) (n : Nat) (s : SimplifyState) (hinv : SimplifyInv n s) (j : Nat)
    (hj : j ∈ aliveList n s.alive) :
    compute_cost costf c s.alive s.prev s.next j
      = costf (c.getD j default) (c.getD (s.prev.getD j 0) default)
          (c.getD (s.next.getD j 0) default) := by
  obtain ⟨hp, hn, hpn, hsn⟩ := linked_pred_succ s.prev s.next _
    (aliveList_sorted n s.alive) hinv.2.2.2.2.2.1 j hj
  have h1 := ((mem_aliveList n s.alive j).1 hj).2
  have h2 := ((mem_aliveList n s.alive _).1 hpn).2
  have h3 := ((mem_aliveList n s.alive _).1 hsn).2
  rw [← hp] at h2
  rw [← hn] at h3
  unfold compute_cost
  simp only [h1, h2, h3, Bool.not_true, Bool.false_eq_true, if_false, Bool.or_self]

theorem queueInv_erase (costf : point2i → point2i → point2i → Cost) (c : List point2i)
    (n : Nat) (s : SimplifyState) (it : HeapItem) (hq : QueueInv costf c n s) :
    QueueInv costf c n { s with pq := s.pq.erase it } := by
  obtain ⟨h1, h2, h3⟩ := hq
  exact ⟨fun e he => h1 e (List.mem_of_mem_erase he),
    fun e he => h2 e (List.mem_of_mem_erase he),
    fun e he => h3 e (List.mem_of_mem_erase he)⟩

theorem queueInv_remove (costf : point2i → point2i → point2i → Cost)
    (hproper : ∀ p a b, (costf p a b).Proper)
    (c : List point2i) (n : Nat) (s : SimplifyState) (pq : List HeapItem) (i : Nat)
    (hinv : SimplifyInv n s) (hq : QueueInv costf c n s) (hi : i ∈ aliveList n s.alive)
    (h2 : 2 ≤ s.aliveCount) (hsub : ∀ it ∈ pq, it ∈ s.pq)
    (hpq : ∀ it ∈ s.pq, it.idx ≠ (i : Int) → it ∈ pq) :
    QueueInv costf c n (removeVertex costf c s pq i) := by
  obtain ⟨hinv', _, _, hal⟩ := removeVertex_inv costf c n s pq i hinv hi h2 hpq
  obtain ⟨hq1, hq2, hq3⟩ := hq
  have hv := hinv.2.2.2.1
  obtain ⟨hp, hn, hpn, hsn⟩ := linked_pred_succ s.prev s.next _
    (aliveList_sorted n s.alive) hinv.2.2.2.2.2.1 i hi
  obtain ⟨hpne, hsne⟩ := cyclic_neighbours_ne _ (aliveList_sorted n s.alive) i hi
    (by rw [← hinv.2.2.2.2.1]; exact h2)
  rw [← hp] at hpn hpne
  rw [← hn] at hsn hsne
  have han := ((mem_aliveList n s.alive _).1 hpn).1
  have hbn := ((mem_aliveList n s.alive _).1 hsn).1
  have haA' : s.prev.getD i 0 ∈ aliveList n (removeVertex costf c s pq i).alive := by
    rw [hal, List.mem_filter]; exact ⟨hpn, by simpa using hpne⟩
  have hbA' : s.next.getD i 0 ∈ aliveList n (removeVertex costf c s pq i).alive := by
    rw [hal, List.mem_filter]; exact ⟨hsn, by simpa using hsne⟩
  have hca := compute_cost_alive costf c n _ hinv' _ haA'
  have hcb := compute_cost_alive costf c n _ hinv' _ hbA'
  -- the entries of the new queue
  have hmem : ∀ it ∈ (removeVertex costf c s pq i).pq, it ∈ pq ∨
      (it.idx = ((s.prev.getD i 0 : Nat) : Int) ∧
        it.ver = (removeVertex costf c s pq i).version.getD (s.prev.getD i 0) 0 ∧
        it.cost = compute_cost costf c (removeVertex costf c s pq i).alive
          (removeVertex costf c s pq i).prev (removeVertex costf c s pq i).next
          (s.prev.getD i 0)) ∨
      (it.idx = ((s.next.getD i 0 : Nat) : Int) ∧
        it.ver = (removeVertex costf c s pq i).version.getD (s.next.getD i 0) 0 ∧
        it.cost = compute_cost costf c (removeVertex costf c s pq i).alive
          (removeVertex costf c s pq i).prev (removeVertex costf c s pq i).next
          (s.next.getD i 0)) := by
    intro it hit
    unfold removeVertex at hit
    simp only [List.mem_append, List.mem_singleton] at hit
    rcases hit with (h | h) | h
    · exact Or.inl h
    · right; left
      rw [h]
      exact ⟨rfl, rfl, rfl⟩
    · right; right
      rw [h]
      exact ⟨rfl, rfl, rfl⟩
  -- versions only grow, and those of the two neighbours grow strictly
  have hver : ∀ j, j < n →
      s.version.getD j 0 ≤ (removeVertex costf c s pq i).version.getD j 0 ∧
      ((j = s.prev.getD i 0 ∨ j = s.next.getD i 0) →
        s.version.getD j 0 < (removeVertex costf c s pq i).version.getD j 0) ∧
      ((j ≠ s.prev.getD i 0 ∧ j ≠ s.next.getD i 0) →
        (removeVertex costf c s pq i).version.getD j 0 = s.version.getD j 0) := by
    intro j hj
    unfold removeVertex
    simp only []
    rw [getD_set_eq _ _ _ _ _ (by rw [List.length_set, hv]; exact hbn)]
    by_cases hjb : j = s.next.getD i 0
    · rw [if_pos hjb, getD_set_eq _ _ _ _ _ (by omega)]
      by_cases hba : s.next.getD i 0 = s.prev.getD i 0
      · rw [if_pos hba, hjb, hba]
        exact ⟨by omega, fun _ => by omega, fun h => absurd rfl h.1⟩
      · rw [if_neg hba, hjb]
        exact ⟨by omega, fun _ => by omega, fun h => absurd rfl h.2⟩
    · rw [if_neg hjb, getD_set_eq _ _ _ _ _ (by omega)]
      by_cases hja : j = s.prev.getD i 0
      · rw [if_pos hja, hja]
        exact ⟨by omega, fun _ => by omega, fun h => absurd rfl h.1⟩
      · rw [if_neg hja]
        exact ⟨le_refl _, fun h => by rcases h with h | h <;> contradiction, fun _ => rfl⟩
  refine ⟨?_, ?_, ?_⟩
  · intro it hit
    rcases hmem it hit with h | ⟨_, _, h⟩ | ⟨_, _, h⟩
    · exact hq1 it (hsub it h)
    · rw [h, hca]; exact hproper _ _ _
    · rw [h, hcb]; exact hproper _ _ _
  · intro it hit j hj hidx
    rcases hmem it hit with h | ⟨h1, h2', _⟩ | ⟨h1, h2', _⟩
    · exact le_trans (hq2 it (hsub it h) j hj hidx) (hver j hj).1
    · have : j = s.prev.getD i 0 := by omega
      rw [this, h2']
    · have : j = s.next.getD i 0 := by omega
      rw [this, h2']
  · intro it hit j hjA hidx hfresh
    have hjA0 : j ∈ aliveList n s.alive := by
      rw [hal] at hjA
      exact (List.mem_filter.1 hjA).1
    have hjn := ((mem_aliveList n s.alive j).1 hjA0).1
    rcases hmem it hit with h | ⟨h1, _, h3⟩ | ⟨h1, _, h3⟩
    · have hle := hq2 it (hsub it h) j hjn hidx
      by_cases hab : j = s.prev.getD i 0 ∨ j = s.next.getD i 0
      · have := (hver j hjn).2.1 hab
        omega
      · rw [not_or] at hab
        rw [(hver j hjn).2.2 hab] at hfresh
        have hc := hq3 it (hsub it h) j hjA0 hidx hfresh
        rw [hc]
        unfold removeVertex
        simp only []
        rw [getD_set_eq _ _ _ _ _ (by rw [hinv.1]; exact hbn), if_neg hab.2,
          getD_set_eq _ _ _ _ _ (by rw [hinv.2.1]; exact han), if_neg hab.1]
    · have : j = s.prev.getD i 0 := by omega
      rw [this, h3, hca]
    · have : j = s.next.getD i 0 := by omega
      rw [this, h3, hcb]

/-! ## The queue pops the vertex that the reference procedure deletes -/

theorem cost_toRat_eq (costf : point2i → point2i → point2i → Cost)
    (costR : point2i → point2i → point2i → ℚ)
    (hcost : ∀ p a b, ∃ num den, costf p a b = Cost.frac num den ∧ 0 < den ∧
      (num : ℚ) / (den : ℚ) = costR p a b) (p a b : point2i) :
    (costf p a b).Proper ∧ (costf p a b).toRat = costR p a b := by
  obtain ⟨num, den, h1, h2, h3⟩ := hcost p a b
  rw [h1]
  exact ⟨⟨num, den, rfl, h2⟩, h3⟩

theorem naiveStep_eq (costf : point2i → point2i → point2i → Cost)
    (costR : point2i → point2i → point2i → ℚ)
    (hcost : ∀ p a b, ∃ num den, costf p a b = Cost.frac num den ∧ 0 < den ∧
      (num : ℚ) / (den : ℚ) = costR p a b)
    (c : List point2i) (n : Nat) (s : SimplifyState) (it : HeapItem)
    (hinv : SimplifyInv n s) (hq : QueueInv costf c n s) (htop : pqTop s.pq = some it)
    (hi : it.idx.toNat ∈ aliveList n s.alive) (hidx : it.idx = (it.idx.toNat : Int))
    (hver : it.ver = s.version.getD it.idx.toNat 0) :
    naiveStep costR c (aliveList n s.alive)
      = (aliveList n s.alive).filter (fun j => decide (j ≠ it.idx.toNat)) := by
  obtain ⟨hq1, _, hq3⟩ := hq
  have hcostOf : ∀ e ∈ s.pq, ∀ j ∈ aliveList n s.alive, e.idx = (j : Int) →
      e.ver = s.version.getD j 0 →
      e.cost.toRat = naiveCost costR c (aliveList n s.alive) j := by
    intro e he j hj h1 h2
    obtain ⟨hp, hn, _, _⟩ := linked_pred_succ s.prev s.next _
      (aliveList_sorted n s.alive) hinv.2.2.2.2.2.1 j hj
    rw [hq3 e he j hj h1 h2, (cost_toRat_eq costf costR hcost _ _ _).2, hp, hn]
    rfl
  have hit := pqTop_mem s.pq it htop
  have hmin := pqTop_min s.pq hq1 it htop
  have harg : naiveArgmin (naiveCost costR c (aliveList n s.alive)) (aliveList n s.alive)
      = some it.idx.toNat := by
    apply naiveArgmin_eq _ _ _ hi
    intro j hj
    obtain ⟨e, he, he1, he2⟩ := hinv.2.2.2.2.2.2 j hj
    rw [← hcostOf it hit _ hi hidx hver, ← hcostOf e he j hj he1 he2]
    rcases hmin e he with h | ⟨h1, h2⟩
    · exact Or.inl h
    · exact Or.inr ⟨h1, by omega⟩
  unfold naiveStep
  rw [harg]
  simp only []
  rw [(aliveList_nodup n s.alive).erase_eq_filter]
  apply List.filter_congr
  intro x _
  by_cases h : x = it.idx.toNat
  · simp [h]
  · simp [h, bne_iff_ne]

theorem initialState_queueInv (costf : point2i → point2i → point2i → Cost)
    (hproper : ∀ p a b, (costf p a b).Proper) (c : List point2i) :
    QueueInv costf c c.length (initialState costf c) := by
  obtain ⟨hinv, _, _, hal⟩ := initialState_inv costf c
  have hpq : ∀ it ∈ (initialState costf c).pq, ∃ i, i < c.length ∧
      it.idx = (i : Int) ∧ it.ver = (initialState costf c).version.getD i 0 ∧
      it.cost = compute_cost costf c (initialState costf c).alive
        (initialState costf c).prev (initialState costf c).next i := by
    intro it hit
    unfold initialState at hit
    simp only [foldl_push_eq_map, List.nil_append, List.mem_map, List.mem_range] at hit
    obtain ⟨i, hi, rfl⟩ := hit
    exact ⟨i, hi, rfl, rfl, rfl⟩
  refine ⟨?_, ?_, ?_⟩
  · intro it hit
    obtain ⟨i, hi, _, _, h3⟩ := hpq it hit
    rw [h3, compute_cost_alive costf c c.length _ hinv i
      (by rw [hal]; exact List.mem_range.2 hi)]
    exact hproper _ _ _
  · intro it hit j _ hidx
    obtain ⟨i, _, h1, h2, _⟩ := hpq it hit
    have : j = i := by omega
    rw [this, h2]
  · intro it hit j hj hidx _
    obtain ⟨i, _, h1, _, h3⟩ := hpq it hit
    have : j = i := by omega
    subst this
    rw [h3, compute_cost_alive costf c c.length _ hinv j hj]

theorem simplifyLoop_refines (costf : point2i → point2i → point2i → Cost)
    (costR : point2i → point2i → point2i → ℚ)
    (hcost : ∀ p a b, ∃ num den, costf p a b = Cost.frac num den ∧ 0 < den ∧
      (num : ℚ) / (den : ℚ) = costR p a b)
    (c : List point2i) (n target : Nat) (ht : 1 ≤ target) (fuel : Nat) :
    ∀ s : SimplifyState, SimplifyInv n s → QueueInv costf c n s → target ≤ s.aliveCount →
      s.pq.length + 2 * (s.aliveCount - target) ≤ fuel →
      ∃ s', simplifyLoop costf c n target fuel s = Except.ok s' ∧ SimplifyInv n s' ∧
        s'.aliveCount = target ∧
        aliveList n s'.alive
          = Nat.iterate (naiveStep costR c) (s.aliveCount - target) (aliveList n s.alive) := by
  have hproper : ∀ p a b, (costf p a b).Proper :=
    fun p a b => (cost_toRat_eq costf costR hcost p a b).1
  induction fuel with
  | zero =>
    intro s hinv _ hle hfuel
    have : s.aliveCount - target = 0 := by omega
    refine ⟨s, ?_, hinv, by omega, by rw [this]; rfl⟩
    unfold simplifyLoop
    rw [if_neg (by omega)]
  | succ fuel ih =>
    intro s hinv hq hle hfuel
    by_cases hgt : s.aliveCount > target
    · unfold simplifyLoop
      rw [if_pos hgt]
      have hcount := hinv.2.2.2.2.1
      have hfresh := hinv.2.2.2.2.2.2
      cases htop : pqTop s.pq with
      | none =>
        exfalso
        have hnil := pqTop_eq_none s.pq htop
        have hpos : 0 < (aliveList n s.alive).length := by omega
        obtain ⟨i, hi⟩ := List.exists_mem_of_length_pos hpos
        obtain ⟨it, hit, _⟩ := hfresh i hi
        rw [hnil] at hit
        cases hit
      | some it =>
        have hmem := pqTop_mem s.pq it htop
        have hlen : (s.pq.erase it).length = s.pq.length - 1 := by
          rw [List.length_erase_of_mem hmem]
        have hpos : 0 < s.pq.length := List.length_pos_of_mem hmem
        have stale : (∀ i ∈ aliveList n s.alive, it.idx = (i : Int) →
            it.ver ≠ s.version.getD i 0) →
            ∃ s', simplifyLoop costf c n target fuel { s with pq := s.pq.erase it }
                = Except.ok s' ∧ SimplifyInv n s' ∧ s'.aliveCount = target ∧
              aliveList n s'.alive = Nat.iterate (naiveStep costR c)
                (s.aliveCount - target) (aliveList n s.alive) := by
          intro hst
          exact ih { s with pq := s.pq.erase it } (inv_erase_stale n s it hinv hst)
            (queueInv_erase costf c n s it hq) hle (by simp only [hlen]; omega)
        simp only []
        by_cases hrange : it.idx < 0 ∨ it.idx ≥ (n : Int)
        · rw [if_pos hrange]
          apply stale
          intro i hi hidx
          have := ((mem_aliveList n s.alive i).1 hi).1
          omega
        · rw [if_neg hrange]
          by_cases hdead : (!s.alive.getD it.idx.toNat false) = true
          · rw [if_pos hdead]
            apply stale
            intro i hi hidx
            have := ((mem_aliveList n s.alive i).1 hi).2
            rw [hidx] at hdead
            simp only [Int.toNat_ofNat] at hdead
            rw [this] at hdead
            cases hdead
          · rw [if_neg hdead]
            by_cases hver : it.ver ≠ s.version.getD it.idx.toNat 0
            · rw [if_pos hver]
              apply stale
              intro i hi hidx
              rw [hidx] at hver
              simpa using hver
            · rw [if_neg hver]
              have hi : it.idx.toNat ∈ aliveList n s.alive := by
                rw [mem_aliveList]
                refine ⟨by omega, ?_⟩
                simpa using hdead
              have hkeep : ∀ it' ∈ s.pq, it'.idx ≠ (it.idx.toNat : Int) →
                  it' ∈ s.pq.erase it := by
                intro it' hit' hne
                have : it' ≠ it := by
                  intro e
                  subst e
                  apply hne
                  omega
                exact (List.mem_erase_of_ne this).2 hit'
              obtain ⟨h1, h2, h3, h4⟩ := removeVertex_inv costf c n s (s.pq.erase it)
                it.idx.toNat hinv hi (by omega) hkeep
              have hq' := queueInv_remove costf hproper c n s (s.pq.erase it) it.idx.toNat
                hinv hq hi (by omega) (fun e he => List.mem_of_mem_erase he) hkeep
              obtain ⟨s', hs1, hs2, hs3, hs4⟩ :=
                ih (removeVertex costf c s (s.pq.erase it) it.idx.toNat) h1 hq'
                  (by rw [h2]; omega) (by rw [h2, h3, hlen]; omega)
              refine ⟨s', hs1, hs2, hs3, ?_⟩
              have hstep := naiveStep_eq costf costR hcost c n s it hinv hq htop hi
                (by omega) (by simpa using hver)
              have hk : s.aliveCount - target = (s.aliveCount - 1 - target) + 1 := by omega
              rw [hs4, h2, h4, hk, Function.iterate_succ_apply, hstep]
    · have : s.aliveCount - target = 0 := by omega
      refine ⟨s, ?_, hinv, by omega, by rw [this]; rfl⟩
      unfold simplifyLoop
      rw [if_neg hgt]

theorem simplifyContourWith_of_loop (costf : point2i → point2i → point2i → Cost)
    (contour : List point2i) (target : Nat) (h0 : 0 < target)
    (hlt : target < contour.length) (s : SimplifyState)
    (hs : simplifyLoop costf contour contour.length target (3 * contour.length)
      (initialState costf contour) = Except.ok s)
    (hsinv : SimplifyInv contour.length s) (hscount : s.aliveCount = target) :
    simplifyContourWith costf contour target
      = Except.ok ((aliveList contour.length s.alive).map
          (fun (i : Nat) => contour.getD i default)) := by
  have hne : contour ≠ [] := by
    intro e; rw [e] at hlt; simp at hlt
  have hempty : contour.isEmpty = false := by
    cases contour with
    | nil => exact absurd rfl hne
    | cons a l => rfl
  unfold simplifyContourWith
  simp only [hempty, Bool.false_eq_true, or_false]
  rw [if_neg (by omega), if_neg (by omega), hs]
  simp only []
  have hcount := hsinv.2.2.2.2.1
  have hcyc := hsinv.2.2.2.2.2.1
  have hnodup := aliveList_nodup contour.length s.alive
  have hfind : (List.range contour.length).find? (fun (i : Nat) => s.alive.getD i false)
      = (aliveList contour.length s.alive).head? := by
    unfold aliveList
    rw [List.filter_head?]
  rw [hfind]
  cases hA : aliveList contour.length s.alive with
  | nil =>
    rw [hA] at hcount
    simp at hcount
    omega
  | cons start suf =>
    rw [hA] at hcyc hnodup hcount
    simp only [List.head?_cons]
    have hch : List.Chain' (fun x y => s.next.getD x 0 = y) (start :: suf ++ [start]) := by
      have : List.Chain' (Linked s.prev s.next) (start :: suf ++ [start]) := by
        simpa [CycChain] using hcyc
      exact this.imp (fun x y h => h.1)
    rw [collectLoop_spec contour s.next start s.aliveCount suf start [] (s.aliveCount + 2) hch
      (List.nodup_cons.1 hnodup).1 (by rw [hcount]; simp only [List.length_cons]; omega)
      (by rw [hcount]; simp)]
    simp

theorem simplifyContourWith_refines (costf : point2i → point2i → point2i → Cost)
    (costR : point2i → point2i → point2i → ℚ)
    (hcost : ∀ p a b, ∃ num den, costf p a b = Cost.frac num den ∧ 0 < den ∧
      (num : ℚ) / (den : ℚ) = costR p a b)
    (c : List point2i) (t : Nat) (h0 : 0 < t) (hlt : t < c.length) :
    simplifyContourWith costf c t = Except.ok (naiveSimplify costR c t) := by
  obtain ⟨hinv, hpq, hac, hal⟩ := initialState_inv costf c
  have hq := initialState_queueInv costf
    (fun p a b => (cost_toRat_eq costf costR hcost p a b).1) c
  obtain ⟨s, hs, hsinv, hscount, hsal⟩ := simplifyLoop_refines costf costR hcost c c.length
    t h0 (3 * c.length) (initialState costf c) hinv hq (by omega) (by omega)
  rw [simplifyContourWith_of_loop costf c t h0 hlt s hs hsinv hscount, hsal, hac, hal]
  rfl

/-- C20: for `0 < t < |c|`, `simplifyContour c t`, which uses a priority queue with lazily
invalidated, version-stamped entries, returns what the naive reference procedure returns:
starting with all indices alive, `|c| - t` times compute for every alive index its cost
(as an exact rational) with respect to its current alive cyclic predecessor and successor
and delete the alive index of least cost, ties broken by lowest index; then list the
surviving points in increasing index order. -/
theorem simplifyContour_eq_naiveSimplify (c : List point2i) (t : Nat) (h0 : 0 < t)
    (hlt : t < c.length) :
    simplifyContour c t = Except.ok (naiveSimplify dist2Exact c t) :=
  simplifyContourWith_refines dist2_point_to_line dist2Exact dist2_point_to_line_exact
    c t h0 hlt

/-- C20, at a concrete contour: five points simplified to three. -/
theorem simplifyContour_eq_naiveSimplify_witness :
    simplifyContour [⟨0, 0⟩, ⟨1, 0⟩, ⟨2, 0⟩, ⟨2, 1⟩, ⟨1, 1⟩] 3
      = Except.ok (naiveSimplify dist2Exact [⟨0, 0⟩, ⟨1, 0⟩, ⟨2, 0⟩, ⟨2, 1⟩, ⟨1, 1⟩] 3) :=
  simplifyContour_eq_naiveSimplify [⟨0, 0⟩, ⟨1, 0⟩, ⟨2, 0⟩, ⟨2, 1⟩, ⟨1, 1⟩] 3
    (by decide) (by decide)

/-! ## The perimeter of a rectangle, point by point -/

theorem makeRectContour_eq_map (l t : Int) (a b : Nat) :
    makeRectContour ⟨l, t⟩ ⟨l + ((a + 2 : Nat) : Int), t + ((b + 2 : Nat) : Int)⟩
      = (List.range (2 * a + 2 * b + 4)).map (rectPoint l t a b) := by
  unfold makeRectContour
  simp only []
  have n1 : (l + ((a + 2 : Nat) : Int) - 1 - l + 1).toNat = a + 2 := by omega
  have n2 : (t + ((b + 2 : Nat) : Int) - 1 - t).toNat = b + 1 := by omega
  have n3 : (l + ((a + 2 : Nat) : Int) - 1 - l).toNat = a + 1 := by omega
  have n4 : (t + ((b + 2 : Nat) : Int) - 1 - t - 1).toNat = b := by omega
  rw [n1, n2, n3, n4]
  clear n1 n2 n3 n4
  have hn : 2 * a + 2 * b + 4 = (a + 2) + ((b + 1) + ((a + 1) + b)) := by omega
  rw [hn, List.range_add (a + 2), List.range_add (b + 1), List.range_add (a + 1)]
  simp only [List.map_append, List.map_map, List.append_assoc]
  congr 1
  · apply List.map_congr_left
    intro i hi
    have := List.mem_range.1 hi
    unfold rectPoint
    rw [if_pos (by omega)]
  congr 1
  · apply List.map_congr_left
    intro i hi
    have := List.mem_range.1 hi
    simp only [Function.comp]
    unfold rectPoint
    rw [if_neg (by omega), if_pos (by omega)]
    simp only [point2i.mk.injEq]
    constructor <;> first | trivial | omega
  congr 1
  · apply List.map_congr_left
    intro i hi
    have := List.mem_range.1 hi
    simp only [Function.comp]
    unfold rectPoint
    rw [if_neg (by omega), if_neg (by omega), if_pos (by omega)]
    simp only [point2i.mk.injEq]
    constructor <;> first | trivial | omega
  · apply List.map_congr_left
    intro i hi
    have := List.mem_range.1 hi
    simp only [Function.comp]
    unfold rectPoint
    have h1 : ¬ (a + 2 + (b + 1 + (a + 1 + i)) ≤ a + 1) := by omega
    have h2 : ¬ (a + 2 + (b + 1 + (a + 1 + i)) ≤ a + b + 2) := by omega
    have h3 : ¬ (a + 2 + (b + 1 + (a + 1 + i)) ≤ 2 * a + b + 3) := by omega
    rw [if_neg h1, if_neg h2, if_neg h3]
    simp only [point2i.mk.injEq]
    constructor <;> first | trivial | omega

theorem getD_map_range_point (f : Nat → point2i) (n i : Nat) (hi : i < n) :
    ((List.range n).map f).getD i default = f i := by
  rw [List.getD_eq_getElem?_getD, List.getElem?_map, List.getElem?_range hi]
  rfl

theorem rectPoint_wrap (l t : Int) (a b : Nat) :
    rectPoint l t a b (2 * a + 2 * b + 4) = rectPoint l t a b 0 := by
  unfold rectPoint
  rw [if_neg (by omega), if_neg (by omega), if_neg (by omega), if_pos (by omega)]
  simp only [point2i.mk.injEq]
  constructor <;> first | trivial | omega

theorem rectPoint_top (l t : Int) (a b j : Nat) (h : j ≤ a + 1) :
    rectPoint l t a b j = ⟨l + j, t⟩ := by
  unfold rectPoint
  rw [if_pos h]

theorem rectPoint_right (l t : Int) (a b j : Nat) (h1 : a + 1 ≤ j) (h2 : j ≤ a + b + 2) :
    rectPoint l t a b j = ⟨l + a + 1, t + ((j : Int) - (a + 1))⟩ := by
  unfold rectPoint
  by_cases h : j ≤ a + 1
  · rw [if_pos h]
    simp only [point2i.mk.injEq]
    constructor <;> first | trivial | omega
  · rw [if_neg h, if_pos h2]

theorem rectPoint_bottom (l t : Int) (a b j : Nat) (h1 : a + b + 2 ≤ j)
    (h2 : j ≤ 2 * a + b + 3) :
    rectPoint l t a b j = ⟨l + a + 1 - ((j : Int) - (a + b + 2)), t + b + 1⟩ := by
  unfold rectPoint
  by_cases h : j ≤ a + b + 2
  · have : j = a + b + 2 := by omega
    subst this
    by_cases h' : a + b + 2 ≤ a + 1
    · rw [if_pos h']
      simp only [point2i.mk.injEq]
      constructor <;> first | trivial | omega
    · rw [if_neg h', if_pos (le_refl _)]
      simp only [point2i.mk.injEq]
      constructor <;> first | trivial | omega
  · rw [if_neg (by omega), if_neg h, if_pos h2]

theorem rectPoint_left (l t : Int) (a b j : Nat) (h1 : 2 * a + b + 3 ≤ j) :
    rectPoint l t a b j = ⟨l, t + b + 1 - ((j : Int) - (2 * a + b + 3))⟩ := by
  unfold rectPoint
  by_cases h : j ≤ 2 * a + b + 3
  · have : j = 2 * a + b + 3 := by omega
    subst this
    rw [if_neg (by omega), if_neg (by omega), if_pos (le_refl _)]
    simp only [point2i.mk.injEq]
    constructor <;> first | trivial | omega
  · rw [if_neg (by omega), if_neg (by omega), if_neg h]

/-! ## Bounds on the cyclic neighbours -/

theorem sorted_le_getLast (L : List Nat) (hs : L.Sorted (· < ·)) (z : Nat)
    (hz : L.getLast? = some z) : ∀ x ∈ L, x ≤ z := by
  rcases List.eq_nil_or_concat L with rfl | ⟨L', w, rfl⟩
  · simp
  · rw [List.concat_eq_append] at hz hs ⊢
    rw [List.getLast?_concat, Option.some.injEq] at hz
    subst hz
    intro x hx
    rcases List.mem_append.1 hx with h | h
    · exact Nat.le_of_lt ((List.pairwise_append.1 hs).2.2 x h w (List.mem_singleton_self _))
    · rw [List.mem_singleton.1 h]

theorem sorted_head_le (L : List Nat) (hs : L.Sorted (· < ·)) (z : Nat)
    (hz : L.head? = some z) : ∀ x ∈ L, z ≤ x := by
  cases L with
  | nil => simp
  | cons w L' =>
    rw [List.head?_cons, Option.some.injEq] at hz
    subst hz
    intro x hx
    rcases List.mem_cons.1 hx with rfl | h
    · exact le_refl _
    · exact Nat.le_of_lt (List.rel_of_sorted_cons hs x h)

theorem cyclicPred_below (A : List Nat) (hs : A.Sorted (· < ·)) (j : Nat) (lo : Nat)
    (hlo : lo ∈ A) (hlt : lo < j) :
    lo ≤ cyclicPred A j ∧ cyclicPred A j < j ∧ cyclicPred A j ∈ A := by
  unfold cyclicPred
  have hmem : lo ∈ A.filter (fun (x : Nat) => decide (x < j)) :=
    List.mem_filter.2 ⟨hlo, by simpa using hlt⟩
  cases hl : (A.filter (fun (x : Nat) => decide (x < j))).getLast? with
  | none =>
    rw [List.getLast?_eq_none_iff] at hl
    rw [hl] at hmem
    cases hmem
  | some z =>
    have hz := List.mem_filter.1 (List.mem_of_mem_getLast? hl)
    simp only [Option.getD_some]
    exact ⟨sorted_le_getLast _ (hs.filter _) z hl lo hmem, by simpa using hz.2, hz.1⟩

theorem cyclicSucc_above (A : List Nat) (hs : A.Sorted (· < ·)) (j : Nat) (hi : Nat)
    (hhi : hi ∈ A) (hlt : j < hi) :
    j < cyclicSucc A j ∧ cyclicSucc A j ≤ hi ∧ cyclicSucc A j ∈ A := by
  unfold cyclicSucc
  have hmem : hi ∈ A.filter (fun (x : Nat) => decide (j < x)) :=
    List.mem_filter.2 ⟨hhi, by simpa using hlt⟩
  cases hl : (A.filter (fun (x : Nat) => decide (j < x))).head? with
  | none =>
    rw [List.head?_eq_none_iff] at hl
    rw [hl] at hmem
    cases hmem
  | some z =>
    have hz := List.mem_filter.1 (List.mem_of_mem_head? hl)
    simp only [Option.getD_some]
    exact ⟨by simpa using hz.2, sorted_head_le _ (hs.filter _) z hl hi hmem, hz.1⟩

theorem cyclicPred_wrap (A : List Nat) (hs : A.Sorted (· < ·)) (j : Nat)
    (hmin : ∀ x ∈ A, j ≤ x) (hi : Nat) (hhi : hi ∈ A) :
    hi ≤ cyclicPred A j ∧ cyclicPred A j ∈ A := by
  unfold cyclicPred
  have hnil : A.filter (fun (x : Nat) => decide (x < j)) = [] := by
    rw [List.filter_eq_nil_iff]
    intro x hx
    have := hmin x hx
    simp only [decide_eq_true_eq]
    omega
  rw [hnil]
  cases hl : A.getLast? with
  | none =>
    rw [List.getLast?_eq_none_iff] at hl
    rw [hl] at hhi
    cases hhi
  | some z =>
    simp only [List.getLast?_nil, Option.getD_none, Option.getD_some]
    exact ⟨sorted_le_getLast A hs z hl hi hhi, List.mem_of_mem_getLast? hl⟩

theorem cyclicSucc_wrap (A : List Nat) (hs : A.Sorted (· < ·)) (j : Nat)
    (hmax : ∀ x ∈ A, x ≤ j) (lo : Nat) (hlo : lo ∈ A) :
    cyclicSucc A j ≤ lo ∧ cyclicSucc A j ∈ A := by
  unfold cyclicSucc
  have hnil : A.filter (fun (x : Nat) => decide (j < x)) = [] := by
    rw [List.filter_eq_nil_iff]
    intro x hx
    have := hmax x hx
    simp only [decide_eq_true_eq]
    omega
  rw [hnil]
  cases hl : A.head? with
  | none =>
    rw [List.head?_eq_none_iff] at hl
    rw [hl] at hlo
    cases hlo
  | some z =>
    simp only [List.head?_nil, Option.getD_none, Option.getD_some]
    exact ⟨sorted_head_le A hs z hl lo hlo, List.mem_of_mem_head? hl⟩

/-! ## The exact cost of collinear and of turning triples -/

theorem dist2Exact_zero_of_row (p a b : point2i) (h1 : p.y = a.y) (h2 : b.y = a.y)
    (h3 : b.x ≠ a.x) : dist2Exact p a b = 0 := by
  unfold dist2Exact
  simp only [h1, h2, sub_self, mul_zero, zero_mul, add_zero]
  have hx : ((b.x : ℚ) - (a.x : ℚ)) ≠ 0 := by
    intro h
    apply h3
    have : (b.x : ℚ) = (a.x : ℚ) := by linarith
    exact_mod_cast this
  rw [if_neg (mul_ne_zero hx hx)]
  simp

theorem dist2Exact_zero_of_column (p a b : point2i) (h1 : p.x = a.x) (h2 : b.x = a.x)
    (h3 : b.y ≠ a.y) : dist2Exact p a b = 0 := by
  unfold dist2Exact
  simp only [h1, h2, sub_self, mul_zero, zero_mul, zero_add]
  have hy : ((b.y : ℚ) - (a.y : ℚ)) ≠ 0 := by
    intro h
    apply h3
    have : (b.y : ℚ) = (a.y : ℚ) := by linarith
    exact_mod_cast this
  rw [if_neg (mul_ne_zero hy hy)]
  simp

theorem dist2Exact_pos (p a b : point2i)
    (h : (b.x - a.x) * (p.y - a.y) - (b.y - a.y) * (p.x - a.x) ≠ 0) :
    0 < dist2Exact p a b := by
  unfold dist2Exact
  simp only []
  have hq : ((b.x : ℚ) - (a.x : ℚ)) * ((p.y : ℚ) - (a.y : ℚ))
      - ((b.y : ℚ) - (a.y : ℚ)) * ((p.x : ℚ) - (a.x : ℚ)) ≠ 0 := by
    exact_mod_cast h
  have hvv : ((b.x : ℚ) - (a.x : ℚ)) * ((b.x : ℚ) - (a.x : ℚ))
      + ((b.y : ℚ) - (a.y : ℚ)) * ((b.y : ℚ) - (a.y : ℚ)) ≠ 0 := by
    intro h0
    have h1 := mul_self_nonneg ((b.x : ℚ) - (a.x : ℚ))
    have h2 := mul_self_nonneg ((b.y : ℚ) - (a.y : ℚ))
    have e1 : ((b.x : ℚ) - (a.x : ℚ)) * ((b.x : ℚ) - (a.x : ℚ)) = 0 := by linarith
    have e2 : ((b.y : ℚ) - (a.y : ℚ)) * ((b.y : ℚ) - (a.y : ℚ)) = 0 := by linarith
    have e3 := mul_self_eq_zero.1 e1
    have e4 := mul_self_eq_zero.1 e2
    apply hq
    rw [e3, e4]
    ring
  rw [if_neg hvv]
  apply div_pos
  · exact mul_self_pos.2 hq
  · have h1 := mul_self_nonneg ((b.x : ℚ) - (a.x : ℚ))
    have h2 := mul_self_nonneg ((b.y : ℚ) - (a.y : ℚ))
    exact lt_of_le_of_ne (by linarith) (Ne.symm hvv)

theorem dist2Exact_pos_of_turn (p a b : point2i) (h1 : a.x = p.x) (h2 : b.y = p.y)
    (h3 : a.y ≠ p.y) (h4 : b.x ≠ p.x) : 0 < dist2Exact p a b := by
  apply dist2Exact_pos
  rw [h1, h2, sub_self, mul_zero, sub_zero]
  exact mul_ne_zero (by omega) (by omega)

theorem dist2Exact_pos_of_turn' (p a b : point2i) (h1 : a.y = p.y) (h2 : b.x = p.x)
    (h3 : a.x ≠ p.x) (h4 : b.y ≠ p.y) : 0 < dist2Exact p a b := by
  apply dist2Exact_pos
  rw [h1, h2, sub_self, mul_zero, zero_sub, neg_ne_zero]
  exact mul_ne_zero (by omega) (by omega)

/-! ## The reference procedure on the perimeter of a rectangle -/

theorem rect_noncorner_cost (l t : Int) (a b : Nat) (A : List Nat) (hs : A.Sorted (· < ·))
    (hb : ∀ i ∈ A, i < 2 * a + 2 * b + 4) (h0 : 0 ∈ A) (h1 : a + 1 ∈ A)
    (h2 : a + b + 2 ∈ A) (h3 : 2 * a + b + 3 ∈ A) (j : Nat) (hj : j ∈ A)
    (hn0 : j ≠ 0) (hn1 : j ≠ a + 1) (hn2 : j ≠ a + b + 2) (hn3 : j ≠ 2 * a + b + 3) :
    naiveCost dist2Exact ((List.range (2 * a + 2 * b + 4)).map (rectPoint l t a b)) A j
      = 0 := by
  have hget : ∀ i, i < 2 * a + 2 * b + 4 →
      ((List.range (2 * a + 2 * b + 4)).map (rectPoint l t a b)).getD i default
        = rectPoint l t a b i := fun i hi => getD_map_range_point _ _ i hi
  have hjn := hb j hj
  unfold naiveCost
  by_cases c0 : j < a + 1
  · obtain ⟨p1, p2, p3⟩ := cyclicPred_below A hs j 0 h0 (by omega)
    obtain ⟨q1, q2, q3⟩ := cyclicSucc_above A hs j (a + 1) h1 c0
    rw [hget j hjn, hget _ (hb _ p3), hget _ (hb _ q3), rectPoint_top l t a b j (by omega),
      rectPoint_top l t a b _ (by omega), rectPoint_top l t a b _ q2]
    exact dist2Exact_zero_of_row _ _ _ rfl rfl (by simp only []; omega)
  · by_cases c1 : j < a + b + 2
    · obtain ⟨p1, p2, p3⟩ := cyclicPred_below A hs j (a + 1) h1 (by omega)
      obtain ⟨q1, q2, q3⟩ := cyclicSucc_above A hs j (a + b + 2) h2 c1
      rw [hget j hjn, hget _ (hb _ p3), hget _ (hb _ q3),
        rectPoint_right l t a b j (by omega) (by omega),
        rectPoint_right l t a b _ p1 (by omega), rectPoint_right l t a b _ (by omega) q2]
      exact dist2Exact_zero_of_column _ _ _ rfl rfl (by simp only []; omega)
    · by_cases c2 : j < 2 * a + b + 3
      · obtain ⟨p1, p2, p3⟩ := cyclicPred_below A hs j (a + b + 2) h2 (by omega)
        obtain ⟨q1, q2, q3⟩ := cyclicSucc_above A hs j (2 * a + b + 3) h3 c2
        rw [hget j hjn, hget _ (hb _ p3), hget _ (hb _ q3),
          rectPoint_bottom l t a b j (by omega) (by omega),
          rectPoint_bottom l t a b _ p1 (by omega),
          rectPoint_bottom l t a b _ (by omega) q2]
        exact dist2Exact_zero_of_row _ _ _ rfl rfl (by simp only []; omega)
      · obtain ⟨p1, p2, p3⟩ := cyclicPred_below A hs j (2 * a + b + 3) h3 (by omega)
        rw [hget j hjn, hget _ (hb _ p3), rectPoint_left l t a b j (by omega),
          rectPoint_left l t a b _ p1]
        by_cases hmax : ∃ x ∈ A, j < x
        · obtain ⟨x, hx, hjx⟩ := hmax
          obtain ⟨q1, q2, q3⟩ := cyclicSucc_above A hs j x hx hjx
          rw [hget _ (hb _ q3), rectPoint_left l t a b _ (by omega)]
          exact dist2Exact_zero_of_column _ _ _ rfl rfl (by simp only []; omega)
        · have hmax' : ∀ x ∈ A, x ≤ j := by
            intro x hx
            by_contra hlt
            exact hmax ⟨x, hx, by omega⟩
          obtain ⟨q1, q2⟩ := cyclicSucc_wrap A hs j hmax' 0 h0
          rw [hget _ (hb _ q2), rectPoint_top l t a b _ (by omega)]
          exact dist2Exact_zero_of_column _ _ _ rfl (by simp only []; omega)
            (by simp only []; omega)

theorem rect_corner_cost (l t : Int) (a b : Nat) (A : List Nat) (hs : A.Sorted (· < ·))
    (hb : ∀ i ∈ A, i < 2 * a + 2 * b + 4) (h0 : 0 ∈ A) (h1 : a + 1 ∈ A)
    (h2 : a + b + 2 ∈ A) (h3 : 2 * a + b + 3 ∈ A) (k : Nat) (hk : k ∈ rectCorners a b) :
    0 < naiveCost dist2Exact ((List.range (2 * a + 2 * b + 4)).map (rectPoint l t a b)) A k
      := by
  have hget : ∀ i, i < 2 * a + 2 * b + 4 →
      ((List.range (2 * a + 2 * b + 4)).map (rectPoint l t a b)).getD i default
        = rectPoint l t a b i := fun i hi => getD_map_range_point _ _ i hi
  unfold naiveCost
  simp only [rectCorners, List.mem_cons, List.mem_singleton, List.not_mem_nil, or_false] at hk
  rcases hk with rfl | rfl | rfl | rfl
  · obtain ⟨p1, p2⟩ := cyclicPred_wrap A hs 0 (fun x _ => Nat.zero_le x) (2 * a + b + 3) h3
    obtain ⟨q1, q2, q3⟩ := cyclicSucc_above A hs 0 (a + 1) h1 (by omega)
    have := hb _ p2
    rw [hget 0 (by omega), hget _ (hb _ p2), hget _ (hb _ q3),
      rectPoint_top l t a b 0 (by omega), rectPoint_left l t a b _ p1,
      rectPoint_top l t a b _ q2]
    exact dist2Exact_pos_of_turn _ _ _ (by simp only []; omega) rfl
      (by simp only []; omega) (by simp only []; omega)
  · obtain ⟨p1, p2, p3⟩ := cyclicPred_below A hs (a + 1) 0 h0 (by omega)
    obtain ⟨q1, q2, q3⟩ := cyclicSucc_above A hs (a + 1) (a + b + 2) h2 (by omega)
    rw [hget _ (hb _ h1), hget _ (hb _ p3), hget _ (hb _ q3),
      rectPoint_top l t a b (a + 1) (by omega), rectPoint_top l t a b _ (by omega),
      rectPoint_right l t a b _ (by omega) q2]
    exact dist2Exact_pos_of_turn' _ _ _ rfl (by simp only []; omega)
      (by simp only []; omega) (by simp only []; omega)
  · obtain ⟨p1, p2, p3⟩ := cyclicPred_below A hs (a + b + 2) (a + 1) h1 (by omega)
    obtain ⟨q1, q2, q3⟩ := cyclicSucc_above A hs (a + b + 2) (2 * a + b + 3) h3 (by omega)
    rw [hget _ (hb _ h2), hget _ (hb _ p3), hget _ (hb _ q3),
      rectPoint_right l t a b (a + b + 2) (by omega) (by omega),
      rectPoint_right l t a b _ p1 (by omega),
      rectPoint_bottom l t a b _ (by omega) q2]
    exact dist2Exact_pos_of_turn _ _ _ rfl (by simp only []; omega)
      (by simp only []; omega) (by simp only []; omega)
  · obtain ⟨p1, p2, p3⟩ := cyclicPred_below A hs (2 * a + b + 3) (a + b + 2) h2 (by omega)
    rw [hget _ (hb _ h3), hget _ (hb _ p3),
      rectPoint_bottom l t a b (2 * a + b + 3) (by omega) (by omega),
      rectPoint_bottom l t a b _ p1 (by omega)]
    by_cases hmax : ∃ x ∈ A, 2 * a + b + 3 < x
    · obtain ⟨x, hx, hjx⟩ := hmax
      obtain ⟨q1, q2, q3⟩ := cyclicSucc_above A hs (2 * a + b + 3) x hx hjx
      have := hb _ q3
      rw [hget _ (hb _ q3), rectPoint_left l t a b _ (by omega)]
      exact dist2Exact_pos_of_turn' _ _ _ rfl (by simp only []; omega)
        (by simp only []; omega) (by simp only []; omega)
    · have hmax' : ∀ x ∈ A, x ≤ 2 * a + b + 3 := by
        intro x hx
        by_contra hlt
        exact hmax ⟨x, hx, by omega⟩
      obtain ⟨q1, q2⟩ := cyclicSucc_wrap A hs (2 * a + b + 3) hmax' 0 h0
      rw [hget _ (hb _ q2), rectPoint_top l t a b _ (by omega)]
      exact dist2Exact_pos_of_turn' _ _ _ rfl (by simp only []; omega)
        (by simp only []; omega) (by simp only []; omega)

theorem rectCorners_sorted (a b : Nat) : (rectCorners a b).Sorted (· < ·) := by
  unfold rectCorners List.Sorted
  refine List.Pairwise.cons ?_ (List.Pairwise.cons ?_ (List.Pairwise.cons ?_
    (List.Pairwise.cons ?_ List.Pairwise.nil)))
  · intro x hx
    simp only [List.mem_cons, List.mem_singleton, List.not_mem_nil, or_false] at hx
    omega
  · intro x hx
    simp only [List.mem_cons, List.mem_singleton, List.not_mem_nil, or_false] at hx
    omega
  · intro x hx
    simp only [List.mem_cons, List.mem_singleton, List.not_mem_nil, or_false] at hx
    omega
  · intro x hx
    cases hx

theorem rect_naiveStep (l t : Int) (a b : Nat) (A : List Nat) (hs : A.Sorted (· < ·))
    (hb : ∀ i ∈ A, i < 2 * a + 2 * b + 4) (hK : ∀ k ∈ rectCorners a b, k ∈ A)
    (hlen : 4 < A.length) :
    ∃ i ∈ A, i ∉ rectCorners a b ∧
      naiveStep dist2Exact ((List.range (2 * a + 2 * b + 4)).map (rectPoint l t a b)) A
        = A.erase i := by
  have h0 : 0 ∈ A := hK _ (by simp [rectCorners])
  have h1 : a + 1 ∈ A := hK _ (by simp [rectCorners])
  have h2 : a + b + 2 ∈ A := hK _ (by simp [rectCorners])
  have h3 : 2 * a + b + 3 ∈ A := hK _ (by simp [rectCorners])
  have hne : A ≠ [] := List.ne_nil_of_mem h0
  obtain ⟨i, hi, him, hmin⟩ := naiveArgmin_spec
    (naiveCost dist2Exact ((List.range (2 * a + 2 * b + 4)).map (rectPoint l t a b)) A) A hne
  refine ⟨i, him, ?_, by unfold naiveStep; rw [hi]⟩
  intro hic
  have hpos := rect_corner_cost l t a b A hs hb h0 h1 h2 h3 i hic
  have hex : ∃ j ∈ A, j ∉ rectCorners a b := by
    by_contra hall
    have hsub : A ⊆ rectCorners a b := by
      intro j hj
      by_contra hjc
      exact hall ⟨j, hj, hjc⟩
    have := (List.subperm_of_subset hs.nodup hsub).length_le
    simp only [rectCorners, List.length_cons, List.length_nil] at this
    omega
  obtain ⟨j, hj, hjc⟩ := hex
  simp only [rectCorners, List.mem_cons, List.mem_singleton, List.not_mem_nil, or_false,
    not_or] at hjc
  have hzero := rect_noncorner_cost l t a b A hs hb h0 h1 h2 h3 j hj hjc.1 hjc.2.1
    hjc.2.2.1 hjc.2.2.2
  rcases hmin j hj with h | ⟨h, _⟩
  · rw [hzero] at h
    exact absurd (lt_trans hpos h) (lt_irrefl _)
  · rw [hzero] at h
    rw [h] at hpos
    exact absurd hpos (lt_irrefl _)

theorem rect_iterate (l t : Int) (a b : Nat) : ∀ (r : Nat) (A : List Nat),
    A.Sorted (· < ·) → (∀ i ∈ A, i < 2 * a + 2 * b + 4) → (∀ k ∈ rectCorners a b, k ∈ A) →
    A.length = r + 4 →
    Nat.iterate
      (naiveStep dist2Exact ((List.range (2 * a + 2 * b + 4)).map (rectPoint l t a b))) r A
      = rectCorners a b := by
  intro r
  induction r with
  | zero =>
    intro A hs _ hK hlen
    have hperm : (rectCorners a b).Perm A :=
      (List.subperm_of_subset (rectCorners_sorted a b).nodup hK).perm_of_length_le
        (by rw [hlen]; simp [rectCorners])
    exact (List.eq_of_perm_of_sorted hperm (rectCorners_sorted a b) hs).symm
  | succ r ih =>
    intro A hs hb hK hlen
    obtain ⟨i, hi, hic, hstep⟩ := rect_naiveStep l t a b A hs hb hK (by omega)
    rw [Function.iterate_succ_apply, hstep]
    apply ih
    · exact hs.sublist (List.erase_sublist i A)
    · intro x hx
      exact hb x (List.mem_of_mem_erase hx)
    · intro k hk
      have : k ≠ i := fun e => hic (e ▸ hk)
      exact (List.mem_erase_of_ne this).2 (hK k hk)
    · rw [List.length_erase_of_mem hi, hlen]
      rfl

theorem rect_corner_points (l t : Int) (a b : Nat) :
    (rectCorners a b).map (rectPoint l t a b)
      = [⟨l, t⟩, ⟨l + ((a + 2 : Nat) : Int) - 1, t⟩,
          ⟨l + ((a + 2 : Nat) : Int) - 1, t + ((b + 2 : Nat) : Int) - 1⟩,
          ⟨l, t + ((b + 2 : Nat) : Int) - 1⟩] := by
  unfold rectCorners
  simp only [List.map_cons, List.map_nil]
  rw [rectPoint_top l t a b 0 (by omega), rectPoint_top l t a b (a + 1) (by omega),
    rectPoint_bottom l t a b (a + b + 2) (by omega) (by omega),
    rectPoint_left l t a b (2 * a + b + 3) (by omega)]
  simp only [List.cons.injEq, point2i.mk.injEq, and_true, true_and]
  omega

theorem rect_naiveSimplify (l t : Int) (a b : Nat) :
    naiveSimplify dist2Exact ((List.range (2 * a + 2 * b + 4)).map (rectPoint l t a b)) 4
      = (rectCorners a b).map (rectPoint l t a b) := by
  unfold naiveSimplify
  have hlen : ((List.range (2 * a + 2 * b + 4)).map (rectPoint l t a b)).length
      = 2 * a + 2 * b + 4 := by simp
  rw [hlen, rect_iterate l t a b (2 * a + 2 * b + 4 - 4) (List.range (2 * a + 2 * b + 4))
    (List.sorted_lt_range _) (fun i hi => List.mem_range.1 hi)
    (by
      intro k hk
      simp only [rectCorners, List.mem_cons, List.mem_singleton, List.not_mem_nil,
        or_false] at hk
      rw [List.mem_range]
      omega)
    (by rw [List.length_range]; omega)]
  apply List.map_congr_left
  intro k hk
  simp only [rectCorners, List.mem_cons, List.mem_singleton, List.not_mem_nil,
    or_false] at hk
  exact getD_map_range_point _ _ k (by omega)

/-- C13: for every axis-aligned rectangle of width `W >= 2` and height `H >= 2` with top-left
pixel `(l, t)`, with `c` its perimeter listed clockwise from the top-left pixel as built by
`makeRectContour`, `simplifyContour c 4` returns exactly the four corner pixels in the order
top-left, top-right, bottom-right, bottom-left. -/
theorem simplifyContour_rectangle (l t : Int) (W H : Nat) (hW : 2 ≤ W) (hH : 2 ≤ H) :
    simplifyContour (makeRectContour ⟨l, t⟩ ⟨l + (W : Int), t + (H : Int)⟩) 4
      = Except.ok [⟨l, t⟩, ⟨l + (W : Int) - 1, t⟩, ⟨l + (W : Int) - 1, t + (H : Int) - 1⟩,
          ⟨l, t + (H : Int) - 1⟩] := by
  obtain ⟨a, rfl⟩ : ∃ a, W = a + 2 := ⟨W - 2, by omega⟩
  obtain ⟨b, rfl⟩ : ∃ b, H = b + 2 := ⟨H - 2, by omega⟩
  rw [makeRectContour_eq_map, ← rect_corner_points l t a b]
  unfold simplifyContour
  by_cases hsmall : 2 * a + 2 * b + 4 ≤ 4
  · have hab : a = 0 ∧ b = 0 := by omega
    obtain ⟨rfl, rfl⟩ := hab
    rfl
  · rw [← rect_naiveSimplify l t a b]
    apply simplifyContourWith_refines dist2_point_to_line dist2Exact dist2_point_to_line_exact
    · decide
    · simp only [List.length_map, List.length_range]
      omega

set_option maxRecDepth 100000 in
/-- C13, at the rectangle of the test: from (2, 3) to (7, 8) exclusive. -/
theorem simplifyContour_rectangle_witness :
    simplifyContour (makeRectContour ⟨2, 3⟩ ⟨7, 8⟩) 4
      = Except.ok [⟨2, 3⟩, ⟨6, 3⟩, ⟨6, 7⟩, ⟨2, 7⟩] :=
  simplifyContour_rectangle 2 3 5 5 (by decide) (by decide)

/-! ## The boundary extractor is idempotent -/

theorem buildContourMask_get_fg_iff (m : image8u) (x y : Nat) (hx : x < m.width)
    (hy : y < m.height) :
    (buildContourMask m).get (y : Int) (x : Int) = kFg ↔ marks m x y = true := by
  rw [buildContourMask_get m x y hx hy]
  by_cases h : marks m x y = true
  · simp [h]
  · simp [h, kFg]

theorem marks_buildContourMask (m : image8u) (x y : Nat) (hx : x < m.width)
    (hy : y < m.height) : marks (buildContourMask m) x y = marks m x y := by
  have hiff : marks (buildContourMask m) x y = true ↔ marks m x y = true := by
    constructor
    · intro h
      rw [marks_iff] at h
      exact (buildContourMask_get_fg_iff m x y hx hy).1 h.1
    · intro h
      have h' := h
      rw [marks_iff] at h' ⊢
      refine ⟨(buildContourMask_get_fg_iff m x y hx hy).2 h, ?_⟩
      obtain ⟨_, dx, dy, hd, hcase⟩ := h'
      refine ⟨dx, dy, hd, ?_⟩
      rw [buildContourMask_width, buildContourMask_height]
      by_cases hin : inBounds ((x : Int) + dx) ((y : Int) + dy) m.width m.height = false
      · exact Or.inl hin
      · right
        rcases hcase with hout | hbg
        · exact absurd hout hin
        · have hin' : inBounds ((x : Int) + dx) ((y : Int) + dy) m.width m.height = true := by
            simpa using hin
          simp only [inBounds, Bool.and_eq_true, decide_eq_true_eq] at hin'
          obtain ⟨⟨⟨hx0, hx1⟩, hy0⟩, hy1⟩ := hin'
          obtain ⟨X, hX⟩ : ∃ X : Nat, (x : Int) + dx = X := ⟨((x : Int) + dx).toNat, by omega⟩
          obtain ⟨Y, hY⟩ : ∃ Y : Nat, (y : Int) + dy = Y := ⟨((y : Int) + dy).toNat, by omega⟩
          rw [hX, hY] at hbg ⊢
          intro hfg
          have hm := (buildContourMask_get_fg_iff m X Y (by omega) (by omega)).1 hfg
          rw [marks_iff] at hm
          exact hbg hm.1
  cases h1 : marks (buildContourMask m) x y <;> cases h2 : marks m x y <;> simp_all

/-- C24: `buildContourMask` is idempotent: applied to its own output it returns that
output, pixel for pixel and as a raster; every boundary pixel of the object is a boundary
pixel of the boundary mask, and nothing else is. -/
theorem buildContourMask_idempotent (m : image8u) :
    buildContourMask (buildContourMask m) = buildContourMask m ∧
    ∀ x y : Nat, x < m.width → y < m.height →
      ((buildContourMask (buildContourMask m)).get y x = (buildContourMask m).get y x ∧
        (marks (buildContourMask m) x y = true ↔ marks m x y = true)) := by
  have hget : ∀ x y : Nat, x < m.width → y < m.height →
      (buildContourMask (buildContourMask m)).get y x = (buildContourMask m).get y x := by
    intro x y hx hy
    rw [buildContourMask_get (buildContourMask m) x y
        (by rw [buildContourMask_width]; exact hx) (by rw [buildContourMask_height]; exact hy),
      buildContourMask_get m x y hx hy, marks_buildContourMask m x y hx hy]
  refine ⟨?_, fun x y hx hy => ⟨hget x y hx hy, by rw [marks_buildContourMask m x y hx hy]⟩⟩
  apply image8u_ext _ _ (buildContourMask_WF _) (buildContourMask_WF _)
    (by rw [buildContourMask_width]) (by rw [buildContourMask_height])
  intro x y hx hy
  rw [buildContourMask_width, buildContourMask_width] at hx
  rw [buildContourMask_height, buildContourMask_height] at hy
  exact hget x y hx hy

/-! ## The first returned point is the scan seed -/

theorem tracedContour_head_seed (m : image8u) (x y : Nat)
    (hs : findStart m = some ⟨x, y⟩)
    (hfirst : ∀ x' y' : Nat, x' < m.width → y' < m.height → ScannedBefore x' y' x y →
      m.get y' x' ≠ kFg) :
    ∃ rest, tracedContour m = (⟨x, y⟩ : point2i) :: rest ∧ (⟨x, y⟩ : point2i) ∉ rest := by
  by_cases hn : hasNeighbor m ⟨x, y⟩ = true
  · by_cases hst : (step m 4 ⟨x, y⟩ ⟨(x : Int) - 1, y⟩).1 = ⟨x, y⟩
    · rw [tracedContour_stuck m _ hs hst]
      exact ⟨[], rfl, by simp⟩
    · have htr := tracedContour_traced m _ hs hn hst
      obtain ⟨_, hcount⟩ := rawTrace_cyc_ne m ⟨x, y⟩
        (hasNeighbor_movable m _ (findStart_fg m _ hs) hn) hst
      have hperm : (tracedContour m).Perm (rawTrace m ⟨x, y⟩) := by
        rw [htr]
        exact (rotateToMinYX_perm _).trans (orient_perm _)
      have hcnt : (tracedContour m).count ⟨x, y⟩ = 1 := by
        rw [hperm.count_eq]
        exact hcount
      have hmemS : (⟨x, y⟩ : point2i) ∈ orient (rawTrace m ⟨x, y⟩) := by
        rw [(orient_perm _).mem_iff]
        exact List.count_pos_iff.1 (by rw [hcount]; exact Nat.one_pos)
      obtain ⟨rest, hr, hmin⟩ := rotateToMinYX_head (orient (rawTrace m ⟨x, y⟩))
        (List.ne_nil_of_mem hmemS)
      rw [← htr] at hr
      have hhead : (orient (rawTrace m ⟨x, y⟩)).getD
          (bestIndex (orient (rawTrace m ⟨x, y⟩))) default = ⟨x, y⟩ := by
        generalize (orient (rawTrace m ⟨x, y⟩)).getD
          (bestIndex (orient (rawTrace m ⟨x, y⟩))) default = hd at hr hmin
        have hfg := tracedContour_fg m hd (by rw [hr]; exact List.mem_cons_self _ _)
        have hin := isFg_inBounds m _ _ hfg
        have hget := isFg_get m _ _ hfg
        simp only [inBounds, Bool.and_eq_true, decide_eq_true_eq] at hin
        obtain ⟨⟨⟨hx0, hx1⟩, hy0⟩, hy1⟩ := hin
        obtain ⟨X, hX⟩ : ∃ X : Nat, hd.x = X := ⟨hd.x.toNat, by omega⟩
        obtain ⟨Y, hY⟩ : ∃ Y : Nat, hd.y = Y := ⟨hd.y.toNat, by omega⟩
        have h1 := hmin ⟨x, y⟩ hmemS
        have h2 : ¬ ScannedBefore X Y x y := by
          intro hsb
          apply hfirst X Y (by omega) (by omega) hsb
          rw [← hX, ← hY]
          exact hget
        unfold lexLt at h1
        unfold ScannedBefore at h2
        simp only [] at h1
        cases hd with
        | mk hx' hy' =>
          simp only [point2i.mk.injEq] at hX hY h1 ⊢
          omega
      rw [hhead] at hr
      refine ⟨rest, hr, ?_⟩
      intro hmem
      rw [hr, List.count_cons_self] at hcnt
      have := List.count_pos_iff.2 hmem
      omega
  · rw [tracedContour_isolated m _ hs (by simpa using hn)]
    exact ⟨[], rfl, by simp⟩

/-- C25: for a mask with at least one foreground pixel, the row-major scan finds a seed:
the foreground pixel with the smallest `y` and, among those, the smallest `x` over the
whole mask. `extractContour` returns a sequence whose first point is exactly this seed,
and the seed occurs exactly once in it. -/
theorem extractContour_first_is_seed (m : image8u) (x0 y0 : Nat) (hx0 : x0 < m.width)
    (hy0 : y0 < m.height) (hfg0 : m.get y0 x0 = 255) :
    ∃ (x y : Nat) (rest : List point2i),
      findStart m = some ⟨x, y⟩ ∧ x < m.width ∧ y < m.height ∧ m.get y x = 255 ∧
      (∀ x' y' : Nat, x' < m.width → y' < m.height → m.get y' x' = 255 →
        y < y' ∨ (y = y' ∧ x ≤ x')) ∧
      extractContour m = some ((⟨x, y⟩ : point2i) :: rest) ∧
      (⟨x, y⟩ : point2i) ∉ rest ∧
      ((⟨x, y⟩ : point2i) :: rest).count ⟨x, y⟩ = 1 := by
  rcases findStart_spec m with ⟨_, h0⟩ | ⟨x, y, hs, hx, hy, hfg, hfirst⟩
  · exact absurd hfg0 (h0 x0 y0 hx0 hy0)
  · obtain ⟨rest, hr, hnot⟩ := tracedContour_head_seed m x y hs hfirst
    refine ⟨x, y, rest, hs, hx, hy, hfg, ?_, by rw [extractContour_eq, hr], hnot, ?_⟩
    · intro x' y' hx' hy' hfg'
      by_contra hcon
      apply hfirst x' y' hx' hy' _ hfg'
      unfold ScannedBefore
      omega
    · rw [List.count_cons_self, List.count_eq_zero_of_not_mem hnot]

/-- C25, at a concrete mask: the 3-by-1 all-foreground mask, whose trace revisits the pixel
(1, 0) but not the seed (0, 0). -/
theorem extractContour_first_is_seed_witness :
    ∃ (x y : Nat) (rest : List point2i),
      findStart (hline 3) = some ⟨x, y⟩ ∧ x < (hline 3).width ∧ y < (hline 3).height ∧
      (hline 3).get y x = 255 ∧
      (∀ x' y' : Nat, x' < (hline 3).width → y' < (hline 3).height →
        (hline 3).get y' x' = 255 → y < y' ∨ (y = y' ∧ x ≤ x')) ∧
      extractContour (hline 3) = some ((⟨x, y⟩ : point2i) :: rest) ∧
      (⟨x, y⟩ : point2i) ∉ rest ∧
      ((⟨x, y⟩ : point2i) :: rest).count ⟨x, y⟩ = 1 :=
  extractContour_first_is_seed (hline 3) 2 0 (by decide) (by decide) (by decide)

/-! ## The removal cost is the squared distance to the line -/

theorem dist2Exact_of_eq (p a b : point2i) (h : a = b) :
    dist2Exact p a b
      = ((p.x : ℚ) - (a.x : ℚ)) * ((p.x : ℚ) - (a.x : ℚ))
        + ((p.y : ℚ) - (a.y : ℚ)) * ((p.y : ℚ) - (a.y : ℚ)) := by
  subst h
  unfold dist2Exact
  simp

theorem dist2Exact_baseline_ne (a b : point2i) (h : a ≠ b) :
    ((b.x : ℚ) - (a.x : ℚ)) * ((b.x : ℚ) - (a.x : ℚ))
      + ((b.y : ℚ) - (a.y : ℚ)) * ((b.y : ℚ) - (a.y : ℚ)) ≠ 0 := by
  intro h0
  have h1 := mul_self_nonneg ((b.x : ℚ) - (a.x : ℚ))
  have h2 := mul_self_nonneg ((b.y : ℚ) - (a.y : ℚ))
  have e1 : ((b.x : ℚ) - (a.x : ℚ)) * ((b.x : ℚ) - (a.x : ℚ)) = 0 := by linarith
  have e2 : ((b.y : ℚ) - (a.y : ℚ)) * ((b.y : ℚ) - (a.y : ℚ)) = 0 := by linarith
  have e3 := mul_self_eq_zero.1 e1
  have e4 := mul_self_eq_zero.1 e2
  apply h
  cases a with
  | mk ax ay =>
    cases b with
    | mk bx by' =>
      simp only [point2i.mk.injEq]
      simp only [] at e3 e4
      constructor
      · have : (bx : ℚ) = (ax : ℚ) := by linarith
        exact_mod_cast this.symm
      · have : (by' : ℚ) = (ay : ℚ) := by linarith
        exact_mod_cast this.symm

theorem dist2Exact_of_ne (p a b : point2i) (h : a ≠ b) :
    dist2Exact p a b
      = (((b.x : ℚ) - (a.x : ℚ)) * ((p.y : ℚ) - (a.y : ℚ))
          - ((b.y : ℚ) - (a.y : ℚ)) * ((p.x : ℚ) - (a.x : ℚ))) ^ 2
        / (((b.x : ℚ) - (a.x : ℚ)) ^ 2 + ((b.y : ℚ) - (a.y : ℚ)) ^ 2) := by
  unfold dist2Exact
  simp only []
  rw [if_neg (dist2Exact_baseline_ne a b h)]
  ring

theorem sqDist_line_ge (vx vy wx wy s : ℝ) (hvv : 0 < vx ^ 2 + vy ^ 2) :
    (vx * wy - vy * wx) ^ 2 / (vx ^ 2 + vy ^ 2)
      ≤ (wx - s * vx) ^ 2 + (wy - s * vy) ^ 2 := by
  rw [div_le_iff₀ hvv]
  have : ((wx - s * vx) ^ 2 + (wy - s * vy) ^ 2) * (vx ^ 2 + vy ^ 2) - (vx * wy - vy * wx) ^ 2
      = (s * (vx ^ 2 + vy ^ 2) - (wx * vx + wy * vy)) ^ 2 := by ring
  nlinarith [sq_nonneg (s * (vx ^ 2 + vy ^ 2) - (wx * vx + wy * vy))]

theorem sqDist_line_attained (vx vy wx wy : ℝ) (hvv : 0 < vx ^ 2 + vy ^ 2) :
    (vx * wy - vy * wx) ^ 2 / (vx ^ 2 + vy ^ 2)
      = (wx - (wx * vx + wy * vy) / (vx ^ 2 + vy ^ 2) * vx) ^ 2
        + (wy - (wx * vx + wy * vy) / (vx ^ 2 + vy ^ 2) * vy) ^ 2 := by
  have hne : vx ^ 2 + vy ^ 2 ≠ 0 := ne_of_gt hvv
  field_simp
  ring

/-- C21: for all integer points `p`, `a`, `b` the removal cost `dist2_point_to_line p a b`
is a fraction with a positive denominator whose value as an exact rational is:
`|p - a|^2` when `a = b`; and when `a != b` the square of `cross (b - a) (p - a)` over
`|b - a|^2`, which is the least value over real `s` of `|p - (a + s (b - a))|^2`, the
squared Euclidean distance from `p` to the line through `a` and `b`. The value is never
negative, and for `a != b` it is zero exactly when `p`, `a`, `b` are collinear. -/
theorem dist2_point_to_line_spec (p a b : point2i) :
    (∃ num den : Int, dist2_point_to_line p a b = Cost.frac num den ∧ 0 < den) ∧
    (a = b → (dist2_point_to_line p a b).toRat
      = ((p.x : ℚ) - (a.x : ℚ)) ^ 2 + ((p.y : ℚ) - (a.y : ℚ)) ^ 2) ∧
    (a ≠ b →
      (dist2_point_to_line p a b).toRat
        = (((b.x : ℚ) - (a.x : ℚ)) * ((p.y : ℚ) - (a.y : ℚ))
            - ((b.y : ℚ) - (a.y : ℚ)) * ((p.x : ℚ) - (a.x : ℚ))) ^ 2
          / (((b.x : ℚ) - (a.x : ℚ)) ^ 2 + ((b.y : ℚ) - (a.y : ℚ)) ^ 2) ∧
      (∀ s : ℝ, (((dist2_point_to_line p a b).toRat : ℚ) : ℝ)
        ≤ ((p.x : ℝ) - ((a.x : ℝ) + s * ((b.x : ℝ) - (a.x : ℝ)))) ^ 2
          + ((p.y : ℝ) - ((a.y : ℝ) + s * ((b.y : ℝ) - (a.y : ℝ)))) ^ 2) ∧
      (∃ s : ℝ, (((dist2_point_to_line p a b).toRat : ℚ) : ℝ)
        = ((p.x : ℝ) - ((a.x : ℝ) + s * ((b.x : ℝ) - (a.x : ℝ)))) ^ 2
          + ((p.y : ℝ) - ((a.y : ℝ) + s * ((b.y : ℝ) - (a.y : ℝ)))) ^ 2) ∧
      ((dist2_point_to_line p a b).toRat = 0 ↔
        (b.x - a.x) * (p.y - a.y) - (b.y - a.y) * (p.x - a.x) = 0)) ∧
    0 ≤ (dist2_point_to_line p a b).toRat := by
  obtain ⟨num, den, hfrac, hden, hval⟩ := dist2_point_to_line_exact p a b
  have hrat : (dist2_point_to_line p a b).toRat = dist2Exact p a b := by
    rw [hfrac]
    exact hval
  have hnonneg : 0 ≤ dist2Exact p a b := by
    by_cases h : a = b
    · rw [dist2Exact_of_eq p a b h]
      exact add_nonneg (mul_self_nonneg _) (mul_self_nonneg _)
    · rw [dist2Exact_of_ne p a b h]
      exact div_nonneg (sq_nonneg _) (add_nonneg (sq_nonneg _) (sq_nonneg _))
  refine ⟨⟨num, den, hfrac, hden⟩, ?_, ?_, by rw [hrat]; exact hnonneg⟩
  · intro h
    rw [hrat, dist2Exact_of_eq p a b h]
    ring
  · intro h
    have hvvq : ((b.x : ℚ) - (a.x : ℚ)) ^ 2 + ((b.y : ℚ) - (a.y : ℚ)) ^ 2 ≠ 0 := by
      have := dist2Exact_baseline_ne a b h
      intro h0
      apply this
      rw [← h0]
      ring
    have hvvr : (0 : ℝ) < ((b.x : ℝ) - (a.x : ℝ)) ^ 2 + ((b.y : ℝ) - (a.y : ℝ)) ^ 2 := by
      have hq : (0 : ℚ) < ((b.x : ℚ) - (a.x : ℚ)) ^ 2 + ((b.y : ℚ) - (a.y : ℚ)) ^ 2 :=
        lt_of_le_of_ne (add_nonneg (sq_nonneg _) (sq_nonneg _)) (Ne.symm hvvq)
      exact_mod_cast hq
    have hreal : (((dist2_point_to_line p a b).toRat : ℚ) : ℝ)
        = (((b.x : ℝ) - (a.x : ℝ)) * ((p.y : ℝ) - (a.y : ℝ))
            - ((b.y : ℝ) - (a.y : ℝ)) * ((p.x : ℝ) - (a.x : ℝ))) ^ 2
          / (((b.x : ℝ) - (a.x : ℝ)) ^ 2 + ((b.y : ℝ) - (a.y : ℝ)) ^ 2) := by
      rw [hrat, dist2Exact_of_ne p a b h]
      push_cast
      ring
    refine ⟨by rw [hrat, dist2Exact_of_ne p a b h], ?_, ?_, ?_⟩
    · intro s
      rw [hreal]
      have := sqDist_line_ge ((b.x : ℝ) - (a.x : ℝ)) ((b.y : ℝ) - (a.y : ℝ))
        ((p.x : ℝ) - (a.x : ℝ)) ((p.y : ℝ) - (a.y : ℝ)) s hvvr
      calc _ ≤ _ := this
        _ = _ := by ring
    · refine ⟨(((p.x : ℝ) - (a.x : ℝ)) * ((b.x : ℝ) - (a.x : ℝ))
          + ((p.y : ℝ) - (a.y : ℝ)) * ((b.y : ℝ) - (a.y : ℝ)))
          / (((b.x : ℝ) - (a.x : ℝ)) ^ 2 + ((b.y : ℝ) - (a.y : ℝ)) ^ 2), ?_⟩
      rw [hreal, sqDist_line_attained _ _ _ _ hvvr]
      ring
    · rw [hrat, dist2Exact_of_ne p a b h, div_eq_zero_iff]
      constructor
      · rintro (h0 | h0)
        · have := pow_eq_zero_iff (two_ne_zero) |>.1 h0
          exact_mod_cast this
        · exact absurd h0 hvvq
      · intro h0
        left
        have : ((b.x : ℚ) - (a.x : ℚ)) * ((p.y : ℚ) - (a.y : ℚ))
            - ((b.y : ℚ) - (a.y : ℚ)) * ((p.x : ℚ) - (a.x : ℚ)) = 0 := by exact_mod_cast h0
        rw [this]
        norm_num

/-- C21, at concrete points: the cost of `(1, 1)` over the baseline from `(0, 0)` to
`(2, 0)` is not negative, and it is zero exactly when the cross product is. -/
theorem dist2_point_to_line_spec_witness :
    0 ≤ (dist2_point_to_line ⟨1, 1⟩ ⟨0, 0⟩ ⟨2, 0⟩).toRat ∧
    ((dist2_point_to_line ⟨1, 1⟩ ⟨0, 0⟩ ⟨2, 0⟩).toRat = 0 ↔
      ((2 : Int) - 0) * (1 - 0) - (0 - 0) * (1 - 0) = 0) :=
  ⟨(dist2_point_to_line_spec ⟨1, 1⟩ ⟨0, 0⟩ ⟨2, 0⟩).2.2.2,
    ((dist2_point_to_line_spec ⟨1, 1⟩ ⟨0, 0⟩ ⟨2, 0⟩).2.2.1 (by decide)).2.2.2⟩

/-! ## The joined sides are the contour rotated to its first corner -/

theorem sum_length_sides (sides : List (List point2i)) (hne : ∀ s ∈ sides, s ≠ []) :
    (sides.map List.length).sum = (joinSides sides).length + sides.length := by
  induction sides with
  | nil => simp [joinSides]
  | cons s rest ih =>
    have hs : s ≠ [] := hne s (List.mem_cons_self _ _)
    have hlen : s.length = s.dropLast.length + 1 := by
      rw [List.length_dropLast]
      have := List.length_pos.2 hs
      omega
    have ih' := ih (fun t ht => hne t (List.mem_cons_of_mem _ ht))
    unfold joinSides at ih' ⊢
    simp only [List.map_cons, List.sum_cons, List.flatten_cons, List.length_append,
      List.length_cons]
    omega

theorem splitContourByCorners_ok_valid (c corners : List point2i)
    (sides : List (List point2i)) (hc : c ≠ []) (hcorners : corners ≠ [])
    (hok : splitContourByCorners c corners = Except.ok sides) :
    (∀ p ∈ corners, p ∈ c) ∧ 2 ≤ corners.dedup.length := by
  have hall : ∀ p ∈ corners, p ∈ c := by
    intro p hp
    by_contra hpc
    rw [splitContourByCorners_missing c corners hc ⟨p, hp, hpc⟩] at hok
    cases hok
  refine ⟨hall, ?_⟩
  by_contra hlt
  obtain ⟨I, hI, herr, _⟩ := splitContourByCorners_spec c corners hc hcorners hall
  rw [herr (by rw [cornerIndexList_length c corners I hall hI]; omega)] at hok
  cases hok

/-- C22: for a non-empty sequence `c` of length `n` and a corner list with at least one
corner that `splitContourByCorners` accepts, let `i0` be the smallest index of `c` that
holds a corner. The returned sides, joined in order after removing from each its final
point, are `c` rotated left by `i0` positions, `[c[i0], ..., c[n-1], c[0], ..., c[i0-1]]`,
and the sides have `n` plus the number of sides points in total. -/
theorem splitContourByCorners_join_rotate (c corners : List point2i)
    (sides : List (List point2i)) (hc : c ≠ []) (hcorners : corners ≠ [])
    (hok : splitContourByCorners c corners = Except.ok sides) :
    ∃ i0, i0 < c.length ∧ c.getD i0 default ∈ corners ∧
      (∀ j, j < i0 → c.getD j default ∉ corners) ∧
      joinSides sides = c.drop i0 ++ c.take i0 ∧
      joinSides sides = c.rotate i0 ∧
      (sides.map List.length).sum = c.length + sides.length := by
  obtain ⟨hall, h2⟩ := splitContourByCorners_ok_valid c corners sides hc hcorners hok
  obtain ⟨I, hI, hlen, hb, hok'⟩ := splitContourByCorners_valid c corners hall h2
  rw [hok'] at hok
  have hsides : sides = arcsOf c I := by
    injection hok with h
    exact h.symm
  subst hsides
  obtain ⟨hhead, hbefore⟩ := cornerIndexList_head c corners I hI (by omega)
  have hjoin := joinSides_arcsOf c I hI.1 hb (by omega)
  have hi0 := hb _ (getD_mem I 0 0 (by omega))
  refine ⟨I.getD 0 0, hi0, hhead, hbefore, ?_, hjoin, ?_⟩
  · rw [hjoin, List.rotate_eq_drop_append_take (Nat.le_of_lt hi0)]
  · rw [sum_length_sides, hjoin, List.length_rotate]
    intro s hs
    unfold arcsOf at hs
    obtain ⟨k, _, rfl⟩ := List.mem_map.1 hs
    intro hnil
    have := cyclicArc_length c (I.getD k 0) (I.getD ((k + 1) % I.length) 0)
    rw [hnil] at this
    simp at this

/-- C22, at a concrete contour: the square `(0,0), (1,0), (1,1), (0,1)` with the corners
`(1,0)` and `(0,1)`; the joined sides start at `(1,0)`. -/
theorem splitContourByCorners_join_rotate_witness :
    ∃ i0, i0 < ([⟨0, 0⟩, ⟨1, 0⟩, ⟨1, 1⟩, ⟨0, 1⟩] : List point2i).length ∧
      ([⟨0, 0⟩, ⟨1, 0⟩, ⟨1, 1⟩, ⟨0, 1⟩] : List point2i).getD i0 default
        ∈ [(⟨1, 0⟩ : point2i), ⟨0, 1⟩] ∧
      (∀ j, j < i0 → ([⟨0, 0⟩, ⟨1, 0⟩, ⟨1, 1⟩, ⟨0, 1⟩] : List point2i).getD j default
        ∉ [(⟨1, 0⟩ : point2i), ⟨0, 1⟩]) ∧
      joinSides [[⟨1, 0⟩, ⟨1, 1⟩, ⟨0, 1⟩], [⟨0, 1⟩, ⟨0, 0⟩, ⟨1, 0⟩]]
        = ([⟨0, 0⟩, ⟨1, 0⟩, ⟨1, 1⟩, ⟨0, 1⟩] : List point2i).drop i0
          ++ ([⟨0, 0⟩, ⟨1, 0⟩, ⟨1, 1⟩, ⟨0, 1⟩] : List point2i).take i0 ∧
      joinSides [[⟨1, 0⟩, ⟨1, 1⟩, ⟨0, 1⟩], [⟨0, 1⟩, ⟨0, 0⟩, ⟨1, 0⟩]]
        = ([⟨0, 0⟩, ⟨1, 0⟩, ⟨1, 1⟩, ⟨0, 1⟩] : List point2i).rotate i0 ∧
      (([[⟨1, 0⟩, ⟨1, 1⟩, ⟨0, 1⟩], [⟨0, 1⟩, ⟨0, 0⟩, ⟨1, 0⟩]] :
          List (List point2i)).map List.length).sum
        = ([⟨0, 0⟩, ⟨1, 0⟩, ⟨1, 1⟩, ⟨0, 1⟩] : List point2i).length
          + ([[⟨1, 0⟩, ⟨1, 1⟩, ⟨0, 1⟩], [⟨0, 1⟩, ⟨0, 0⟩, ⟨1, 0⟩]] :
              List (List point2i)).length :=
  splitContourByCorners_join_rotate [⟨0, 0⟩, ⟨1, 0⟩, ⟨1, 1⟩, ⟨0, 1⟩] [⟨1, 0⟩, ⟨0, 1⟩]
    [[⟨1, 0⟩, ⟨1, 1⟩, ⟨0, 1⟩], [⟨0, 1⟩, ⟨0, 0⟩, ⟨1, 0⟩]] (by decide) (by decide) (by rfl)

/-! ## The reference procedure under a renumbering of the indices -/

theorem cyclicPred_mem (A : List Nat) (i : Nat) (hi : i ∈ A) : cyclicPred A i ∈ A := by
  unfold cyclicPred
  cases h1 : (A.filter (fun (j : Nat) => decide (j < i))).getLast? with
  | some z => exact (List.mem_filter.1 (List.mem_of_mem_getLast? h1)).1
  | none =>
    cases h2 : A.getLast? with
    | some z => exact List.mem_of_mem_getLast? h2
    | none => exact hi

theorem cyclicSucc_mem (A : List Nat) (i : Nat) (hi : i ∈ A) : cyclicSucc A i ∈ A := by
  unfold cyclicSucc
  cases h1 : (A.filter (fun (j : Nat) => decide (i < j))).head? with
  | some z => exact (List.mem_filter.1 (List.mem_of_mem_head? h1)).1
  | none =>
    cases h2 : A.head? with
    | some z => exact List.mem_of_mem_head? h2
    | none => exact hi

theorem cyclicPred_map (e : Nat → Nat) (he : StrictMono e) (B : List Nat) (i : Nat) :
    cyclicPred (B.map e) (e i) = e (cyclicPred B i) := by
  unfold cyclicPred
  have hf : (B.map e).filter (fun (j : Nat) => decide (j < e i))
      = (B.filter (fun (j : Nat) => decide (j < i))).map e := by
    rw [List.filter_map]
    congr 1
    apply List.filter_congr
    intro x _
    simp only [Function.comp, he.lt_iff_lt]
  rw [hf, List.getLast?_map, List.getLast?_map]
  cases (B.filter (fun (j : Nat) => decide (j < i))).getLast? with
  | some z => rfl
  | none =>
    cases B.getLast? with
    | some z => rfl
    | none => rfl

theorem cyclicSucc_map (e : Nat → Nat) (he : StrictMono e) (B : List Nat) (i : Nat) :
    cyclicSucc (B.map e) (e i) = e (cyclicSucc B i) := by
  unfold cyclicSucc
  have hf : (B.map e).filter (fun (j : Nat) => decide (e i < j))
      = (B.filter (fun (j : Nat) => decide (i < j))).map e := by
    rw [List.filter_map]
    congr 1
    apply List.filter_congr
    intro x _
    simp only [Function.comp, he.lt_iff_lt]
  rw [hf, List.head?_map, List.head?_map]
  cases (B.filter (fun (j : Nat) => decide (i < j))).head? with
  | some z => rfl
  | none =>
    cases B.head? with
    | some z => rfl
    | none => rfl

theorem naiveCost_map (costR : point2i → point2i → point2i → ℚ) (c r : List point2i)
    (e : Nat → Nat) (he : StrictMono e) (B : List Nat)
    (hpts : ∀ j ∈ B, c.getD (e j) default = r.getD j default) (i : Nat) (hi : i ∈ B) :
    naiveCost costR c (B.map e) (e i) = naiveCost costR r B i := by
  unfold naiveCost
  rw [cyclicPred_map e he, cyclicSucc_map e he, hpts i hi,
    hpts _ (cyclicPred_mem B i hi), hpts _ (cyclicSucc_mem B i hi)]

theorem naiveStep_sublist (costR : point2i → point2i → point2i → ℚ) (c : List point2i)
    (A : List Nat) : (naiveStep costR c A).Sublist A := by
  unfold naiveStep
  cases naiveArgmin (naiveCost costR c A) A with
  | none => exact List.Sublist.refl A
  | some i => exact List.erase_sublist i A

theorem naiveStep_map (costR : point2i → point2i → point2i → ℚ) (c r : List point2i)
    (e : Nat → Nat) (he : StrictMono e) (B : List Nat)
    (hpts : ∀ j ∈ B, c.getD (e j) default = r.getD j default) :
    naiveStep costR c (B.map e) = (naiveStep costR r B).map e := by
  cases hB : B with
  | nil => rfl
  | cons b0 bs =>
    rw [← hB]
    have hne : B ≠ [] := by rw [hB]; simp
    obtain ⟨i, hi, him, hmin⟩ := naiveArgmin_spec (naiveCost costR r B) B hne
    have hmap : naiveArgmin (naiveCost costR c (B.map e)) (B.map e) = some (e i) := by
      apply naiveArgmin_eq _ _ _ (List.mem_map_of_mem e him)
      intro j hj
      obtain ⟨j', hj', rfl⟩ := List.mem_map.1 hj
      rw [naiveCost_map costR c r e he B hpts i him, naiveCost_map costR c r e he B hpts j' hj']
      rcases hmin j' hj' with h | ⟨h1, h2⟩
      · exact Or.inl h
      · exact Or.inr ⟨h1, he.monotone h2⟩
    unfold naiveStep
    rw [hmap, hi]
    simp only []
    exact (List.map_erase he.injective B).symm

theorem naiveIterate_sublist (costR : point2i → point2i → point2i → ℚ) (c : List point2i)
    (j : Nat) (A : List Nat) : (Nat.iterate (naiveStep costR c) j A).Sublist A := by
  induction j generalizing A with
  | zero => exact List.Sublist.refl A
  | succ j ih =>
    rw [Function.iterate_succ_apply]
    exact (ih _).trans (naiveStep_sublist costR c A)

theorem naiveIterate_map (costR : point2i → point2i → point2i → ℚ) (c r : List point2i)
    (e : Nat → Nat) (he : StrictMono e) (j : Nat) :
    ∀ (B : List Nat), (∀ x ∈ B, c.getD (e x) default = r.getD x default) →
      Nat.iterate (naiveStep costR c) j (B.map e)
        = (Nat.iterate (naiveStep costR r) j B).map e := by
  induction j with
  | zero => intro B _; rfl
  | succ j ih =>
    intro B hpts
    rw [Function.iterate_succ_apply, Function.iterate_succ_apply,
      naiveStep_map costR c r e he B hpts]
    exact ih _ (fun x hx => hpts x ((naiveStep_sublist costR r B).subset hx))

theorem naiveStep_length (costR : point2i → point2i → point2i → ℚ) (c : List point2i)
    (A : List Nat) : (naiveStep costR c A).length = A.length - 1 := by
  cases hA : A with
  | nil => rfl
  | cons a0 as =>
    rw [← hA]
    obtain ⟨i, hi, him, _⟩ := naiveArgmin_spec (naiveCost costR c A) A (by rw [hA]; simp)
    unfold naiveStep
    rw [hi]
    exact List.length_erase_of_mem him

theorem naiveIterate_length (costR : point2i → point2i → point2i → ℚ) (c : List point2i)
    (j : Nat) (A : List Nat) :
    (Nat.iterate (naiveStep costR c) j A).length = A.length - j := by
  induction j generalizing A with
  | zero => rfl
  | succ j ih =>
    rw [Function.iterate_succ_apply, ih, naiveStep_length]
    omega

theorem map_getD_range_nat (A : List Nat) :
    (List.range A.length).map (fun (i : Nat) => A.getD i 0) = A := by
  apply List.ext_getElem (by simp)
  intro i h1 h2
  simp [List.getD_eq_getElem?_getD, List.getElem?_eq_getElem h2]

theorem naiveSimplify_eq (costR : point2i → point2i → point2i → ℚ) (c : List point2i)
    (t : Nat) :
    naiveSimplify costR c t
      = (Nat.iterate (naiveStep costR c) (c.length - t) (List.range c.length)).map
          (fun (i : Nat) => c.getD i default) := rfl

theorem naiveSimplify_two_stage (costR : point2i → point2i → point2i → ℚ)
    (c : List point2i) (k m : Nat) (hkm : k ≤ m) (hm : m ≤ c.length) :
    naiveSimplify costR (naiveSimplify costR c m) k = naiveSimplify costR c k := by
  have hA0l : (Nat.iterate (naiveStep costR c) (c.length - m) (List.range c.length)).length
      = m := by
    rw [naiveIterate_length, List.length_range]
    omega
  have hA0sub := naiveIterate_sublist costR c (c.length - m) (List.range c.length)
  have hA0s := (List.sorted_lt_range c.length).sublist hA0sub
  have hA0b : ∀ x ∈ Nat.iterate (naiveStep costR c) (c.length - m) (List.range c.length),
      x < c.length := fun x hx => List.mem_range.1 (hA0sub.subset hx)
  have hrlen : (naiveSimplify costR c m).length = m := by
    unfold naiveSimplify
    rw [List.length_map, hA0l]
  generalize hA0 : Nat.iterate (naiveStep costR c) (c.length - m) (List.range c.length) = A0
    at hA0l hA0s hA0b
  have hr : naiveSimplify costR c m = A0.map (fun (i : Nat) => c.getD i default) := by
    unfold naiveSimplify
    rw [hA0]
  have he : StrictMono (fun (i : Nat) => if i < m then A0.getD i 0 else c.length + i) := by
    intro i j hij
    simp only []
    by_cases hj : j < m
    · rw [if_pos (by omega), if_pos hj]
      exact sorted_getD_lt A0 hA0s i j hij (by omega)
    · rw [if_neg hj]
      by_cases hi : i < m
      · rw [if_pos hi]
        have := hA0b _ (getD_mem A0 i 0 (by omega))
        omega
      · rw [if_neg hi]
        omega
  have hmap : (List.range m).map (fun (i : Nat) => if i < m then A0.getD i 0 else c.length + i)
      = A0 := by
    have h1 := map_getD_range_nat A0
    rw [hA0l] at h1
    rw [← h1]
    apply List.map_congr_left
    intro i hi
    rw [if_pos (List.mem_range.1 hi), h1]
  have hpts : ∀ x ∈ List.range m,
      c.getD ((fun (i : Nat) => if i < m then A0.getD i 0 else c.length + i) x) default
        = (naiveSimplify costR c m).getD x default := by
    intro x hx
    have hxm := List.mem_range.1 hx
    simp only []
    rw [if_pos hxm, hr, List.getD_eq_getElem?_getD (A0.map _), List.getElem?_map,
      List.getD_eq_getElem?_getD A0, List.getElem?_eq_getElem (by omega)]
    rfl
  have hsim := naiveIterate_map costR c (naiveSimplify costR c m) _ he (m - k)
    (List.range m) hpts
  rw [hmap] at hsim
  have hsplit : c.length - k = (m - k) + (c.length - m) := by omega
  have hlhs : naiveSimplify costR (naiveSimplify costR c m) k
      = (Nat.iterate (naiveStep costR (naiveSimplify costR c m)) (m - k) (List.range m)).map
          (fun (i : Nat) => (naiveSimplify costR c m).getD i default) := by
    rw [naiveSimplify_eq costR (naiveSimplify costR c m) k, hrlen]
  have hrhs : naiveSimplify costR c k
      = (Nat.iterate (naiveStep costR c) (m - k) A0).map
          (fun (i : Nat) => c.getD i default) := by
    rw [naiveSimplify_eq costR c k, hsplit, Function.iterate_add_apply, hA0]
  rw [hlhs, hrhs, hsim, List.map_map]
  apply List.map_congr_left
  intro x hx
  have hxr := (naiveIterate_sublist costR (naiveSimplify costR c m) (m - k)
    (List.range m)).subset hx
  exact (hpts x hxr).symm

/-! ## Simplifying in two stages -/

theorem simplifyContourWith_noop (costf : point2i → point2i → point2i → Cost)
    (c : List point2i) (t : Nat) (h : c.length ≤ t) :
    simplifyContourWith costf c t = Except.ok c := by
  unfold simplifyContourWith
  cases c with
  | nil => simp
  | cons a l =>
    have ht : t ≠ 0 := by
      simp only [List.length_cons] at h
      omega
    simp only [List.isEmpty_cons, Bool.false_eq_true, or_false]
    rw [if_neg ht, if_pos h]

theorem simplifyContourWith_zero (costf : point2i → point2i → point2i → Cost)
    (c : List point2i) : simplifyContourWith costf c 0 = Except.ok [] := by
  unfold simplifyContourWith
  simp

theorem simplifyContourWith_ok_sublist (costf : point2i → point2i → point2i → Cost)
    (c : List point2i) (t : Nat) :
    ∃ r, simplifyContourWith costf c t = Except.ok r ∧ r.Sublist c := by
  rcases Nat.eq_zero_or_pos t with rfl | h0
  · exact ⟨[], simplifyContourWith_zero costf c, List.nil_sublist c⟩
  · rcases Nat.lt_or_ge c.length t with hlt | hge
    · exact ⟨c, simplifyContourWith_noop costf c t (by omega), List.Sublist.refl c⟩
    · obtain ⟨r, hr, _, hsub⟩ := simplifyContourWith_sublist costf c t h0 hge
      exact ⟨r, hr, hsub⟩

theorem simplifyContourWith_two_stage (costf : point2i → point2i → point2i → Cost)
    (costR : point2i → point2i → point2i → ℚ)
    (hcost : ∀ p a b, ∃ num den, costf p a b = Cost.frac num den ∧ 0 < den ∧
      (num : ℚ) / (den : ℚ) = costR p a b)
    (c : List point2i) (k m : Nat) (hkm : k ≤ m) :
    ∃ r, simplifyContourWith costf c m = Except.ok r ∧
      simplifyContourWith costf r k = simplifyContourWith costf c k := by
  rcases Nat.eq_zero_or_pos k with rfl | hk
  · obtain ⟨r, hr, _⟩ := simplifyContourWith_ok_sublist costf c m
    exact ⟨r, hr, by rw [simplifyContourWith_zero, simplifyContourWith_zero]⟩
  · rcases Nat.lt_or_ge m c.length with hlt | hge
    · have hr := simplifyContourWith_refines costf costR hcost c m (by omega) hlt
      have hrlen : (naiveSimplify costR c m).length = m := by
        rw [naiveSimplify_eq, List.length_map, naiveIterate_length, List.length_range]
        omega
      refine ⟨naiveSimplify costR c m, hr, ?_⟩
      rcases Nat.lt_or_ge k m with hkm' | hkm'
      · rw [simplifyContourWith_refines costf costR hcost _ k hk (by rw [hrlen]; exact hkm'),
          simplifyContourWith_refines costf costR hcost c k hk (by omega),
          naiveSimplify_two_stage costR c k m hkm (by omega)]
      · have : k = m := by omega
        subst this
        rw [simplifyContourWith_noop costf _ k (by rw [hrlen]), hr]
    · exact ⟨c, simplifyContourWith_noop costf c m hge, rfl⟩

/-- C23: for every point sequence `c` and all targets `k <= m`, simplifying in two stages
equals simplifying once: `simplifyContour c m` returns a sequence `r`, and
`simplifyContour r k = simplifyContour c k`. Consequently the result of
`simplifyContour c k` is an order-preserving subsequence of `r`: a vertex kept at the
smaller target is kept at every larger target. -/
theorem simplifyContour_two_stage (c : List point2i) (k m : Nat) (hkm : k ≤ m) :
    ∃ r, simplifyContour c m = Except.ok r ∧
      simplifyContour r k = simplifyContour c k ∧
      ∃ r', simplifyContour c k = Except.ok r' ∧ r'.Sublist r := by
  obtain ⟨r, hr, heq⟩ := simplifyContourWith_two_stage dist2_point_to_line dist2Exact
    dist2_point_to_line_exact c k m hkm
  obtain ⟨r', hr', hsub⟩ := simplifyContourWith_ok_sublist dist2_point_to_line r k
  refine ⟨r, hr, heq, r', ?_, hsub⟩
  unfold simplifyContour
  rw [← heq]
  exact hr'

/-- C23, at the contour of the test: the 16-point rectangle perimeter with the targets
`m = 8` and `k = 4`. -/
theorem simplifyContour_two_stage_witness :
    ∃ r, simplifyContour (makeRectContour ⟨2, 3⟩ ⟨7, 8⟩) 8 = Except.ok r ∧
      simplifyContour r 4 = simplifyContour (makeRectContour ⟨2, 3⟩ ⟨7, 8⟩) 4 ∧
      ∃ r', simplifyContour (makeRectContour ⟨2, 3⟩ ⟨7, 8⟩) 4 = Except.ok r' ∧
        r'.Sublist r :=
  simplifyContour_two_stage (makeRectContour ⟨2, 3⟩ ⟨7, 8⟩) 4 8 (by decide)

end CVPuzzleSolver
